import Mathlib

/-!
# GlobalSums (`src/core_ocean/mode_forward/globalsums.c`)

A shallow embedding of the summation kernels and of the two precision-reduction
transforms of `globalsums.c`, with the properties proved about them.

Conventions of the embedding.

* A C `double` that is only moved around or masked is its 64-bit pattern, a
  natural number below `2^64` (`bittruncate` works on the `ivalue` member of the
  `twiddler` union).
* `long ncells` is a natural number (the loops never run for `ncells <= 0`).
* Array reads and writes are checked: a read outside the allocated object, or of
  a cell of `malloc`ed storage that was never written, stops the run with an
  error instead of yielding a value.
* The arithmetic of the summation kernels is the arithmetic of the type they
  are instantiated at (`+`, `-`, `/` and `0` of that type): exact arithmetic, or
  the binary64 arithmetic `F64`.
* A routine returns the values handed to its closing `printf`; timing and the
  other printed lines are left out.
* A parallel region is described by the shares of its workers: the iterations each
  worker executes, worker by worker in the order in which the private copies of
  the reduction variables are combined.
* The functions of `<math.h>`, the conversions between `double` and the wider
  types, the reading of a `double` as its bit pattern and the text of the
  conversions of libquadmath are arguments of the routines that use them
  (`CMath`, `Widening`, `Twiddler`, `fmt`).
* The arithmetic of `int` in `digitround` and in the quad routines wraps around
  (32 bits, two's complement), and `abs(INT_MIN)` is `INT_MIN`.
-/

namespace GlobalSums

/-! ## `bittruncate` -/

/-- The macro `MIN(a,b) (((a)<(b))?(a):(b))`. -/
def MIN (a b : Nat) : Nat := if a < b then a else b

/-- The local table `unsigned long long bitmask[41]` of `bittruncate`, entry by
entry as written in the source. -/
def bitmask : List Nat := [
  0x00000000,
  0x00000001, 0x00000003, 0x00000007, 0x0000000F,
  0x0000001F, 0x0000003F, 0x0000007F, 0x000000FF,
  0x000001FF, 0x000003FF, 0x000007FF, 0x00000FFF,
  0x00001FFF, 0x00003FFF, 0x00007FFF, 0x0000FFFF,
  0x0001FFFF, 0x0003FFFF, 0x0007FFFF, 0x000FFFFF,
  0x001FFFFF, 0x003FFFFF, 0x007FFFFF, 0x00FFFFFF,
  0x01FFFFFF, 0x03FFFFFF, 0x07FFFFFF, 0x0FFFFFFF,
  0x1FFFFFFF, 0x3FFFFFFF, 0x7FFFFFFF, 0xFFFFFFFF,
  0x1FFFFFFFF, 0x3FFFFFFFF, 0x7FFFFFFFF, 0xFFFFFFFFF,
  0x1FFFFFFFFF, 0x3FFFFFFFFF, 0x7FFFFFFFFF, 0xFFFFFFFFFF]

/-- The operator `~` on an `unsigned long long`: the 64-bit complement. -/
def not64 (m : Nat) : Nat := 0xFFFFFFFFFFFFFFFF - m

/-- The function `bittruncate(var, nbits)` on the bit pattern of `var`:
`nbits = MIN(40,nbits); q.ivalue &= ~bitmask[nbits];`.  The table read is
checked: `none` stands for a read outside `bitmask[0..40]`. -/
def bittruncate (var : Nat) (nbits : Nat) : Option Nat :=
  let nbits := MIN 40 nbits
  match bitmask[nbits]? with
  | some m => some (var &&& not64 m)
  | none => none

/-- The sign bit of a 64-bit pattern (bit 63). -/
def signBit (x : Nat) : Nat := x / 2 ^ 63

/-- The 11-bit biased exponent field of a 64-bit pattern (bits 52..62). -/
def exponentField (x : Nat) : Nat := x / 2 ^ 52 % 2 ^ 11

/-- The 52-bit mantissa field of a 64-bit pattern (bits 0..51). -/
def mantissaField (x : Nat) : Nat := x % 2 ^ 52

/-- The magnitude field of a 64-bit pattern: its low 63 bits. -/
def magnitudeField (x : Nat) : Nat := x % 2 ^ 63

/-- The absolute value of the finite IEEE-754 binary64 number with pattern `x`
(exponent field below 2047): `m * 2^-1074` for a subnormal,
`(2^52 + m) * 2^(e - 1075)` for a normal number. -/
def absValue (x : Nat) : ℚ :=
  if exponentField x = 0 then (mantissaField x : ℚ) / 2 ^ 1074
  else ((2 ^ 52 + mantissaField x : Nat) : ℚ) * 2 ^ (exponentField x - 1) / 2 ^ 1074

/-- The value of the finite IEEE-754 binary64 number with pattern `x`. -/
def doubleValue (x : Nat) : ℚ :=
  if signBit x = 0 then absValue x else - absValue x

/-- The pattern `x` encodes a finite double: its exponent field is not all ones. -/
def isFinitePattern (x : Nat) : Prop := exponentField x < 2047

/-! ## Checked memory and the report -/

/-- The ways a run can stop at an array access instead of producing a value. -/
inductive MemError where
  /-- An access outside the bounds of the object. -/
  | out_of_bounds
  /-- A read of a cell of allocated storage that was never written. -/
  | uninitialised
  /-- The loop bound of the model was used up (never reached, see `pair_levels_ok`). -/
  | out_of_fuel
  deriving DecidableEq, Repr

deriving instance DecidableEq for Except

/-- The values handed to the `printf` that ends every summation routine (the
run time is not modelled): `accurate_sum`, `sum`, `sum-accurate_sum` and
`(sum-accurate_sum)/accurate_sum`. -/
structure Report (α : Type) where
  accurate_sum : α
  sum : α
  diff : α
  reldiff : α
  deriving DecidableEq, Repr

section Kernels

variable {α : Type} [Zero α] [Add α] [Sub α] [Div α]

/-- The argument list of the closing `printf`. -/
def report (accurate_sum sum : α) : Report α :=
  { accurate_sum := accurate_sum
    sum := sum
    diff := sum - accurate_sum
    reldiff := (sum - accurate_sum) / accurate_sum }

/-- The read `var[i]` of the caller's array. -/
def readVar (var : List α) (i : Nat) : Except MemError α :=
  match var[i]? with
  | some x => .ok x
  | none => .error .out_of_bounds

/-- The read `pwsum[i]` of the scratch buffer; a cell is `none` until written. -/
def readBuf (pwsum : List (Option α)) (i : Nat) : Except MemError α :=
  match pwsum[i]? with
  | some (some x) => .ok x
  | some none => .error .uninitialised
  | none => .error .out_of_bounds

/-- The write `pwsum[i] = x` to the scratch buffer. -/
def writeBuf (pwsum : List (Option α)) (i : Nat) (x : α) : Except MemError (List (Option α)) :=
  if i < pwsum.length then .ok (pwsum.set i (some x)) else .error .out_of_bounds

/-! ## The summation kernels -/

/-- The loop `for (long i = 0; i < ncells; i++) sum += var[i];` from a given
start value of `sum`. -/
def serial_loop (var : List α) (ncells : Nat) (sum : α) : Except MemError α :=
  (List.range ncells).foldlM (fun sum i => do
    let x ← readVar var i
    pure (sum + x)) sum

/-- The routine `do_sum`: `sum = 0.0`, the serial loop, the report. -/
def do_sum (var : List α) (ncells : Nat) (accurate_sum : α) : Except MemError (Report α) := do
  let sum ← serial_loop var ncells 0
  pure (report accurate_sum sum)

/-- The routine `do_sum_omp`: the loop of `do_sum` under
`#pragma omp parallel for reduction(+: sum)`.  Every worker of the team has a
private `sum` that starts at 0 and adds `var[i]` for the iterations `i` of its
share, in the order it executes them; at the end of the region the private copies
are combined with `+` into the original `sum = 0.0`.  `shares` gives, worker by
worker in the order of combination, the iterations `0 <= i < ncells` each worker
executes. -/
def do_sum_omp (var : List α) (ncells : Nat) (accurate_sum : α)
    (shares : List (List (Fin ncells))) : Except MemError (Report α) := do
  let partials ← shares.mapM (fun share => share.foldlM (fun sum i => do
    let x ← readVar var i.val
    pure (sum + x)) (0 : α))
  let sum := partials.foldl (fun sum p => sum + p) 0
  pure (report accurate_sum sum)

/-- The shares of a team are a division of the iterations `0 .. ncells-1` of the
loop: every iteration is executed exactly once, by exactly one worker. -/
def IsSchedule (ncells : Nat) (shares : List (List (Fin ncells))) : Prop :=
  List.Perm (shares.flatten.map Fin.val) (List.range ncells)

/-- The local `struct esum_type` of the compensated routines. -/
structure esum_type (α : Type) where
  sum : α
  correction : α
  deriving DecidableEq, Repr

/-- The loop body of `do_kahan_sum` on the element `x = var[i]`. -/
def kahan_step (loc : esum_type α) (x : α) : esum_type α :=
  let corrected_next_term := x + loc.correction
  let new_sum := loc.sum + loc.correction
  { correction := corrected_next_term - (new_sum - loc.sum)
    sum := new_sum }

/-- The loop of `do_kahan_sum` from `local.sum = 0.0; local.correction = 0.0`. -/
def kahan_loop (var : List α) (ncells : Nat) : Except MemError (esum_type α) :=
  (List.range ncells).foldlM (fun loc i => do
    let x ← readVar var i
    pure (kahan_step loc x)) { sum := 0, correction := 0 }

/-- The routine `do_kahan_sum`: the loop, `sum = local.sum + local.correction`,
the report. -/
def do_kahan_sum (var : List α) (ncells : Nat) (accurate_sum : α) :
    Except MemError (Report α) := do
  let loc ← kahan_loop var ncells
  let sum := loc.sum + loc.correction
  pure (report accurate_sum sum)

/-- The loop body of `do_knuth_sum` on the element `x = var[i]`. -/
def knuth_step (loc : esum_type α) (x : α) : esum_type α :=
  let u := loc.sum
  let v := x + loc.correction
  let upt := u + v
  let up := upt - v
  let vpp := upt - up
  { sum := upt
    correction := (u - up) + (v - vpp) }

/-- The loop of `do_knuth_sum` from `local.sum = 0.0; local.correction = 0.0`. -/
def knuth_loop (var : List α) (ncells : Nat) : Except MemError (esum_type α) :=
  (List.range ncells).foldlM (fun loc i => do
    let x ← readVar var i
    pure (knuth_step loc x)) { sum := 0, correction := 0 }

/-- The routine `do_knuth_sum`: the loop, `sum = local.sum + local.correction`,
the report. -/
def do_knuth_sum (var : List α) (ncells : Nat) (accurate_sum : α) :
    Except MemError (Report α) := do
  let loc ← knuth_loop var ncells
  let sum := loc.sum + loc.correction
  pure (report accurate_sum sum)

/-- The first loop of `do_pair_sum`:
`for (long i = 0; i<nmax; i++) pwsum[i] = var[i*2]+var[i*2+1];`. -/
def pair_first (var : List α) (nmax : Nat) (pwsum : List (Option α)) :
    Except MemError (List (Option α)) :=
  (List.range nmax).foldlM (fun pwsum i => do
    let a ← readVar var (i * 2)
    let b ← readVar var (i * 2 + 1)
    writeBuf pwsum i (a + b)) pwsum

/-- The inner loop of `do_pair_sum`, in place:
`for (long i = 0; i<nmax; i++) pwsum[i] = pwsum[i*2]+pwsum[i*2+1];`. -/
def pair_pass (nmax : Nat) (pwsum : List (Option α)) : Except MemError (List (Option α)) :=
  (List.range nmax).foldlM (fun pwsum i => do
    let a ← readBuf pwsum (i * 2)
    let b ← readBuf pwsum (i * 2 + 1)
    writeBuf pwsum i (a + b)) pwsum

/-- The outer loop of `do_pair_sum`,
`for (long j = 1; j<log2(ncells); j++){ nmax /= 2; ... }`, from the current `j`,
`nmax` and buffer.  The test `j < log2(ncells)` is read over the reals, where for
`j >= 1` it says `2^j < ncells`.  The first argument bounds the number of
iterations; `do_pair_sum` passes `ncells`, which is never used up. -/
def pair_levels (ncells : Nat) :
    Nat → Nat → Nat → List (Option α) → Except MemError (List (Option α))
  | 0, j, _, pwsum => if 2 ^ j < ncells then .error .out_of_fuel else .ok pwsum
  | fuel + 1, j, nmax, pwsum =>
    if 2 ^ j < ncells then do
      let nmax := nmax / 2
      let pwsum ← pair_pass nmax pwsum
      pair_levels ncells fuel (j + 1) nmax pwsum
    else .ok pwsum

/-- The routine `do_pair_sum`: the scratch buffer of `ncells/2` cells from `malloc`
(taken to succeed, cells not yet written), the first loop with `nmax = ncells/2`,
the outer loop from `j = 1`, `sum = pwsum[0]`, the report. -/
def do_pair_sum (var : List α) (ncells : Nat) (accurate_sum : α) :
    Except MemError (Report α) := do
  let pwsum : List (Option α) := List.replicate (ncells / 2) none
  let nmax := ncells / 2
  let pwsum ← pair_first var nmax pwsum
  let pwsum ← pair_levels ncells ncells 1 nmax pwsum
  let sum ← readBuf pwsum 0
  pure (report accurate_sum sum)

/-- The value of node `i` at height `k` of the binary reduction tree over the
leaves `g 0, g 1, ...`: a leaf at height 0, else the sum of its two children. -/
def treeSum (g : Nat → α) : Nat → Nat → α
  | 0, i => g i
  | k + 1, i => treeSum g k (i * 2) + treeSum g k (i * 2 + 1)

end Kernels

/-! ## IEEE-754 binary64 arithmetic

The type `double` of the routines, for the claims that are about rounding: the
operations `+`, `-`, `*` and `/` below are those of IEEE-754 binary64 in the default
rounding mode (to nearest, ties to even), each rounded once. -/

/-- A binary64 datum.  `finite neg m` is the number `(-1)^neg * m * 2^-1074`:
every finite double is a whole multiple of `2^-1074`, the smallest subnormal.
NaNs are not told apart. -/
inductive F64 where
  | finite (neg : Bool) (m : Nat)
  | infinite (neg : Bool)
  | nan
  deriving DecidableEq, Repr

namespace F64

/-- The datum with the 64-bit pattern `x` (sign bit, 11 exponent bits, 52
mantissa bits). -/
def ofBits (x : Nat) : F64 :=
  let neg := decide (signBit x = 1)
  if exponentField x = 2047 then
    if mantissaField x = 0 then infinite neg else nan
  else if exponentField x = 0 then finite neg (mantissaField x)
  else finite neg ((2 ^ 52 + mantissaField x) * 2 ^ (exponentField x - 1))

/-- The number of bits by which `q` is longer than 53 bits: 0 when `q < 2^53`,
else the `s` with `2^(52+s) <= q < 2^(53+s)`, found by bisection (for
`q < 2^8244`, far above every quotient that arises). -/
def excessBits (q : Nat) : Nat :=
  [4096, 2048, 1024, 512, 256, 128, 64, 32, 16, 8, 4, 2, 1].foldl
    (fun s j => if 2 ^ (52 + s + j) ≤ q then s + j else s) 0

/-- The double nearest to the positive rational `(n / d) * 2^-1074`, ties to the
even significand, with sign `neg`: the quotient is cut to 53 significant bits
(to a whole number of units `2^-1074` when it is below `2^53` of them), rounded,
and replaced by an infinity when the rounded value is `2^1024` or more. -/
def round (neg : Bool) (n d : Nat) : F64 :=
  let q := n / d
  let s := excessBits q
  let u := 2 ^ s * d
  let k := n / u
  let r := n % u
  let k := if u < 2 * r ∨ (2 * r = u ∧ k % 2 = 1) then k + 1 else k
  let m := k * 2 ^ s
  if m < 2 ^ 2098 then finite neg m else infinite neg

/-- The signed number of units `2^-1074` in a finite datum. -/
def toInt (neg : Bool) (m : Nat) : Int := if neg then - (m : Int) else (m : Int)

/-- The operation `-x`. -/
def neg : F64 → F64
  | finite s m => finite (!s) m
  | infinite s => infinite (!s)
  | nan => nan

/-- The operation `x + y`. -/
def add : F64 → F64 → F64
  | nan, _ => nan
  | _, nan => nan
  | infinite a, infinite b => if a = b then infinite a else nan
  | infinite a, finite _ _ => infinite a
  | finite _ _, infinite b => infinite b
  | finite s1 m1, finite s2 m2 =>
    let z := toInt s1 m1 + toInt s2 m2
    if z = 0 then finite (s1 && s2) 0 else round (decide (z < 0)) z.natAbs 1

/-- The operation `x - y`, which is `x + (-y)`. -/
def sub (x y : F64) : F64 := add x (neg y)

/-- The operation `x / y`. -/
def div : F64 → F64 → F64
  | nan, _ => nan
  | _, nan => nan
  | infinite _, infinite _ => nan
  | infinite a, finite b _ => infinite (xor a b)
  | finite a _, infinite b => finite (xor a b) 0
  | finite s1 m1, finite s2 m2 =>
    if m2 = 0 then
      if m1 = 0 then nan else infinite (xor s1 s2)
    else round (xor s1 s2) (m1 * 2 ^ 1074) m2

/-- The operation `x * y`. -/
def mul : F64 → F64 → F64
  | nan, _ => nan
  | _, nan => nan
  | infinite a, infinite b => infinite (xor a b)
  | infinite a, finite b m => if m = 0 then nan else infinite (xor a b)
  | finite a m, infinite b => if m = 0 then nan else infinite (xor a b)
  | finite s1 m1, finite s2 m2 => round (xor s1 s2) (m1 * m2) (2 ^ 1074)

instance : Mul F64 := ⟨mul⟩
instance : Zero F64 := ⟨finite false 0⟩
instance : Add F64 := ⟨add⟩
instance : Sub F64 := ⟨sub⟩
instance : Div F64 := ⟨div⟩

/-- The signed number of units `2^-1074` in a datum, when it is finite. -/
def units : F64 → Option Int
  | finite s m => some (toInt s m)
  | _ => none

/-- The exact (unrounded) sum of an array of finite doubles, in units `2^-1074`. -/
def exactSum : List F64 → Option Int
  | [] => some 0
  | x :: rest =>
    match units x, exactSum rest with
    | some a, some b => some (a + b)
    | _, _ => none

/-- The distance of a computed sum from the exact sum of the array, in units
`2^-1074`; `none` when the run failed or a value is not finite. -/
def absError (sum : Except MemError F64) (var : List F64) : Option Nat :=
  match sum, exactSum var with
  | .ok x, some e =>
    match units x with
    | some a => some (a - e).natAbs
    | none => none
  | _, _ => none

/-- The computed sum `s1` is at least as close to the exact sum of `var` as the
computed sum `s2` (both finite). -/
def atLeastAsClose (s1 s2 : Except MemError F64) (var : List F64) : Bool :=
  match absError s1 var, absError s2 var with
  | some e1, some e2 => decide (e1 ≤ e2)
  | _, _ => false

end F64

/-- The array `2^53, 1.5, 1, 2^53` of doubles. -/
def closerNaiveArray : List F64 :=
  [F64.ofBits 0x4340000000000000, F64.ofBits 0x3FF8000000000000,
   F64.ofBits 0x3FF0000000000000, F64.ofBits 0x4340000000000000]

/-- The ill-conditioned array of the specification: the double `10^8` followed by
`n` copies of the double nearest to `10^-8`. -/
def illConditionedArray (n : Nat) : List F64 :=
  F64.ofBits 0x4197D78400000000 :: List.replicate n (F64.ofBits 0x3E45798EE2308C3A)

/-! ## `digitround` -/

/-- The functions of `<math.h>` that `digitround` and the quad routines call, for
an arithmetic `α`. -/
structure CMath (α : Type) where
  /-- The expression `(int)log10(x)`: the `int` to which the value returned by `log10`
  is converted. -/
  ilog10 : α → Int
  /-- The call `pow((double)10.0, k)` for an `int` value `k`. -/
  pow10 : Int → α
  /-- The call `round(x)`: the nearest whole number, halves away from zero. -/
  round : α → α

/-- The value of an `int` (32 bits, two's complement) that holds the arithmetic result
`z` after wrapping around. -/
def wrap_int (z : Int) : Int := (z + 2147483648) % 4294967296 - 2147483648

/-- The function `abs` of `<stdlib.h>`: the magnitude as an `int`, so that
`abs(INT_MIN)` is `INT_MIN`. -/
def c_abs (z : Int) : Int := wrap_int |z|

/-- The function `digitround(var, ndigits)` (its `printf` lines left out).  The
arithmetic of `int` wraps around. -/
def digitround {α : Type} [Mul α] [Div α] (M : CMath α) (var : α) (ndigits : Int) : α :=
  let n := M.ilog10 var
  let nshift := wrap_int (15 - ndigits - n)
  if nshift ≥ 0 then
    let mult := M.pow10 ndigits
    M.round (var * mult) / mult
  else
    let div := M.pow10 (c_abs nshift)
    M.round (var / div) * div

/-- The function `round` of `<math.h>` over the rationals: the nearest whole number,
halves away from zero. -/
def c_round (x : ℚ) : ℚ :=
  if 0 ≤ x then ((⌊x + 1 / 2⌋ : Int) : ℚ) else -((⌊-x + 1 / 2⌋ : Int) : ℚ)

/-- The decimal exponent of a positive rational `x`, cut toward zero: `floor(log10 x)`
for `x >= 1`, and `-floor(log10 (1/x))` for `x < 1`, with the logarithm taken exactly.
This is what `(int)log10(x)` would be if `log10` did not round; the `log10` of the
code rounds, and its value is an argument of the model (`CMath.ilog10`). -/
def exact_ilog10 (x : ℚ) : Int :=
  if 1 ≤ x then (Nat.log 10 ⌊x⌋₊ : Int) else -(Nat.log 10 ⌊1 / x⌋₊ : Int)

/-- The arithmetic of `digitround` with the multiply, round and divide done exactly,
over the rationals: `pow` and `round` without rounding error, and for `(int)log10(x)`
the values `ilog x` that the run computes.  (`pow` is exact only up to the argument
308; the properties below keep its argument within `0 .. 308`.) -/
def idealMath (ilog : ℚ → Int) : CMath ℚ where
  ilog10 := ilog
  pow10 k := (10 : ℚ) ^ k
  round := c_round

/-- The exponent of the unit to which `digitround` rounds a value of decimal exponent
`n`: `10^(-ndigits)` in the branch `nshift >= 0`, `10^|nshift|` in the other. -/
def unitExp (n ndigits : Int) : Int :=
  if 15 - ndigits - n ≥ 0 then -ndigits else n + ndigits - 15

/-- The rational `y` is a whole multiple of `10^e`. -/
def IsMultipleOfPow10 (e : Int) (y : ℚ) : Prop := ∃ k : Int, y = k * (10 : ℚ) ^ e

/-! ## The truncating, extended-precision and parallel Kahan routines -/

/-- The `union twiddler` of `bittruncate`: a `double` read as its 64-bit pattern and a
pattern read as a `double`. -/
structure Twiddler (α : Type) where
  toBits : α → Nat
  ofBits : Nat → α

/-- The implicit conversion of a `double` to a wider type (`long double`,
`__float128`) and the conversion back, `(double)x`. -/
structure Widening (α W : Type) where
  widen : α → W
  narrow : W → α

section Variants

variable {α W : Type} [Zero α] [Add α] [Sub α] [Div α] [Zero W] [Add W] [Sub W] [Div W] [Mul W]

/-- The function `bittruncate` on a `double`: `q.dvalue = var`, the masking of
`q.ivalue`, `var = q.dvalue`. -/
def bittruncate_dbl (tw : Twiddler α) (var : α) (nbits : Nat) : Except MemError α :=
  match bittruncate (tw.toBits var) nbits with
  | some ivalue => .ok (tw.ofBits ivalue)
  | none => .error .out_of_bounds

/-- The routine `do_sum_wbittrunc`. -/
def do_sum_wbittrunc (tw : Twiddler α) (var : List α) (ncells : Nat) (accurate_sum : α)
    (nbits : Nat) : Except MemError (Report α) := do
  let sum ← serial_loop var ncells 0
  let sum ← bittruncate_dbl tw sum nbits
  let accurate_sum ← bittruncate_dbl tw accurate_sum nbits
  pure (report accurate_sum sum)

/-- The routine `do_sum_omp_wbittrunc`: the reduction of `do_sum_omp`, then the
truncation of both sums. -/
def do_sum_omp_wbittrunc (tw : Twiddler α) (var : List α) (ncells : Nat) (accurate_sum : α)
    (nbits : Nat) (shares : List (List (Fin ncells))) : Except MemError (Report α) := do
  let partials ← shares.mapM (fun share => share.foldlM (fun sum i => do
    let x ← readVar var i.val
    pure (sum + x)) (0 : α))
  let sum := partials.foldl (fun sum p => sum + p) 0
  let sum ← bittruncate_dbl tw sum nbits
  let accurate_sum ← bittruncate_dbl tw accurate_sum nbits
  pure (report accurate_sum sum)

/-- The routine `do_sum_wdigittrunc`. -/
def do_sum_wdigittrunc [Mul α] (M : CMath α) (var : List α) (ncells : Nat) (accurate_sum : α)
    (ndigits : Int) : Except MemError (Report α) := do
  let sum ← serial_loop var ncells 0
  let sum := digitround M sum ndigits
  let accurate_sum := digitround M accurate_sum ndigits
  pure (report accurate_sum sum)

/-- The loop `for (long i = 0; i < ncells; i++) ldsum += var[i];` with an
accumulator of the wider type, each element converted before it is added. -/
def wide_loop (cv : Widening α W) (var : List α) (ncells : Nat) (sum : W) : Except MemError W :=
  (List.range ncells).foldlM (fun sum i => do
    let x ← readVar var i
    pure (sum + cv.widen x)) sum

/-- The argument list of the closing `printf` of the `long double` routines:
every value is computed in `long double` and converted with `(double)`. -/
def report_narrow (cv : Widening α W) (accurate_ldsum ldsum : W) : Report α :=
  { accurate_sum := cv.narrow accurate_ldsum
    sum := cv.narrow ldsum
    diff := cv.narrow (ldsum - accurate_ldsum)
    reldiff := cv.narrow ((ldsum - accurate_ldsum) / accurate_ldsum) }

/-- The routine `do_ldsum`. -/
def do_ldsum (cv : Widening α W) (var : List α) (ncells : Nat) (accurate_ldsum : W) :
    Except MemError (Report α) := do
  let ldsum ← wide_loop cv var ncells 0
  pure (report_narrow cv accurate_ldsum ldsum)

/-- The routine `do_ldsum_wdigittrunc`: `digitround` takes and returns a `double`. -/
def do_ldsum_wdigittrunc [Mul α] (cv : Widening α W) (M : CMath α) (var : List α)
    (ncells : Nat) (accurate_ldsum : W) (ndigits : Int) : Except MemError (Report α) := do
  let ldsum ← wide_loop cv var ncells 0
  let ldsum := cv.widen (digitround M (cv.narrow ldsum) ndigits)
  let accurate_ldsum := cv.widen (digitround M (cv.narrow accurate_ldsum) ndigits)
  pure (report_narrow cv accurate_ldsum ldsum)

/-- The routine `do_ldsum_wbittrunc`: `bittruncate` takes and returns a `double`. -/
def do_ldsum_wbittrunc (cv : Widening α W) (tw : Twiddler α) (var : List α) (ncells : Nat)
    (accurate_ldsum : W) (nbits : Nat) : Except MemError (Report α) := do
  let ldsum ← wide_loop cv var ncells 0
  let ldsum ← bittruncate_dbl tw (cv.narrow ldsum) nbits
  let ldsum := cv.widen ldsum
  let accurate_ldsum ← bittruncate_dbl tw (cv.narrow accurate_ldsum) nbits
  let accurate_ldsum := cv.widen accurate_ldsum
  pure (report_narrow cv accurate_ldsum ldsum)

/-- The loop of the parallel Kahan routines over the iterations of one worker, from
`local.sum = 0.0; local.correction = 0.0`. -/
def kahan_share (var : List α) {ncells : Nat} (share : List (Fin ncells)) :
    Except MemError (esum_type α) :=
  share.foldlM (fun loc i => do
    let x ← readVar var i.val
    pure (kahan_step loc x)) { sum := 0, correction := 0 }

/-- The routine `do_kahan_sum_omp`.  Under `#pragma omp parallel reduction(+:sum)`
every worker has a private `sum` that starts at 0; after its loop it executes
`sum += local.correction;` and `sum += local.sum;`, and at the end of the region the
private copies are combined with `+` into the original `sum = 0.0`, in the order of
`shares`. -/
def do_kahan_sum_omp (var : List α) (ncells : Nat) (accurate_sum : α)
    (shares : List (List (Fin ncells))) : Except MemError (Report α) := do
  let privates ← shares.mapM (fun share => do
    let loc ← kahan_share var share
    let sum : α := 0
    let sum := sum + loc.correction
    let sum := sum + loc.sum
    pure sum)
  let sum := privates.foldl (fun sum p => sum + p) 0
  pure (report accurate_sum sum)

/-- The five statements that `do_kahan_sum_omp_wbittrunc` executes twice after the
loop, first with `x = local.correction`, then with `x = local.sum`:
`correction = x; corrected_next_term = sum + correction; new_sum = sum + correction;
correction = corrected_next_term - (new_sum - sum); sum = new_sum;`.  The result is
the pair of the new `sum` and the new `correction`. -/
def private_step (sum x : α) : α × α :=
  let correction := x
  let corrected_next_term := sum + correction
  let new_sum := sum + correction
  let correction := corrected_next_term - (new_sum - sum)
  let sum := new_sum
  (sum, correction)

/-- The statements of one worker of `do_kahan_sum_omp_wbittrunc` after its loop, on its
private `sum` and `correction` (both 0 at the start): the result is the private
pair `(sum, correction)`.  The correction of the first step is overwritten by
`correction = local.sum`. -/
def kahan_private (loc : esum_type α) : α × α :=
  private_step (private_step 0 loc.correction).1 loc.sum

/-- The routine `do_kahan_sum_omp_wbittrunc`.  Under
`#pragma omp parallel reduction(+:sum, correction)` every worker ends with its
private pair; the private copies of `sum` and of `correction` are each combined with
`+` into the originals (both 0.0); then both sums are truncated.  The reduced
`correction` is not used again. -/
def do_kahan_sum_omp_wbittrunc (tw : Twiddler α) (var : List α) (ncells : Nat)
    (accurate_sum : α) (nbits : Nat) (shares : List (List (Fin ncells))) :
    Except MemError (Report α) := do
  let privates ← shares.mapM (fun share => do
    let loc ← kahan_share var share
    pure (kahan_private loc))
  let sum := (privates.map Prod.fst).foldl (fun sum p => sum + p) 0
  let _correction := (privates.map Prod.snd).foldl (fun c p => c + p) (0 : α)
  let sum ← bittruncate_dbl tw sum nbits
  let accurate_sum ← bittruncate_dbl tw accurate_sum nbits
  pure (report accurate_sum sum)

/-- The call `quadmath_snprintf(str, size, format, x)`: of the text of the conversion
at most `size - 1` characters are stored.  `fmt` is the text that the conversion of
libquadmath produces for a format and a value. -/
def quadmath_snprintf (fmt : String → W → List Char) (size : Nat) (format : String) (x : W) :
    List Char :=
  (fmt format x).take (size - 1)

/-- The four strings `quadstring1 .. quadstring4` handed to the closing `printf` of
the quad routines. -/
def quad_report (fmt : String → W → List Char) (accurate_qdsum qdsum : W) :
    Report (List Char) :=
  { accurate_sum := quadmath_snprintf fmt 24 "%-25.24Qg" accurate_qdsum
    sum := quadmath_snprintf fmt 24 "%-25.24Qg" qdsum
    diff := quadmath_snprintf fmt 24 "%-20.14Qg" (qdsum - accurate_qdsum)
    reldiff := quadmath_snprintf fmt 24 "%-20.14Qg" ((qdsum - accurate_qdsum) / accurate_qdsum) }

/-- The truncation of the quad routines applied to `x`, with the multiplier of the
computed sum `qdsum`: `n = (int)log10((double)qdsum)`,
`mult = pow((double)10.0, ndigits-n)`, `round(x*mult)/mult`, where `log10`, `pow` and
`round` are those of `double` and the `int` difference `ndigits-n` wraps around. -/
def quad_trunc (cv : Widening α W) (M : CMath α) (ndigits : Int) (qdsum x : W) : W :=
  let n := M.ilog10 (cv.narrow qdsum)
  let mult := cv.widen (M.pow10 (wrap_int (ndigits - n)))
  cv.widen (M.round (cv.narrow (x * mult))) / mult

/-- The routine `do_qdsum`. -/
def do_qdsum (cv : Widening α W) (fmt : String → W → List Char) (var : List α) (ncells : Nat)
    (accurate_qdsum : W) : Except MemError (Report (List Char)) := do
  let qdsum ← wide_loop cv var ncells 0
  pure (quad_report fmt accurate_qdsum qdsum)

/-- The routine `do_qdsum_wtrunc`. -/
def do_qdsum_wtrunc (cv : Widening α W) (M : CMath α) (fmt : String → W → List Char)
    (var : List α) (ncells : Nat) (accurate_qdsum : W) (ndigits : Int) :
    Except MemError (Report (List Char)) := do
  let qdsum ← wide_loop cv var ncells 0
  let n := M.ilog10 (cv.narrow qdsum)
  let mult := cv.widen (M.pow10 (wrap_int (ndigits - n)))
  let qdsum := cv.widen (M.round (cv.narrow (qdsum * mult))) / mult
  let accurate_qdsum := cv.widen (M.round (cv.narrow (accurate_qdsum * mult))) / mult
  pure (quad_report fmt accurate_qdsum qdsum)

/-- The routine `do_full_qdsum`: the array is of `__float128` too. -/
def do_full_qdsum (fmt : String → W → List Char) (varq : List W) (ncells : Nat)
    (accurate_qdsum : W) : Except MemError (Report (List Char)) := do
  let qdsum ← serial_loop varq ncells 0
  pure (quad_report fmt accurate_qdsum qdsum)

/-- The routine `do_full_qdsum_wtrunc`. -/
def do_full_qdsum_wtrunc (cv : Widening α W) (M : CMath α) (fmt : String → W → List Char)
    (varq : List W) (ncells : Nat) (accurate_qdsum : W) (ndigits : Int) :
    Except MemError (Report (List Char)) := do
  let qdsum ← serial_loop varq ncells 0
  let n := M.ilog10 (cv.narrow qdsum)
  let mult := cv.widen (M.pow10 (wrap_int (ndigits - n)))
  let qdsum := cv.widen (M.round (cv.narrow (qdsum * mult))) / mult
  let accurate_qdsum := cv.widen (M.round (cv.narrow (accurate_qdsum * mult))) / mult
  pure (quad_report fmt accurate_qdsum qdsum)

/-- The number of digit characters in a string, an upper bound of the significant
digits it shows. -/
def digitsShown (s : List Char) : Nat := (s.filter Char.isDigit).length

end Variants

/-- The datum is a finite number (not an infinity, not a NaN). -/
def F64.isFinite : F64 → Bool
  | F64.finite _ _ => true
  | _ => false

/-- The merge of the parallel Kahan variants in the words of the specification, for
comparison with the code: the loop's compensated step folded over the partial
values of the workers (each worker's correction, then its sum), with the correction
carried across workers and added into the final result. -/
def spec_kahan_merge {α : Type} [Zero α] [Add α] [Sub α] (pairs : List (esum_type α)) : α :=
  let st := pairs.foldl (fun st p => kahan_step (kahan_step st p.correction) p.sum)
    ({ sum := 0, correction := 0 } : esum_type α)
  st.sum + st.correction

/-- The array `2^53, 1.5, 1` of doubles. -/
def mergeArray : List F64 :=
  [F64.ofBits 0x4340000000000000, F64.ofBits 0x3FF8000000000000, F64.ofBits 0x3FF0000000000000]

/-- The 64-bit pattern of a datum (the quiet NaN `0x7FF8000000000000` for a NaN). -/
def F64.toBits : F64 → Nat
  | F64.finite neg m =>
    let sign := if neg then 2 ^ 63 else 0
    if m < 2 ^ 52 then sign + m
    else
      let e := F64.excessBits m + 1
      sign + e * 2 ^ 52 + (m / 2 ^ (e - 1) - 2 ^ 52)
  | F64.infinite neg => (if neg then 2 ^ 63 else 0) + 0x7FF0000000000000
  | F64.nan => 0x7FF8000000000000

/-- The `union twiddler` for the binary64 model. -/
def F64.twiddler : Twiddler F64 where
  toBits := F64.toBits
  ofBits := F64.ofBits

/-- Sample doubles for the two-sum: `0`, `1`, `1.5`, `-1`, `2^53`, `-2^53`, `10^8`,
`10^-8`, `0.1`, `-0.1`, the smallest subnormal and `2^53 + 2`. -/
def twoSumSamples : List F64 :=
  [F64.ofBits 0, F64.ofBits 0x3FF0000000000000, F64.ofBits 0x3FF8000000000000,
   F64.ofBits 0xBFF0000000000000, F64.ofBits 0x4340000000000000, F64.ofBits 0xC340000000000000,
   F64.ofBits 0x4197D78400000000, F64.ofBits 0x3E45798EE2308C3A, F64.ofBits 0x3FB999999999999A,
   F64.ofBits 0xBFB999999999999A, F64.ofBits 0x0000000000000001, F64.ofBits 0x4340000000000001]

/-- Sample corrections for the two-sum: `0`, `10^-8` and `-2^-26`. -/
def twoSumCorrections : List F64 :=
  [F64.ofBits 0, F64.ofBits 0x3E45798EE2308C3A, F64.ofBits 0xBE50000000000000]

/-- The step of `do_knuth_sum` from `loc` on the element `x` is error free in binary64:
with `v = x + local.correction` as computed, the new `local.sum` and
`local.correction` are finite and their exact sum is the exact sum of `local.sum` and
`v`. -/
def twoSumExact (loc : esum_type F64) (x : F64) : Bool :=
  match F64.units (knuth_step loc x).sum, F64.units (knuth_step loc x).correction,
      F64.units loc.sum, F64.units (x + loc.correction) with
  | some s, some c, some u, some v => decide (s + c = u + v)
  | _, _, _, _ => false

/-- The function `round` of `<math.h>` on a double: the nearest whole number, halves
away from zero, with the sign kept; a double of magnitude `2^52` or more is whole
already, and an infinity or a NaN is returned as it is. -/
def F64.c_round : F64 → F64
  | F64.finite neg m =>
    if 2 ^ 1126 ≤ m then F64.finite neg m
    else F64.finite neg ((m + 2 ^ 1073) / 2 ^ 1074 * 2 ^ 1074)
  | x => x

/-- The call `pow((double)10.0, k)` of a `<math.h>` that rounds correctly: `+inf` from
`10^309` on, which is above the largest double, `+0` up to `10^-324`, which is below
half the smallest subnormal, and the double nearest to `10^k` between. -/
def F64.pow10 (k : Int) : F64 :=
  if 309 ≤ k then F64.infinite false
  else if k ≤ -324 then F64.finite false 0
  else if 0 ≤ k then F64.round false (10 ^ k.toNat * 2 ^ 1074) 1
  else F64.round false (2 ^ 1074) (10 ^ (-k).toNat)

/-- The functions of `<math.h>` on doubles, with `ilog x` for the values of
`(int)log10(x)` that the run computes. -/
def F64.libm (ilog : F64 → Int) : CMath F64 where
  ilog10 := ilog
  pow10 := F64.pow10
  round := F64.c_round

/-! # Properties

## `bittruncate` -/

theorem MIN_40_le (nbits : Nat) : MIN 40 nbits ≤ 40 := by
  unfold MIN; split <;> omega

theorem MIN_40_eq_min (nbits : Nat) : MIN 40 nbits = min nbits 40 := by
  unfold MIN; split <;> omega

theorem bitmask_entry (k : Nat) (hk : k ≤ 40) : bitmask[k]? = some (2 ^ k - 1) := by
  interval_cases k <;> rfl

theorem not64_mask (k : Nat) (hk : k ≤ 64) :
    not64 (2 ^ k - 1) = 2 ^ k * (2 ^ (64 - k) - 1) := by
  have h : (2:Nat) ^ 64 = 2 ^ k * 2 ^ (64 - k) := by
    rw [← pow_add]; congr 1; omega
  have h1 : 1 ≤ 2 ^ k := Nat.one_le_two_pow
  have h2 : 1 ≤ 2 ^ (64 - k) := Nat.one_le_two_pow
  unfold not64
  rw [Nat.mul_sub, Nat.mul_one, ← h]
  norm_num
  omega

theorem bittruncate_eq (x nbits : Nat) :
    bittruncate x nbits = some (x &&& not64 (2 ^ min nbits 40 - 1)) := by
  have h := bitmask_entry (MIN 40 nbits) (MIN_40_le nbits)
  simp only [bittruncate, h]
  rw [MIN_40_eq_min]

theorem testBit_not64_mask (k i : Nat) (hk : k ≤ 64) :
    (not64 (2 ^ k - 1)).testBit i = (decide (k ≤ i) && decide (i < 64)) := by
  rw [not64_mask k hk, Nat.testBit_mul_pow_two, Nat.testBit_two_pow_sub_one]
  by_cases h : k ≤ i
  · have : (i - k < 64 - k) ↔ i < 64 := by omega
    simp [h, this]
  · simp [h]

theorem testBit_lt_64 (x i : Nat) (hx : x < 2 ^ 64) (hi : 64 ≤ i) : x.testBit i = false := by
  apply Nat.testBit_lt_two_pow
  calc x < 2 ^ 64 := hx
    _ ≤ 2 ^ i := Nat.pow_le_pow_right (by norm_num) hi

/-- Arithmetic form of the masking: the pattern minus its low `k` bits. -/
theorem and_not64_mask (x k : Nat) (hx : x < 2 ^ 64) (hk : k ≤ 64) :
    x &&& not64 (2 ^ k - 1) = x - x % 2 ^ k := by
  apply Nat.eq_of_testBit_eq
  intro i
  have hsub : x - x % 2 ^ k = 2 ^ k * (x / 2 ^ k) := by
    have := Nat.div_add_mod x (2 ^ k)
    omega
  rw [Nat.testBit_and, testBit_not64_mask k i hk, hsub, Nat.testBit_mul_pow_two,
    ← Nat.shiftRight_eq_div_pow, Nat.testBit_shiftRight]
  by_cases h : k ≤ i
  · by_cases h2 : i < 64
    · simp [h, h2, Nat.add_sub_cancel' h]
    · simp [h, h2, Nat.add_sub_cancel' h, testBit_lt_64 x i hx (by omega)]
  · simp [h]

theorem mod_two_pow_le_mod (x : Nat) {k j : Nat} (h : k ≤ j) : x % 2 ^ k ≤ x % 2 ^ j := by
  have hd : (2:Nat) ^ k ∣ 2 ^ j := pow_dvd_pow 2 h
  rw [← Nat.mod_mod_of_dvd x hd]
  exact Nat.mod_le _ _

/-- Clearing the low `k` bits leaves the part above bit `j >= k` alone and only
shrinks the part below it. -/
theorem trunc_decomp (x : Nat) {k j : Nat} (h : k ≤ j) :
    x - x % 2 ^ k = 2 ^ j * (x / 2 ^ j) + (x % 2 ^ j - x % 2 ^ k) := by
  have h1 := Nat.div_add_mod x (2 ^ j)
  have h2 := mod_two_pow_le_mod x h
  omega

theorem trunc_div (x : Nat) {k j : Nat} (h : k ≤ j) :
    (x - x % 2 ^ k) / 2 ^ j = x / 2 ^ j := by
  have hpos : 0 < 2 ^ j := Nat.two_pow_pos j
  have hlt : x % 2 ^ j - x % 2 ^ k < 2 ^ j :=
    lt_of_le_of_lt (Nat.sub_le _ _) (Nat.mod_lt _ hpos)
  rw [trunc_decomp x h, Nat.mul_add_div hpos, Nat.div_eq_of_lt hlt, Nat.add_zero]

theorem trunc_mod (x : Nat) {k j : Nat} (h : k ≤ j) :
    (x - x % 2 ^ k) % 2 ^ j = x % 2 ^ j - x % 2 ^ k := by
  have hpos : 0 < 2 ^ j := Nat.two_pow_pos j
  have hlt : x % 2 ^ j - x % 2 ^ k < 2 ^ j :=
    lt_of_le_of_lt (Nat.sub_le _ _) (Nat.mod_lt _ hpos)
  rw [trunc_decomp x h, Nat.mul_add_mod, Nat.mod_eq_of_lt hlt]

theorem trunc_lt (x : Nat) (k : Nat) (hx : x < 2 ^ 64) : x - x % 2 ^ k < 2 ^ 64 :=
  lt_of_le_of_lt (Nat.sub_le _ _) hx

/-- On 64-bit patterns `bittruncate` subtracts the low `min nbits 40` bits. -/
theorem bittruncate_arith (x nbits : Nat) (hx : x < 2 ^ 64) :
    bittruncate x nbits = some (x - x % 2 ^ min nbits 40) := by
  rw [bittruncate_eq, and_not64_mask x _ hx (by omega)]

theorem trunc_trunc (x : Nat) {a b : Nat} (h : a ≤ b) :
    (x - x % 2 ^ a) - (x - x % 2 ^ a) % 2 ^ b = x - x % 2 ^ b := by
  rw [trunc_mod x h]
  have h1 := mod_two_pow_le_mod x h
  have h2 := Nat.mod_le x (2 ^ b)
  omega

theorem testBit_trunc (x k i : Nat) :
    (x - x % 2 ^ k).testBit i = (x.testBit i && decide (k ≤ i)) := by
  have hsub : x - x % 2 ^ k = 2 ^ k * (x / 2 ^ k) := by
    have := Nat.div_add_mod x (2 ^ k)
    omega
  rw [hsub, Nat.testBit_mul_pow_two, ← Nat.shiftRight_eq_div_pow, Nat.testBit_shiftRight]
  by_cases h : k ≤ i
  · simp [h, Nat.add_sub_cancel' h]
  · simp [h]

theorem absValue_nonneg (x : Nat) : 0 ≤ absValue x := by
  unfold absValue
  split <;> positivity

theorem abs_doubleValue (x : Nat) : |doubleValue x| = absValue x := by
  unfold doubleValue
  split
  · exact abs_of_nonneg (absValue_nonneg x)
  · rw [abs_neg]; exact abs_of_nonneg (absValue_nonneg x)

theorem absValue_mono (x y : Nat) (he : exponentField y = exponentField x)
    (hm : mantissaField y ≤ mantissaField x) : absValue y ≤ absValue x := by
  unfold absValue
  rw [he]
  have hq : (mantissaField y : ℚ) ≤ (mantissaField x : ℚ) := by exact_mod_cast hm
  split
  · gcongr
  · push_cast
    gcongr

/-! ### The claims about `bittruncate` -/

/-- C1: for every 64-bit pattern `x` and every count `nbits`, `bittruncate x nbits`
returns `x AND NOT (2^min(nbits,40) - 1)`: the low `min(nbits,40)` bits are cleared
and every other bit is unchanged.  Each of the 41 table entries `bitmask[k]` is
`2^k - 1`, the table index `MIN(40,nbits)` is within `0..40` (the checked read never
fails), a count above 40 gives the result of 40, and `nbits = 0` returns `x`. -/
theorem bittruncate_clears_low_bits (x nbits : Nat) (hx : x < 2 ^ 64) :
    (∃ y, bittruncate x nbits = some y
        ∧ y = x &&& not64 (2 ^ min nbits 40 - 1)
        ∧ y < 2 ^ 64
        ∧ ∀ i, y.testBit i = (x.testBit i && decide (min nbits 40 ≤ i)))
      ∧ bitmask.length = 41
      ∧ (∀ k, k ≤ 40 → bitmask[k]? = some (2 ^ k - 1))
      ∧ MIN 40 nbits ≤ 40
      ∧ (40 < nbits → bittruncate x nbits = bittruncate x 40)
      ∧ bittruncate x 0 = some x := by
  refine ⟨⟨x &&& not64 (2 ^ min nbits 40 - 1), bittruncate_eq x nbits, rfl, ?_, ?_⟩, rfl,
    bitmask_entry, MIN_40_le nbits, ?_, ?_⟩
  · rw [and_not64_mask x _ hx (by omega)]
    exact trunc_lt x _ hx
  · intro i
    rw [and_not64_mask x _ hx (by omega)]
    exact testBit_trunc x _ i
  · intro h
    rw [bittruncate_eq, bittruncate_eq]
    have : min nbits 40 = min 40 40 := by omega
    rw [this]
  · rw [bittruncate_arith x 0 hx]
    simp [Nat.mod_one]

/-- Witness of C1 at the pattern of the double 1.0 plus low bits, with a count
above the clamp. -/
theorem bittruncate_clears_low_bits_witness :
    (0x3FF00000FFFFFFFF < 2 ^ 64) ∧ bittruncate 0x3FF00000FFFFFFFF 50 = some 0x3FF0000000000000 :=
  ⟨by norm_num, by
    obtain ⟨⟨y, hy, hy2, -, -⟩, -⟩ :=
      bittruncate_clears_low_bits 0x3FF00000FFFFFFFF 50 (by norm_num)
    rw [hy, hy2]; rfl⟩

/-- C2: `bittruncate` is idempotent: truncating the result again with the same
count (in particular 40) changes nothing. -/
theorem bittruncate_idempotent (x nbits : Nat) :
    (bittruncate x nbits).bind (fun y => bittruncate y nbits) = bittruncate x nbits
      ∧ (bittruncate x 40).bind (fun y => bittruncate y 40) = bittruncate x 40 := by
  have key : ∀ n, (bittruncate x n).bind (fun y => bittruncate y n) = bittruncate x n := by
    intro n
    rw [bittruncate_eq x n, Option.some_bind, bittruncate_eq, Nat.land_assoc, Nat.and_self]
  exact ⟨key nbits, key 40⟩

/-- C3: `bittruncate` is monotone in `nbits`: for `m <= n`, truncating by `m` and
then by `n` is truncating by `n`, every bit that is clear after truncating by `m`
is clear after truncating by `n`, and the magnitude field (low 63 bits) after `n`
is at most the one after `m`. -/
theorem bittruncate_monotone (x m n : Nat) (hx : x < 2 ^ 64) (hmn : m ≤ n) :
    ∃ ym yn, bittruncate x m = some ym ∧ bittruncate x n = some yn
      ∧ bittruncate ym n = some yn
      ∧ (∀ i, ym.testBit i = false → yn.testBit i = false)
      ∧ magnitudeField yn ≤ magnitudeField ym := by
  have hk : min m 40 ≤ min n 40 := by omega
  refine ⟨_, _, bittruncate_arith x m hx, bittruncate_arith x n hx, ?_, ?_, ?_⟩
  · rw [bittruncate_arith _ n (trunc_lt x _ hx), trunc_trunc x hk]
  · intro i
    rw [testBit_trunc, testBit_trunc]
    by_cases h1 : min n 40 ≤ i
    · have h2 : min m 40 ≤ i := le_trans hk h1
      simp [h1, h2]
    · simp [h1]
  · unfold magnitudeField
    rw [trunc_mod x (show min n 40 ≤ 63 by omega), trunc_mod x (show min m 40 ≤ 63 by omega)]
    have := mod_two_pow_le_mod x hk
    omega

/-- Witness of C3: truncating by 8 and then by 16 bits. -/
theorem bittruncate_monotone_witness :
    ∃ ym yn, bittruncate 0x400921FB54442D18 8 = some ym
      ∧ bittruncate 0x400921FB54442D18 16 = some yn
      ∧ bittruncate ym 16 = some yn
      ∧ (∀ i, ym.testBit i = false → yn.testBit i = false)
      ∧ magnitudeField yn ≤ magnitudeField ym :=
  bittruncate_monotone 0x400921FB54442D18 8 16 (by norm_num) (by norm_num)

/-- C4: `bittruncate` never increases magnitude: the result has the sign bit and
the 11 exponent bits of `x`, its 52-bit mantissa field is at most that of `x`,
and so, when `x` encodes a finite double, the result encodes a finite double of
absolute value at most `|x|`. -/
theorem bittruncate_magnitude_le (x nbits : Nat) (hx : x < 2 ^ 64) :
    ∃ y, bittruncate x nbits = some y
      ∧ signBit y = signBit x
      ∧ exponentField y = exponentField x
      ∧ mantissaField y ≤ mantissaField x
      ∧ (isFinitePattern x → isFinitePattern y ∧ |doubleValue y| ≤ |doubleValue x|) := by
  have hs : signBit (x - x % 2 ^ min nbits 40) = signBit x :=
    trunc_div x (show min nbits 40 ≤ 63 by omega)
  have he : exponentField (x - x % 2 ^ min nbits 40) = exponentField x := by
    unfold exponentField
    rw [trunc_div x (show min nbits 40 ≤ 52 by omega)]
  have hm : mantissaField (x - x % 2 ^ min nbits 40) ≤ mantissaField x := by
    unfold mantissaField
    rw [trunc_mod x (show min nbits 40 ≤ 52 by omega)]
    exact Nat.sub_le _ _
  refine ⟨_, bittruncate_arith x nbits hx, hs, he, hm, ?_⟩
  intro hfin
  refine ⟨?_, ?_⟩
  · unfold isFinitePattern at hfin ⊢
    rw [he]; exact hfin
  · rw [abs_doubleValue, abs_doubleValue]
    exact absValue_mono _ _ he hm

/-- Witness of C4 at the pattern of the double closest to pi. -/
theorem bittruncate_magnitude_le_witness :
    ∃ y, bittruncate 0x400921FB54442D18 12 = some y
      ∧ signBit y = signBit 0x400921FB54442D18
      ∧ exponentField y = exponentField 0x400921FB54442D18
      ∧ mantissaField y ≤ mantissaField 0x400921FB54442D18
      ∧ (isFinitePattern 0x400921FB54442D18 →
          isFinitePattern y ∧ |doubleValue y| ≤ |doubleValue 0x400921FB54442D18|) :=
  bittruncate_magnitude_le 0x400921FB54442D18 12 (by norm_num)

/-! ## The summation kernels -/

section KernelProperties

variable {α : Type}

theorem ok_bind {ε β γ : Type} (x : β) (g : β → Except ε γ) :
    ((Except.ok x : Except ε β) >>= g) = g x := rfl

theorem readVar_eq (var : List α) (i : Nat) (h : i < var.length) :
    readVar var i = .ok var[i] := by
  simp [readVar, List.getElem?_eq_getElem h]

theorem foldlM_readVar {σ : Type} (var : List α) (f : σ → α → σ) (n : Nat)
    (hn : n ≤ var.length) (init : σ) :
    (List.range n).foldlM (fun s i => do
        let x ← readVar var i
        pure (f s x)) init = Except.ok ((var.take n).foldl f init) := by
  induction n with
  | zero => rfl
  | succ n ih =>
    have hlt : n < var.length := hn
    rw [List.range_succ, List.foldlM_append, ih (Nat.le_of_lt hlt)]
    rw [List.take_succ, List.getElem?_eq_getElem hlt, List.foldl_append]
    rw [ok_bind, List.foldlM_cons, readVar_eq var n hlt]
    rfl

theorem foldlM_readVar_idx [AddCommGroup α] (var : List α) (n : Nat) (hn : n ≤ var.length)
    (idx : List (Fin n)) (init : α) :
    idx.foldlM (fun sum i => do
        let x ← readVar var i.val
        pure (sum + x)) init
      = Except.ok (init + (idx.map (fun i => var.getD i.val 0)).sum) := by
  induction idx generalizing init with
  | nil => simp; rfl
  | cons i idx ih =>
    have hi : i.val < var.length := lt_of_lt_of_le i.isLt hn
    rw [List.foldlM_cons, readVar_eq var i.val hi, ok_bind, pure_bind, ih]
    simp [List.getElem?_eq_getElem hi, add_assoc]

theorem mapM_shares [AddCommGroup α] (var : List α) (n : Nat) (hn : n ≤ var.length)
    (shares : List (List (Fin n))) :
    shares.mapM (fun share => share.foldlM (fun sum i => do
        let x ← readVar var i.val
        pure (sum + x)) (0 : α))
      = Except.ok (shares.map (fun share => (share.map (fun i => var.getD i.val 0)).sum)) := by
  induction shares with
  | nil => rfl
  | cons share shares ih =>
    rw [List.mapM_cons, foldlM_readVar_idx var n hn share, ih]
    simp
    rfl

theorem foldl_add_eq_sum [AddCommGroup α] (l : List α) (init : α) :
    l.foldl (fun s p => s + p) init = init + l.sum := by
  induction l generalizing init with
  | nil => simp
  | cons a l ih => simp [ih, add_assoc]

theorem map_getD_range (var : List α) (d : α) (n : Nat) (hn : n ≤ var.length) :
    (List.range n).map (fun i => var.getD i d) = var.take n := by
  apply List.ext_getElem
  · simp [hn]
  · intro i h1 h2
    simp at h1 h2
    simp [List.getElem?_eq_getElem (show i < var.length by omega)]

theorem serial_loop_eq [AddCommGroup α] (var : List α) (n : Nat) (hn : n ≤ var.length)
    (init : α) : serial_loop var n init = Except.ok (init + (var.take n).sum) := by
  unfold serial_loop
  rw [foldlM_readVar var (fun s x => s + x) n hn init, foldl_add_eq_sum]

theorem do_sum_eq [AddCommGroup α] [Div α] (var : List α) (n : Nat) (hn : n ≤ var.length)
    (accurate_sum : α) :
    do_sum var n accurate_sum = Except.ok (report accurate_sum (var.take n).sum) := by
  unfold do_sum
  rw [serial_loop_eq var n hn, ok_bind, zero_add]
  rfl

theorem do_sum_omp_eq [AddCommGroup α] [Div α] (var : List α) (ncells : Nat)
    (shares : List (List (Fin ncells))) (accurate_sum : α) (hlen : var.length = ncells)
    (hs : IsSchedule ncells shares) :
    do_sum_omp var ncells accurate_sum shares = Except.ok (report accurate_sum var.sum) := by
  unfold do_sum_omp
  rw [mapM_shares var ncells (le_of_eq hlen.symm) shares, ok_bind, foldl_add_eq_sum, zero_add]
  have h1 : (shares.map (fun share => (share.map (fun i => var.getD i.val 0)).sum)).sum
      = ((shares.flatten.map Fin.val).map (fun i => var.getD i 0)).sum := by
    rw [List.map_map, List.map_flatten, List.sum_flatten, List.map_map]
    rfl
  have h2 : ((shares.flatten.map Fin.val).map (fun i => var.getD i 0)).sum
      = ((List.range ncells).map (fun i => var.getD i 0)).sum :=
    List.Perm.sum_eq (List.Perm.map _ hs)
  rw [h1, h2, map_getD_range var 0 ncells (le_of_eq hlen.symm), ← hlen, List.take_length]
  rfl

theorem treeSum_eq_sum [AddCommGroup α] (g : Nat → α) (k : Nat) :
    ∀ i, treeSum g k i = ∑ t in Finset.range (2 ^ k), g (i * 2 ^ k + t) := by
  induction k with
  | zero => intro i; simp [treeSum]
  | succ k ih =>
    intro i
    rw [treeSum, ih, ih, pow_succ, show 2 ^ k * 2 = 2 ^ k + 2 ^ k from Nat.mul_two _,
      Finset.sum_range_add]
    congr 1
    · apply Finset.sum_congr rfl
      intro t _
      congr 1
      ring
    · apply Finset.sum_congr rfl
      intro t _
      congr 1
      ring

theorem readBuf_eq (buf : List (Option α)) (i : Nat) (x : α)
    (h : buf[i]? = some (some x)) : readBuf buf i = Except.ok x := by
  simp [readBuf, h]

theorem writeBuf_eq (buf : List (Option α)) (i : Nat) (x : α) (h : i < buf.length) :
    writeBuf buf i x = Except.ok (buf.set i (some x)) := by
  simp [writeBuf, h]

theorem lt_length_of_getElem? {β : Type} (l : List β) (i : Nat) (b : β)
    (h : l[i]? = some b) : i < l.length := by
  by_contra hc
  rw [List.getElem?_eq_none (Nat.le_of_not_lt hc)] at h
  exact Option.noConfusion h

/-- The first loop of `do_pair_sum` succeeds and leaves in cell `i < nmax` the
sum of the elements `2i` and `2i+1` of the array. -/
theorem pair_first_spec [Add α] (g : Nat → α) (var : List α) (K : Nat)
    (hv : ∀ i < K, var[i]? = some (g i)) (buf : List (Option α)) (nmax : Nat)
    (hK : nmax * 2 ≤ K) (hb : nmax ≤ buf.length) :
    ∃ buf1, pair_first var nmax buf = Except.ok buf1 ∧ buf1.length = buf.length
      ∧ ∀ i < nmax, buf1[i]? = some (some (g (i * 2) + g (i * 2 + 1))) := by
  induction nmax with
  | zero => exact ⟨buf, rfl, rfl, fun i hi => absurd hi (Nat.not_lt_zero i)⟩
  | succ m ih =>
    obtain ⟨b, hb1, hb2, hb3⟩ := ih (by omega) (by omega)
    have hr1 : readVar var (m * 2) = Except.ok (g (m * 2)) := by
      simp [readVar, hv (m * 2) (by omega)]
    have hr2 : readVar var (m * 2 + 1) = Except.ok (g (m * 2 + 1)) := by
      simp [readVar, hv (m * 2 + 1) (by omega)]
    have hm : m < b.length := by omega
    refine ⟨b.set m (some (g (m * 2) + g (m * 2 + 1))), ?_, ?_, ?_⟩
    · unfold pair_first at hb1 ⊢
      rw [List.range_succ, List.foldlM_append, hb1, ok_bind, List.foldlM_cons, hr1, ok_bind,
        hr2, ok_bind, writeBuf_eq b m _ hm, ok_bind]
      rfl
    · rw [List.length_set, hb2]
    · intro i hi
      by_cases him : i = m
      · subst him
        rw [List.getElem?_set_self hm]
      · rw [List.getElem?_set_ne (fun h => him h.symm)]
        exact hb3 i (by omega)

/-- One in-place pass of the inner loop of `do_pair_sum` succeeds, leaves in cell
`i < nmax` the sum of the former cells `2i` and `2i+1`, and leaves the cells from
`nmax` on alone. -/
theorem pair_pass_spec [Add α] (g : Nat → α) (buf : List (Option α)) (K : Nat)
    (hg : ∀ i < K, buf[i]? = some (some (g i))) (nmax : Nat) (hK : nmax * 2 ≤ K) :
    ∃ buf1, pair_pass nmax buf = Except.ok buf1 ∧ buf1.length = buf.length
      ∧ (∀ i < nmax, buf1[i]? = some (some (g (i * 2) + g (i * 2 + 1))))
      ∧ ∀ i, nmax ≤ i → buf1[i]? = buf[i]? := by
  induction nmax with
  | zero => exact ⟨buf, rfl, rfl, fun i hi => absurd hi (Nat.not_lt_zero i), fun _ _ => rfl⟩
  | succ m ih =>
    obtain ⟨b, hb1, hb2, hb3, hb4⟩ := ih (by omega)
    have hr1 : readBuf b (m * 2) = Except.ok (g (m * 2)) :=
      readBuf_eq b _ _ (by rw [hb4 (m * 2) (by omega)]; exact hg (m * 2) (by omega))
    have hr2 : readBuf b (m * 2 + 1) = Except.ok (g (m * 2 + 1)) :=
      readBuf_eq b _ _ (by rw [hb4 (m * 2 + 1) (by omega)]; exact hg (m * 2 + 1) (by omega))
    have hm : m < b.length := by
      rw [hb2]; exact lt_length_of_getElem? buf m _ (hg m (by omega))
    refine ⟨b.set m (some (g (m * 2) + g (m * 2 + 1))), ?_, ?_, ?_, ?_⟩
    · unfold pair_pass at hb1 ⊢
      rw [List.range_succ, List.foldlM_append, hb1, ok_bind, List.foldlM_cons, hr1, ok_bind,
        hr2, ok_bind, writeBuf_eq b m _ hm, ok_bind]
      rfl
    · rw [List.length_set, hb2]
    · intro i hi
      by_cases him : i = m
      · subst him
        rw [List.getElem?_set_self hm]
      · rw [List.getElem?_set_ne (fun h => him h.symm)]
        exact hb3 i (by omega)
    · intro i hi
      rw [List.getElem?_set_ne (by omega)]
      exact hb4 i (by omega)

theorem pair_levels_done [Add α] (ncells fuel j nmax : Nat) (buf : List (Option α))
    (h : ¬ 2 ^ j < ncells) : pair_levels ncells fuel j nmax buf = Except.ok buf := by
  cases fuel <;> simp [pair_levels, h]

/-- The outer loop of `do_pair_sum` ends within its bound, without a failing
access, and leaves in `pwsum[0]` the root of the reduction tree of height `k`,
where `2^k <= ncells < 2^(k+1)`. -/
theorem pair_levels_ok [Add α] (g : Nat → α) (ncells k : Nat) (hk1 : 2 ^ k ≤ ncells)
    (hk2 : ncells < 2 ^ (k + 1)) :
    ∀ (fuel j nmax : Nat) (buf : List (Option α)), j ≤ k → k + 1 ≤ fuel + j →
      nmax = ncells / 2 ^ j → (∀ i < nmax, buf[i]? = some (some (treeSum g j i))) →
      ∃ buf1, pair_levels ncells fuel j nmax buf = Except.ok buf1
        ∧ buf1[0]? = some (some (treeSum g k 0)) := by
  intro fuel
  induction fuel with
  | zero => intro j nmax buf hj hf; omega
  | succ fuel ih =>
    intro j nmax buf hj hf hn hbuf
    have hjk : 2 ^ j ≤ 2 ^ k := Nat.pow_le_pow_right (by norm_num) hj
    have hpos : 0 < nmax := by
      rw [hn]; exact Nat.div_pos (le_trans hjk hk1) (Nat.two_pow_pos j)
    by_cases hc : 2 ^ j < ncells
    · obtain ⟨b, hb1, -, hb3, hb4⟩ :=
        pair_pass_spec (treeSum g j) buf nmax hbuf (nmax / 2) (Nat.div_mul_le_self nmax 2)
      have hstep : pair_levels ncells (fuel + 1) j nmax buf
          = pair_levels ncells fuel (j + 1) (nmax / 2) b := by
        rw [pair_levels, if_pos hc]
        show (pair_pass (nmax / 2) buf >>= _) = _
        rw [hb1, ok_bind]
      have hn2 : nmax / 2 = ncells / 2 ^ (j + 1) := by
        rw [hn, Nat.div_div_eq_div_mul, pow_succ]
      rw [hstep]
      by_cases hlt : j < k
      · exact ih (j + 1) (nmax / 2) b hlt (by omega) hn2 hb3
      · have hjeq : j = k := by omega
        subst hjeq
        have hzero : nmax / 2 = 0 := by
          rw [hn2]; exact Nat.div_eq_of_lt hk2
        refine ⟨b, pair_levels_done ncells fuel (j + 1) (nmax / 2) b (by omega), ?_⟩
        rw [hb4 0 (by omega)]
        exact hbuf 0 hpos
    · have hle : 2 ^ k ≤ 2 ^ j := le_trans hk1 (Nat.le_of_not_lt hc)
      have hkj : k ≤ j := (Nat.pow_le_pow_iff_right (by norm_num)).mp hle
      have hjeq : j = k := by omega
      subst hjeq
      exact ⟨buf, pair_levels_done ncells (fuel + 1) j nmax buf hc, hbuf 0 hpos⟩

theorem sum_range_getD [AddCommGroup α] (var : List α) (n : Nat) (hn : n ≤ var.length) :
    ∑ t in Finset.range n, var.getD t 0 = (var.take n).sum := by
  rw [← map_getD_range var 0 n hn, Finset.sum_range, ← List.sum_ofFn]
  congr 1
  apply List.ext_getElem <;> simp

/-- The sum computed by `do_pair_sum` on an array of at least `ncells` elements,
`2^k <= ncells < 2^(k+1)` with `k >= 1`: the run succeeds and reports the sum of
the first `2^k` elements. -/
theorem do_pair_sum_eq [AddCommGroup α] [Div α] (var : List α) (ncells k : Nat)
    (accurate_sum : α) (hlen : ncells ≤ var.length) (hk : 1 ≤ k) (hk1 : 2 ^ k ≤ ncells)
    (hk2 : ncells < 2 ^ (k + 1)) :
    do_pair_sum var ncells accurate_sum
      = Except.ok (report accurate_sum (var.take (2 ^ k)).sum) := by
  have hv : ∀ i < ncells, var[i]? = some (var.getD i 0) := by
    intro i hi
    simp [List.getElem?_eq_getElem (show i < var.length by omega)]
  obtain ⟨b1, hb1, -, hb3⟩ := pair_first_spec (fun i => var.getD i 0) var ncells hv
    (List.replicate (ncells / 2) none) (ncells / 2) (Nat.div_mul_le_self ncells 2) (by simp)
  have hklt : k < 2 ^ k := Nat.lt_two_pow k
  obtain ⟨b2, hb4, hb5⟩ := pair_levels_ok (fun i => var.getD i 0) ncells k hk1 hk2
    ncells 1 (ncells / 2) b1 hk (by omega) (by simp) hb3
  unfold do_pair_sum
  simp only []
  rw [hb1, ok_bind, hb4, ok_bind, readBuf_eq b2 0 _ hb5, ok_bind, treeSum_eq_sum]
  simp only [Nat.zero_mul, Nat.zero_add]
  rw [sum_range_getD var (2 ^ k) (le_trans hk1 hlen)]
  rfl

/-! ### The claims about the summation kernels -/

/-- C5: for every array whose length `N` is a power of two with `N >= 2`, with
exact additions, `do_pair_sum` runs without a failing access and reports the same
sum as the serial `do_sum`, the sum of all `N` elements. -/
theorem do_pair_sum_pow_two [AddCommGroup α] [Div α] (var : List α) (ncells k : Nat)
    (accurate_sum : α) (hlen : var.length = ncells) (hk : 1 ≤ k) (hN : ncells = 2 ^ k) :
    do_pair_sum var ncells accurate_sum = do_sum var ncells accurate_sum
      ∧ do_sum var ncells accurate_sum = Except.ok (report accurate_sum var.sum) := by
  have h2 : ncells < 2 ^ (k + 1) := by
    rw [hN]; exact Nat.pow_lt_pow_right (by norm_num) (Nat.lt_succ_self k)
  have hs : do_sum var ncells accurate_sum = Except.ok (report accurate_sum var.sum) := by
    rw [do_sum_eq var ncells (le_of_eq hlen.symm), ← hlen, List.take_length]
  refine ⟨?_, hs⟩
  rw [hs, do_pair_sum_eq var ncells k accurate_sum (le_of_eq hlen.symm) hk (le_of_eq hN.symm) h2,
    ← hN, ← hlen, List.take_length]

/-- Witness of C5: the eight values 1, ..., 8 give 36. -/
theorem do_pair_sum_pow_two_witness :
    (8 = 2 ^ 3) ∧ do_pair_sum ([1, 2, 3, 4, 5, 6, 7, 8] : List ℚ) 8 36
      = Except.ok (report 36 36) := by
  refine ⟨by norm_num, ?_⟩
  have h := do_pair_sum_pow_two ([1, 2, 3, 4, 5, 6, 7, 8] : List ℚ) 8 3 36 rfl
    (by norm_num) (by norm_num)
  rw [h.1, h.2]
  norm_num

/-- C6, as stated, fails: on six elements (not a power of two) `do_pair_sum` reports
`1+2+3+4 = 10`, not the sum `15` of all but the trailing element: it drops two. -/
theorem do_pair_sum_drops_one_counterexample :
    (∀ k : Nat, 6 ≠ 2 ^ k)
      ∧ Except.map Report.sum (do_pair_sum ([1, 2, 3, 4, 5, 6] : List ℤ) 6 0) = Except.ok 10
      ∧ Except.map Report.sum (do_pair_sum ([1, 2, 3, 4, 5, 6] : List ℤ) 6 0)
          ≠ Except.ok (List.sum (List.take (6 - 1) [1, 2, 3, 4, 5, 6])) := by
  refine ⟨?_, by decide, by decide⟩
  intro k hk
  have h3 : k < 3 := by
    by_contra hc
    have : 2 ^ 3 ≤ 2 ^ k := Nat.pow_le_pow_right (by norm_num) (Nat.le_of_not_lt hc)
    omega
  interval_cases k <;> omega

/-- C6, amended: for every array whose length `N >= 2` is not a power of two,
`2^k < N < 2^(k+1)`, with exact additions `do_pair_sum` runs without a failing
access and reports the sum of `var[0] .. var[2^k - 1]`: it drops the trailing
`N - 2^k` elements, which is the single trailing element when `N = 2^k + 1`. -/
theorem do_pair_sum_not_pow_two [AddCommGroup α] [Div α] (var : List α) (ncells k : Nat)
    (accurate_sum : α) (hlen : var.length = ncells) (hk : 1 ≤ k) (h1 : 2 ^ k < ncells)
    (h2 : ncells < 2 ^ (k + 1)) :
    do_pair_sum var ncells accurate_sum
        = Except.ok (report accurate_sum (var.take (2 ^ k)).sum)
      ∧ (ncells = 2 ^ k + 1 → do_pair_sum var ncells accurate_sum
          = Except.ok (report accurate_sum (var.take (ncells - 1)).sum)) := by
  have h := do_pair_sum_eq var ncells k accurate_sum (le_of_eq hlen.symm) hk (le_of_lt h1) h2
  refine ⟨h, ?_⟩
  intro hN
  rw [h, hN, Nat.add_sub_cancel]

/-- Witness of the amended C6: seven elements, of which the last three are dropped. -/
theorem do_pair_sum_not_pow_two_witness :
    (2 ^ 2 < 7 ∧ 7 < 2 ^ (2 + 1))
      ∧ do_pair_sum ([1, 2, 3, 4, 5, 6, 7] : List ℚ) 7 28 = Except.ok (report 28 10) := by
  refine ⟨by norm_num, ?_⟩
  have h := do_pair_sum_not_pow_two ([1, 2, 3, 4, 5, 6, 7] : List ℚ) 7 2 28 rfl
    (by norm_num) (by norm_num) (by norm_num)
  rw [h.1]
  norm_num

/-- The three index-order strategies on a one-element array `[x]`, in an arithmetic
where `0 + x` and `x + 0` are both `y` and where `0 + y = y`, `y + 0 = y`, `y - 0 = y`,
`y - y = 0`, `0 + 0 = 0` and `0 - 0 = 0`: each reports the sum `y`. -/
theorem single_element_of_laws [Zero α] [Add α] [Sub α] [Div α] (x y accurate_sum : α)
    (hx1 : (0 : α) + x = y) (hx2 : x + 0 = y)
    (h1 : (0 : α) + y = y) (h2 : y + 0 = y) (h3 : y - 0 = y) (h4 : y - y = 0)
    (h5 : (0 : α) + 0 = 0) (h6 : (0 : α) - 0 = 0) :
    do_sum [x] 1 accurate_sum = Except.ok (report accurate_sum y)
      ∧ do_kahan_sum [x] 1 accurate_sum = Except.ok (report accurate_sum y)
      ∧ do_knuth_sum [x] 1 accurate_sum = Except.ok (report accurate_sum y) := by
  refine ⟨?_, ?_, ?_⟩
  · show Except.ok (report accurate_sum (0 + x)) = _
    rw [hx1]
  · show Except.ok (report accurate_sum (0 + 0 + (x + 0 - (0 + 0 - 0)))) = _
    rw [h5, h6, hx2, h3, h1]
  · show Except.ok (report accurate_sum
      (0 + (x + 0) + (0 - (0 + (x + 0) - (x + 0)) + (x + 0 - (0 + (x + 0) - (0 + (x + 0) - (x + 0))))))) = _
    rw [hx2, h1, h4, h3, h4, h6, h5, h2]

/-- C8 fails on the code: on a one-element array `do_pair_sum` allocates a scratch
buffer of `1/2 = 0` cells, runs no iteration of either loop, and its read of
`pwsum[0]` is outside the buffer; no sum equal to `x` is produced. -/
theorem do_pair_sum_single_out_of_bounds [Zero α] [Add α] [Sub α] [Div α]
    (x accurate_sum : α) :
    do_pair_sum [x] 1 accurate_sum = Except.error MemError.out_of_bounds := by
  rfl

/-- C9: the parallel naive reduction of `do_sum_omp` does not depend on the
division of the iterations among the workers when additions are exact: for
every array, every team and every division of `0 .. N-1` among its workers, in
every order of combination, it reports the sum of `do_sum`; in particular 10,000
elements equal to 1 give 10,000 for every team. -/
theorem do_sum_omp_partition_independent [AddCommGroup α] [Div α] (var : List α)
    (ncells : Nat) (shares : List (List (Fin ncells))) (accurate_sum : α)
    (hlen : var.length = ncells) (hs : IsSchedule ncells shares) :
    do_sum_omp var ncells accurate_sum shares = do_sum var ncells accurate_sum
      ∧ do_sum var ncells accurate_sum = Except.ok (report accurate_sum var.sum)
      ∧ ∀ (team : List (List (Fin 10000))) (acc : ℚ), IsSchedule 10000 team →
          do_sum_omp (List.replicate 10000 (1 : ℚ)) 10000 acc team
            = Except.ok (report acc 10000) := by
  have hd : do_sum var ncells accurate_sum = Except.ok (report accurate_sum var.sum) := by
    rw [do_sum_eq var ncells (le_of_eq hlen.symm), ← hlen, List.take_length]
  refine ⟨?_, hd, ?_⟩
  · rw [hd]
    exact do_sum_omp_eq var ncells shares accurate_sum hlen hs
  · intro team acc ht
    rw [do_sum_omp_eq (List.replicate 10000 (1 : ℚ)) 10000 team acc
      (List.length_replicate 10000 1) ht, List.sum_replicate, nsmul_eq_mul]
    norm_num

/-- Witness of C9: four elements divided among three workers, combined out of
index order. -/
theorem do_sum_omp_partition_independent_witness :
    IsSchedule 4 [[3], [0, 2], [1]]
      ∧ do_sum_omp ([1, 2, 3, 4] : List ℚ) 4 10 [[3], [0, 2], [1]]
          = do_sum ([1, 2, 3, 4] : List ℚ) 4 10 := by
  have hs : IsSchedule 4 [[3], [0, 2], [1]] := by
    unfold IsSchedule
    decide
  exact ⟨hs, (do_sum_omp_partition_independent ([1, 2, 3, 4] : List ℚ) 4 [[3], [0, 2], [1]] 10
    rfl hs).1⟩

theorem do_sum_sum_indep [Zero α] [Add α] [Sub α] [Div α] (var : List α) (n : Nat)
    (a b : α) :
    Except.map Report.sum (do_sum var n a) = Except.map Report.sum (do_sum var n b) := by
  unfold do_sum
  generalize serial_loop var n 0 = r
  cases r <;> rfl

theorem do_kahan_sum_sum_indep [Zero α] [Add α] [Sub α] [Div α] (var : List α) (n : Nat)
    (a b : α) :
    Except.map Report.sum (do_kahan_sum var n a)
      = Except.map Report.sum (do_kahan_sum var n b) := by
  unfold do_kahan_sum
  generalize kahan_loop var n = r
  cases r <;> rfl

theorem do_knuth_sum_sum_indep [Zero α] [Add α] [Sub α] [Div α] (var : List α) (n : Nat)
    (a b : α) :
    Except.map Report.sum (do_knuth_sum var n a)
      = Except.map Report.sum (do_knuth_sum var n b) := by
  unfold do_knuth_sum
  generalize knuth_loop var n = r
  cases r <;> rfl

end KernelProperties

/-! ### The claim about rounding -/

/-- The binary64 operations on some telling inputs, as bit patterns:
`1 + 2^-53 = 1` and `1 + 1.5 * 2^-53 = 1 + 2^-52` (ties to even, and above the
tie), `2^53 + 1 = 2^53`, `(2^53 + 2) + 1 = 2^53 + 4`, `1 - 2^-54 = 1`, `1 / 3`,
overflow of the largest double to infinity, the smallest subnormal halved to 0
and three halves of it rounded to 2 of it, `10^8 + 10^-8`, `1.5 - 1.5 = +0` and
`1 / 10`. -/
theorem F64_arithmetic_examples :
    F64.ofBits 0x3FF0000000000000 + F64.ofBits 0x3CA0000000000000 = F64.ofBits 0x3FF0000000000000
      ∧ F64.ofBits 0x3FF0000000000000 + F64.ofBits 0x3CA8000000000000 = F64.ofBits 0x3FF0000000000001
      ∧ F64.ofBits 0x4340000000000000 + F64.ofBits 0x3FF0000000000000 = F64.ofBits 0x4340000000000000
      ∧ F64.ofBits 0x4340000000000001 + F64.ofBits 0x3FF0000000000000 = F64.ofBits 0x4340000000000002
      ∧ F64.ofBits 0x3FF0000000000000 - F64.ofBits 0x3C90000000000000 = F64.ofBits 0x3FF0000000000000
      ∧ F64.ofBits 0x3FF0000000000000 / F64.ofBits 0x4008000000000000 = F64.ofBits 0x3FD5555555555555
      ∧ F64.ofBits 0x7FEFFFFFFFFFFFFF + F64.ofBits 0x7FEFFFFFFFFFFFFF = F64.ofBits 0x7FF0000000000000
      ∧ F64.ofBits 0x0000000000000001 / F64.ofBits 0x4000000000000000 = F64.ofBits 0x0000000000000000
      ∧ F64.ofBits 0x0000000000000003 / F64.ofBits 0x4000000000000000 = F64.ofBits 0x0000000000000002
      ∧ F64.ofBits 0x4197D78400000000 + F64.ofBits 0x3E45798EE2308C3A = F64.ofBits 0x4197D78400000001
      ∧ F64.ofBits 0x3FF8000000000000 - F64.ofBits 0x3FF8000000000000 = F64.ofBits 0x0000000000000000
      ∧ F64.ofBits 0x3FF0000000000000 / F64.ofBits 0x4024000000000000 = F64.ofBits 0x3FB999999999999A := by
  decide!

/-- C10, as stated, fails: on the array `2^53, 1.5, 1, 2^53` of doubles, whose exact
sum is `2^54 + 2.5`, `do_sum` reports `2^54 + 4` (1.5 away) while `do_kahan_sum`
and `do_knuth_sum` both report `2^54` (2.5 away).  Values and distances are in
units of `2^-1074`. -/
theorem compensated_closer_counterexample :
    closerNaiveArray = [F64.finite false (2 ^ 53 * 2 ^ 1074), F64.finite false (3 * 2 ^ 1073),
        F64.finite false (2 ^ 1074), F64.finite false (2 ^ 53 * 2 ^ 1074)]
      ∧ F64.exactSum closerNaiveArray = some ((2 ^ 54 + 2) * 2 ^ 1074 + 2 ^ 1073)
      ∧ Except.map Report.sum (do_sum closerNaiveArray 4 0)
          = Except.ok (F64.finite false ((2 ^ 54 + 4) * 2 ^ 1074))
      ∧ Except.map Report.sum (do_kahan_sum closerNaiveArray 4 0)
          = Except.ok (F64.finite false (2 ^ 54 * 2 ^ 1074))
      ∧ Except.map Report.sum (do_knuth_sum closerNaiveArray 4 0)
          = Except.ok (F64.finite false (2 ^ 54 * 2 ^ 1074))
      ∧ F64.absError (Except.map Report.sum (do_sum closerNaiveArray 4 0)) closerNaiveArray
          = some (3 * 2 ^ 1073)
      ∧ F64.absError (Except.map Report.sum (do_kahan_sum closerNaiveArray 4 0)) closerNaiveArray
          = some (5 * 2 ^ 1073)
      ∧ F64.absError (Except.map Report.sum (do_knuth_sum closerNaiveArray 4 0)) closerNaiveArray
          = some (5 * 2 ^ 1073)
      ∧ F64.atLeastAsClose (Except.map Report.sum (do_kahan_sum closerNaiveArray 4 0))
          (Except.map Report.sum (do_sum closerNaiveArray 4 0)) closerNaiveArray = false
      ∧ F64.atLeastAsClose (Except.map Report.sum (do_knuth_sum closerNaiveArray 4 0))
          (Except.map Report.sum (do_sum closerNaiveArray 4 0)) closerNaiveArray = false := by
  decide!

/-! ### Rounding of the binary64 operations -/

namespace F64

theorem excessBits_step (q s j r : Nat) (hr : r = j + j)
    (h : (s = 0 ∨ 2 ^ (52 + s) ≤ q) ∧ q < 2 ^ (52 + s + r)) :
    ((if 2 ^ (52 + s + j) ≤ q then s + j else s) = 0
        ∨ 2 ^ (52 + (if 2 ^ (52 + s + j) ≤ q then s + j else s)) ≤ q)
      ∧ q < 2 ^ (52 + (if 2 ^ (52 + s + j) ≤ q then s + j else s) + j) := by
  subst hr
  by_cases hc : 2 ^ (52 + s + j) ≤ q
  · rw [if_pos hc]
    refine ⟨Or.inr ?_, ?_⟩
    · rw [← Nat.add_assoc]; exact hc
    · have e : 52 + (s + j) + j = 52 + s + (j + j) := by omega
      rw [e]; exact h.2
  · rw [if_neg hc]
    exact ⟨h.1, Nat.lt_of_not_le hc⟩

theorem excessBits_fold (q : Nat) (k : Nat) (s : Nat)
    (h : (s = 0 ∨ 2 ^ (52 + s) ≤ q) ∧ q < 2 ^ (52 + s + 2 ^ k)) :
    ((((List.range k).reverse.map (fun i => 2 ^ i)).foldl
          (fun s j => if 2 ^ (52 + s + j) ≤ q then s + j else s) s) = 0
        ∨ 2 ^ (52 + (((List.range k).reverse.map (fun i => 2 ^ i)).foldl
          (fun s j => if 2 ^ (52 + s + j) ≤ q then s + j else s) s)) ≤ q)
      ∧ q < 2 ^ (52 + (((List.range k).reverse.map (fun i => 2 ^ i)).foldl
          (fun s j => if 2 ^ (52 + s + j) ≤ q then s + j else s) s) + 1) := by
  induction k generalizing s with
  | zero => simpa using h
  | succ k ih =>
    rw [List.range_succ, List.reverse_append, List.reverse_singleton, List.singleton_append,
      List.map_cons, List.foldl_cons]
    exact ih _ (excessBits_step q s (2 ^ k) (2 ^ (k + 1)) (by rw [pow_succ]; omega) h)

theorem excessBits_spec (q : Nat) (hq : q < 2 ^ (52 + 0 + 2 ^ 13)) :
    (excessBits q = 0 ∨ 2 ^ (52 + excessBits q) ≤ q) ∧ q < 2 ^ (52 + excessBits q + 1) := by
  have hl : [4096, 2048, 1024, 512, 256, 128, 64, 32, 16, 8, 4, 2, 1]
      = (List.range 13).reverse.map (fun i => 2 ^ i) := by decide
  unfold excessBits
  rw [hl]
  exact excessBits_fold q 13 0 ⟨Or.inl rfl, hq⟩

theorem excessBits_eq (q s : Nat) (h1 : 2 ^ (52 + s) ≤ q) (h2 : q < 2 ^ (52 + s + 1))
    (hs : s ≤ 8000) : excessBits q = s := by
  have hq : q < 2 ^ (52 + 0 + 2 ^ 13) :=
    lt_of_lt_of_le h2 (Nat.pow_le_pow_right (by norm_num) (by omega))
  obtain ⟨ha, hb⟩ := excessBits_spec q hq
  have hle : s ≤ excessBits q := by
    have h3 := lt_of_le_of_lt h1 hb
    have h4 := (Nat.pow_lt_pow_iff_right (by norm_num : 1 < 2)).mp h3
    omega
  rcases ha with ha | ha
  · omega
  · have := lt_of_le_of_lt ha h2
    have := (Nat.pow_lt_pow_iff_right (by norm_num : 1 < 2)).mp this
    omega

theorem excessBits_small (q : Nat) (h : q < 2 ^ 53) : excessBits q = 0 := by
  have hq : q < 2 ^ (52 + 0 + 2 ^ 13) :=
    lt_of_lt_of_le h (Nat.pow_le_pow_right (by norm_num) (by omega))
  obtain ⟨ha, -⟩ := excessBits_spec q hq
  rcases ha with ha | ha
  · exact ha
  · have := lt_of_le_of_lt ha h
    have := (Nat.pow_lt_pow_iff_right (by norm_num : 1 < 2)).mp this
    omega

theorem round_one (neg : Bool) (n : Nat) :
    round neg n 1
      = (if (if 2 ^ excessBits n < 2 * (n % 2 ^ excessBits n)
              ∨ (2 * (n % 2 ^ excessBits n) = 2 ^ excessBits n ∧ n / 2 ^ excessBits n % 2 = 1)
            then n / 2 ^ excessBits n + 1 else n / 2 ^ excessBits n) * 2 ^ excessBits n < 2 ^ 2098
          then finite neg ((if 2 ^ excessBits n < 2 * (n % 2 ^ excessBits n)
              ∨ (2 * (n % 2 ^ excessBits n) = 2 ^ excessBits n ∧ n / 2 ^ excessBits n % 2 = 1)
            then n / 2 ^ excessBits n + 1 else n / 2 ^ excessBits n) * 2 ^ excessBits n)
          else infinite neg) := by
  unfold round
  simp only [Nat.div_one, Nat.mul_one]

set_option exponentiation.threshold 9000 in
theorem round_exact (neg : Bool) (k e : Nat) (hk : k < 2 ^ 53) (hm : k * 2 ^ e < 2 ^ 2098) :
    round neg (k * 2 ^ e) 1 = finite neg (k * 2 ^ e) := by
  have hdvd : 2 ^ excessBits (k * 2 ^ e) ∣ k * 2 ^ e := by
    have hq : k * 2 ^ e < 2 ^ (52 + 0 + 2 ^ 13) :=
      lt_of_lt_of_le hm (Nat.pow_le_pow_right (by norm_num) (by norm_num))
    obtain ⟨ha, -⟩ := excessBits_spec _ hq
    rcases ha with ha | ha
    · rw [ha]; simp
    · have h1 : k * 2 ^ e < 2 ^ (53 + e) := by
        rw [pow_add]
        exact Nat.mul_lt_mul_of_pos_right hk (by positivity)
      have h2 := lt_of_le_of_lt ha h1
      have h3 := (Nat.pow_lt_pow_iff_right (by norm_num : 1 < 2)).mp h2
      exact Dvd.dvd.mul_left (pow_dvd_pow 2 (by omega)) k
  have hpos : 0 < 2 ^ excessBits (k * 2 ^ e) := by positivity
  have hcond : ¬ (2 ^ excessBits (k * 2 ^ e) < 2 * 0
      ∨ (2 * 0 = 2 ^ excessBits (k * 2 ^ e)
        ∧ k * 2 ^ e / 2 ^ excessBits (k * 2 ^ e) % 2 = 1)) := by
    clear hm hk hdvd
    omega
  rw [round_one, Nat.mod_eq_zero_of_dvd hdvd]
  simp only [if_neg hcond]
  rw [Nat.div_mul_cancel hdvd, if_pos hm]

set_option exponentiation.threshold 9000 in
theorem round_near (neg : Bool) (n s : Nat) (h1 : 2 ^ (52 + s) ≤ n) (h2 : n < 2 ^ (52 + s + 1))
    (hs : s ≤ 2044) :
    ∃ m, round neg n 1 = finite neg m ∧ 2 ^ s ∣ m ∧ 2 * m ≤ 2 * n + 2 ^ s
      ∧ 2 * n ≤ 2 * m + 2 ^ s := by
  have he := excessBits_eq n s h1 h2 (by omega)
  rw [round_one, he]
  have hpos : 0 < 2 ^ s := by positivity
  have hn : 2 ^ s * (n / 2 ^ s) + n % 2 ^ s = n := Nat.div_add_mod n (2 ^ s)
  have hr : n % 2 ^ s < 2 ^ s := Nat.mod_lt _ hpos
  have hk : n / 2 ^ s < 2 ^ 53 := by
    apply Nat.div_lt_of_lt_mul
    have e : 2 ^ s * 2 ^ 53 = 2 ^ (52 + s + 1) := by
      have e2 : 52 + s + 1 = s + 53 := by omega
      rw [e2, pow_add]
    rw [e]
    exact h2
  have hbig : ∀ k, k ≤ 2 ^ 53 → k * 2 ^ s < 2 ^ 2098 := by
    intro k hk
    calc k * 2 ^ s ≤ 2 ^ 53 * 2 ^ s := Nat.mul_le_mul_right _ hk
      _ = 2 ^ (53 + s) := by rw [← pow_add]
      _ < 2 ^ 2098 := Nat.pow_lt_pow_right (by norm_num) (by omega)
  generalize n / 2 ^ s = k at hn hk ⊢
  generalize n % 2 ^ s = r at hn hr ⊢
  generalize 2 ^ s = u at hn hr hpos hbig ⊢
  by_cases hc : u < 2 * r ∨ (2 * r = u ∧ k % 2 = 1)
  · rw [if_pos hc, if_pos (hbig _ (by omega))]
    refine ⟨(k + 1) * u, rfl, Dvd.intro_left _ rfl, ?_, ?_⟩
    · rw [Nat.add_mul, Nat.one_mul, Nat.mul_comm k u]
      omega
    · rw [Nat.add_mul, Nat.one_mul, Nat.mul_comm k u]
      omega
  · rw [if_neg hc, if_pos (hbig _ (by omega))]
    refine ⟨k * u, rfl, Dvd.intro_left _ rfl, ?_, ?_⟩
    · rw [Nat.mul_comm k u]
      omega
    · rw [Nat.mul_comm k u]
      omega

theorem units_finite (s : Bool) (m : Nat) : units (finite s m) = some (toInt s m) := rfl

theorem units_some {x : F64} {z : Int} (h : units x = some z) :
    ∃ s m, x = finite s m ∧ toInt s m = z := by
  cases x with
  | finite s m => exact ⟨s, m, rfl, by simpa [units] using h⟩
  | infinite s => simp [units] at h
  | nan => simp [units] at h

theorem toInt_decide (z : Int) : toInt (decide (z < 0)) z.natAbs = z := by
  unfold toInt
  by_cases h : z < 0
  · rw [decide_eq_true h, if_pos rfl]
    omega
  · rw [decide_eq_false h, if_neg (by simp)]
    omega

theorem units_neg (x : F64) (z : Int) (h : units x = some z) : units (neg x) = some (-z) := by
  obtain ⟨s, m, rfl, hz⟩ := units_some h
  show some (toInt (!s) m) = some (-z)
  rw [← hz]
  cases s <;> simp [toInt]

set_option exponentiation.threshold 9000 in
/-- The sum of two finite doubles whose exact sum is `c * 2^j` with `|c| < 2^53` is
that exact sum. -/
theorem add_units_exact (x y : F64) (a b c : Int) (j : Nat) (hx : units x = some a)
    (hy : units y = some b) (hrep : a + b = c * 2 ^ j) (hc1 : -2 ^ 53 < c) (hc2 : c < 2 ^ 53)
    (hj : j ≤ 2040) : units (x + y) = some (a + b) := by
  obtain ⟨s1, m1, rfl, h1⟩ := units_some hx
  obtain ⟨s2, m2, rfl, h2⟩ := units_some hy
  show units (add (finite s1 m1) (finite s2 m2)) = _
  unfold add
  simp only [h1, h2]
  by_cases hz : a + b = 0
  · rw [if_pos hz, hz]
    show some (toInt _ 0) = _
    cases (s1 && s2) <;> rfl
  · rw [if_neg hz]
    have hna : (a + b).natAbs = c.natAbs * 2 ^ j := by
      rw [hrep, Int.natAbs_mul, Int.natAbs_pow]
      rfl
    have hck : c.natAbs < 2 ^ 53 := by omega
    have hm : c.natAbs * 2 ^ j < 2 ^ 2098 := by
      calc c.natAbs * 2 ^ j ≤ 2 ^ 53 * 2 ^ j := Nat.mul_le_mul_right _ (le_of_lt hck)
        _ = 2 ^ (53 + j) := by rw [← pow_add]
        _ < 2 ^ 2098 := Nat.pow_lt_pow_right (by norm_num) (by omega)
    rw [hna, round_exact _ _ _ hck hm, units_finite, ← hna, toInt_decide]

/-- The sum of two finite doubles whose exact sum `a + b` is positive with
`2^(52+s) <= a + b < 2^(53+s)`: a whole multiple of `2^s` within `2^s / 2` of it. -/
theorem add_units_near (x y : F64) (a b : Int) (s : Nat) (hx : units x = some a)
    (hy : units y = some b) (h1 : 2 ^ (52 + s) ≤ a + b) (h2 : a + b < 2 ^ (52 + s + 1))
    (hs : s ≤ 2044) :
    ∃ m : Int, units (x + y) = some m ∧ (2 ^ s : Int) ∣ m ∧ 2 * m ≤ 2 * (a + b) + 2 ^ s
      ∧ 2 * (a + b) ≤ 2 * m + 2 ^ s := by
  obtain ⟨s1, m1, rfl, e1⟩ := units_some hx
  obtain ⟨s2, m2, rfl, e2⟩ := units_some hy
  show ∃ m : Int, units (add (finite s1 m1) (finite s2 m2)) = _ ∧ _
  unfold add
  simp only [e1, e2]
  have hpos : 0 < a + b := lt_of_lt_of_le (by positivity) h1
  rw [if_neg (by omega)]
  have hn : ((a + b).natAbs : Int) = a + b := Int.natAbs_of_nonneg (le_of_lt hpos)
  have h1n : 2 ^ (52 + s) ≤ (a + b).natAbs := by
    have : ((2 ^ (52 + s) : Nat) : Int) ≤ ((a + b).natAbs : Int) := by
      rw [hn]; push_cast; exact h1
    exact_mod_cast this
  have h2n : (a + b).natAbs < 2 ^ (52 + s + 1) := by
    have : ((a + b).natAbs : Int) < ((2 ^ (52 + s + 1) : Nat) : Int) := by
      rw [hn]; push_cast; exact h2
    exact_mod_cast this
  obtain ⟨m, hm, hd, hle1, hle2⟩ := round_near (decide (a + b < 0)) _ s h1n h2n hs
  have hcast : ((2 ^ s : Nat) : Int) = (2 : Int) ^ s := by
    rw [Nat.cast_pow, Nat.cast_ofNat]
  refine ⟨(m : Int), ?_, ?_, ?_, ?_⟩
  · rw [hm, units_finite]
    have : decide (a + b < 0) = false := decide_eq_false (by omega)
    rw [this]
    rfl
  · rw [← hcast]
    exact Int.natCast_dvd_natCast.mpr hd
  · rw [← hcast]
    clear h1 h2 h1n h2n hm hd hcast
    generalize 2 ^ s = u at hle1 hle2
    omega
  · rw [← hcast]
    clear h1 h2 h1n h2n hm hd hcast
    generalize 2 ^ s = u at hle1 hle2
    omega

theorem sub_units_exact (x y : F64) (a b c : Int) (j : Nat) (hx : units x = some a)
    (hy : units y = some b) (hrep : a - b = c * 2 ^ j) (hc1 : -2 ^ 53 < c) (hc2 : c < 2 ^ 53)
    (hj : j ≤ 2040) : units (x - y) = some (a - b) := by
  have h := add_units_exact x (neg y) a (-b) c j hx (units_neg y b hy)
    (by rw [← hrep]; ring) hc1 hc2 hj
  rw [← sub_eq_add_neg] at h
  exact h

theorem sub_units_near (x y : F64) (a b : Int) (s : Nat) (hx : units x = some a)
    (hy : units y = some b) (h1 : 2 ^ (52 + s) ≤ a - b) (h2 : a - b < 2 ^ (52 + s + 1))
    (hs : s ≤ 2044) :
    ∃ m : Int, units (x - y) = some m ∧ (2 ^ s : Int) ∣ m ∧ 2 * m ≤ 2 * (a - b) + 2 ^ s
      ∧ 2 * (a - b) ≤ 2 * m + 2 ^ s := by
  have h := add_units_near x (neg y) a (-b) s hx (units_neg y b hy)
    (by rw [← sub_eq_add_neg]; exact h1) (by rw [← sub_eq_add_neg]; exact h2) hs
  rw [← sub_eq_add_neg] at h
  exact h

set_option exponentiation.threshold 9000 in
/-- The rounded sum of two doubles that are whole multiples of `2^-78` (`2^996` units)
with exact sum between `2^26` and `2^27`: a whole multiple of `2^-26` within `2^-27` of
the exact sum.  All numbers are in units of `2^-78`. -/
theorem add_near_52 (x y : F64) (a b : Int) (hx : units x = some (a * 2 ^ 996))
    (hy : units y = some (b * 2 ^ 996)) (h1 : 20282409603651670423947251286016 ≤ a + b)
    (h2 : a + b < 40564819207303340847894502572032) :
    ∃ μ : Int, units (x + y) = some (μ * 2 ^ 996) ∧ (4503599627370496 : Int) ∣ μ
      ∧ 2 * μ ≤ 2 * (a + b) + 4503599627370496
      ∧ 2 * (a + b) ≤ 2 * μ + 4503599627370496 := by
  have hg : (0 : Int) < 2 ^ 996 := by positivity
  have e1 : (2 : Int) ^ (52 + 1048) = 20282409603651670423947251286016 * 2 ^ 996 := by
    norm_num
  have e2 : (2 : Int) ^ (52 + 1048 + 1) = 40564819207303340847894502572032 * 2 ^ 996 := by
    norm_num
  have e3 : (2 : Int) ^ 1048 = 4503599627370496 * 2 ^ 996 := by norm_num
  have hsum : a * 2 ^ 996 + b * 2 ^ 996 = (a + b) * 2 ^ 996 := by ring
  obtain ⟨m, hm, hd, hle1, hle2⟩ := add_units_near x y _ _ 1048 hx hy
    (by rw [e1, hsum]; exact mul_le_mul_of_nonneg_right h1 (le_of_lt hg))
    (by rw [e2, hsum]; exact mul_lt_mul_of_pos_right h2 hg) (by norm_num)
  obtain ⟨t, ht⟩ := hd
  rw [e3] at ht hle1 hle2
  rw [hsum] at hle1 hle2
  refine ⟨4503599627370496 * t, ?_, Dvd.intro _ rfl, ?_, ?_⟩
  · have e : (4503599627370496 : Int) * 2 ^ 996 * t = 4503599627370496 * t * 2 ^ 996 := by
      ring
    rw [hm, ht, e]
  · have h : (2 * (4503599627370496 * t)) * 2 ^ 996
        ≤ (2 * (a + b) + 4503599627370496) * 2 ^ 996 := by
      rw [ht] at hle1
      linarith
    exact le_of_mul_le_mul_right h hg
  · have h : (2 * (a + b)) * 2 ^ 996
        ≤ (2 * (4503599627370496 * t) + 4503599627370496) * 2 ^ 996 := by
      rw [ht] at hle2
      linarith
    exact le_of_mul_le_mul_right h hg

/-- The sum of two doubles that are whole multiples of `2^-78` is exact when it is
`c * 2^j` units of `2^-78` with `|c| < 2^53`. -/
theorem add_exact_996 (x y : F64) (a b c : Int) (j : Nat) (hx : units x = some (a * 2 ^ 996))
    (hy : units y = some (b * 2 ^ 996)) (hrep : a + b = c * 2 ^ j)
    (hc1 : -9007199254740992 < c) (hc2 : c < 9007199254740992) (hj : j ≤ 1000) :
    units (x + y) = some ((a + b) * 2 ^ 996) := by
  have h := add_units_exact x y _ _ c (j + 996) hx hy
    (by rw [pow_add, ← mul_assoc, ← hrep]; ring) (by norm_num; exact hc1)
    (by norm_num; exact hc2) (by omega)
  rw [h, add_mul]

theorem sub_near_52 (x y : F64) (a b : Int) (hx : units x = some (a * 2 ^ 996))
    (hy : units y = some (b * 2 ^ 996)) (h1 : 20282409603651670423947251286016 ≤ a - b)
    (h2 : a - b < 40564819207303340847894502572032) :
    ∃ μ : Int, units (x - y) = some (μ * 2 ^ 996) ∧ (4503599627370496 : Int) ∣ μ
      ∧ 2 * μ ≤ 2 * (a - b) + 4503599627370496
      ∧ 2 * (a - b) ≤ 2 * μ + 4503599627370496 := by
  have hn : units (neg y) = some (-b * 2 ^ 996) := by
    rw [units_neg y _ hy, neg_mul]
  have h := add_near_52 x (neg y) a (-b) hx hn (by rw [← sub_eq_add_neg]; exact h1)
    (by rw [← sub_eq_add_neg]; exact h2)
  rw [← sub_eq_add_neg] at h
  exact h

theorem sub_exact_996 (x y : F64) (a b c : Int) (j : Nat) (hx : units x = some (a * 2 ^ 996))
    (hy : units y = some (b * 2 ^ 996)) (hrep : a - b = c * 2 ^ j)
    (hc1 : -9007199254740992 < c) (hc2 : c < 9007199254740992) (hj : j ≤ 1000) :
    units (x - y) = some ((a - b) * 2 ^ 996) := by
  have hn : units (neg y) = some (-b * 2 ^ 996) := by
    rw [units_neg y _ hy, neg_mul]
  have h := add_exact_996 x (neg y) a (-b) c j hx hn (by rw [← sub_eq_add_neg]; exact hrep)
    hc1 hc2 hj
  rw [← sub_eq_add_neg] at h
  exact h

set_option exponentiation.threshold 9000 in
/-- A finite double is `k * 2^e` units with `k < 2^53`, below `2^2098` units. -/
theorem ofBits_finite (b : Nat) (hfin : exponentField b < 2047) :
    ∃ (s : Bool) (k e : Nat), ofBits b = finite s (k * 2 ^ e) ∧ k < 2 ^ 53
      ∧ k * 2 ^ e < 2 ^ 2098 := by
  have hmant : mantissaField b < 2 ^ 52 := Nat.mod_lt _ (by positivity)
  unfold ofBits
  simp only []
  rw [if_neg (by omega)]
  by_cases h0 : exponentField b = 0
  · rw [if_pos h0]
    refine ⟨_, mantissaField b, 0, by rw [pow_zero, Nat.mul_one], by omega, ?_⟩
    rw [pow_zero, Nat.mul_one]
    exact lt_trans hmant (Nat.pow_lt_pow_right (by norm_num) (by norm_num))
  · rw [if_neg h0]
    refine ⟨_, 2 ^ 52 + mantissaField b, exponentField b - 1, rfl, by omega, ?_⟩
    calc (2 ^ 52 + mantissaField b) * 2 ^ (exponentField b - 1)
        < 2 ^ 53 * 2 ^ (exponentField b - 1) :=
          Nat.mul_lt_mul_of_pos_right (by omega) (by positivity)
      _ = 2 ^ (53 + (exponentField b - 1)) := by rw [← pow_add]
      _ ≤ 2 ^ 2098 := by
        have h : 53 + (exponentField b - 1) ≤ 2098 := by omega
        exact Nat.pow_le_pow_right (by norm_num) h

/-- The sum of two finite doubles whose exact sum `z` is not 0 and is `k * 2^e` units
in magnitude, `k < 2^53`, is that sum. -/
theorem add_finite_exact (s1 s2 : Bool) (m1 m2 k e : Nat)
    (hz : toInt s1 m1 + toInt s2 m2 ≠ 0)
    (hrep : (toInt s1 m1 + toInt s2 m2).natAbs = k * 2 ^ e) (hk : k < 2 ^ 53)
    (hm : k * 2 ^ e < 2 ^ 2098) :
    add (finite s1 m1) (finite s2 m2)
      = finite (decide (toInt s1 m1 + toInt s2 m2 < 0)) (k * 2 ^ e) := by
  unfold add
  simp only []
  rw [if_neg hz, hrep, round_exact _ _ _ hk hm]

theorem toInt_false (m : Nat) : toInt false m = (m : Int) := rfl

theorem toInt_true (m : Nat) : toInt true m = -(m : Int) := rfl

theorem toInt_natAbs (s : Bool) (m : Nat) : (toInt s m).natAbs = m := by
  cases s
  · rw [toInt_false]; omega
  · rw [toInt_true]; omega

theorem toInt_neg_iff (s : Bool) (m : Nat) (hm : m ≠ 0) : decide (toInt s m < 0) = s := by
  cases s
  · rw [toInt_false]; exact decide_eq_false (by omega)
  · rw [toInt_true]; exact decide_eq_true (by omega)

theorem zero_def : (0 : F64) = finite false 0 := rfl

/-- Adding `+0` to a finite double other than a zero, on either side, or subtracting
`+0` from it, returns the double. -/
theorem add_zero_finite (s : Bool) (k e : Nat) (hk : k < 2 ^ 53) (hm : k * 2 ^ e < 2 ^ 2098)
    (hne : k * 2 ^ e ≠ 0) :
    (0 : F64) + finite s (k * 2 ^ e) = finite s (k * 2 ^ e)
      ∧ finite s (k * 2 ^ e) + (0 : F64) = finite s (k * 2 ^ e)
      ∧ finite s (k * 2 ^ e) - (0 : F64) = finite s (k * 2 ^ e) := by
  have hz1 : toInt false 0 + toInt s (k * 2 ^ e) = toInt s (k * 2 ^ e) := by
    rw [toInt_false]; simp
  have hz2 : toInt s (k * 2 ^ e) + toInt false 0 = toInt s (k * 2 ^ e) := by
    rw [toInt_false]; simp
  have hz3 : toInt s (k * 2 ^ e) + toInt true 0 = toInt s (k * 2 ^ e) := by
    rw [toInt_true]; simp
  have hnz : toInt s (k * 2 ^ e) ≠ 0 := by
    intro h
    have := toInt_natAbs s (k * 2 ^ e)
    rw [h] at this
    exact hne this.symm
  refine ⟨?_, ?_, ?_⟩
  · show add (finite false 0) (finite s (k * 2 ^ e)) = _
    rw [add_finite_exact false s 0 _ k e (by rw [hz1]; exact hnz)
      (by rw [hz1, toInt_natAbs]) hk hm, hz1, toInt_neg_iff s _ hne]
  · show add (finite s (k * 2 ^ e)) (finite false 0) = _
    rw [add_finite_exact s false _ 0 k e (by rw [hz2]; exact hnz)
      (by rw [hz2, toInt_natAbs]) hk hm, hz2, toInt_neg_iff s _ hne]
  · show add (finite s (k * 2 ^ e)) (finite true 0) = _
    rw [add_finite_exact s true _ 0 k e (by rw [hz3]; exact hnz)
      (by rw [hz3, toInt_natAbs]) hk hm, hz3, toInt_neg_iff s _ hne]

/-- A finite double minus itself is `+0`. -/
theorem sub_self_finite (s : Bool) (m : Nat) : finite s m - finite s m = (0 : F64) := by
  show add (finite s m) (finite (!s) m) = finite false 0
  unfold add
  simp only []
  have hz : toInt s m + toInt (!s) m = 0 := by
    cases s
    · show toInt false m + toInt true m = 0
      rw [toInt_false, toInt_true]; omega
    · show toInt true m + toInt false m = 0
      rw [toInt_false, toInt_true]; omega
  rw [if_pos hz]
  cases s <;> rfl

end F64

/-! ### The claim about one-element arrays -/

/-- C7, as stated, fails: on the one-element array `[+inf]` `do_knuth_sum` computes a
NaN (`up = upt - v` is `inf - inf`), not the element, while `do_sum` and `do_kahan_sum`
compute `+inf`; on a NaN the three routines compute a NaN; and on `[-0.0]` they compute
`+0.0`. -/
theorem single_element_counterexample :
    Except.map Report.sum (do_knuth_sum [F64.ofBits 0x7FF0000000000000] 1 0)
        = Except.ok F64.nan
      ∧ Except.map Report.sum (do_sum [F64.ofBits 0x7FF0000000000000] 1 0)
        = Except.ok (F64.ofBits 0x7FF0000000000000)
      ∧ Except.map Report.sum (do_kahan_sum [F64.ofBits 0x7FF0000000000000] 1 0)
        = Except.ok (F64.ofBits 0x7FF0000000000000)
      ∧ Except.map Report.sum (do_knuth_sum [F64.ofBits 0x7FF8000000000000] 1 0)
        = Except.ok F64.nan
      ∧ Except.map Report.sum (do_sum [F64.ofBits 0x8000000000000000] 1 0)
        = Except.ok (F64.ofBits 0)
      ∧ Except.map Report.sum (do_kahan_sum [F64.ofBits 0x8000000000000000] 1 0)
        = Except.ok (F64.ofBits 0)
      ∧ Except.map Report.sum (do_knuth_sum [F64.ofBits 0x8000000000000000] 1 0)
        = Except.ok (F64.ofBits 0) := by
  decide!

/-- C7, amended: for every one-element array `[x]` whose element is a finite double
(any 64-bit pattern with an exponent field below 2047), in binary64 arithmetic,
`do_sum`, `do_kahan_sum` and `do_knuth_sum` each report the sum `x`, the same double;
only for `x = -0.0` they report `+0.0`, which compares equal to `x`. -/
theorem single_element_sum (b : Nat) (hfin : exponentField b < 2047) (accurate_sum : F64) :
    do_sum [F64.ofBits b] 1 accurate_sum
        = Except.ok (report accurate_sum
            (if F64.ofBits b = F64.finite true 0 then F64.finite false 0 else F64.ofBits b))
      ∧ do_kahan_sum [F64.ofBits b] 1 accurate_sum
        = Except.ok (report accurate_sum
            (if F64.ofBits b = F64.finite true 0 then F64.finite false 0 else F64.ofBits b))
      ∧ do_knuth_sum [F64.ofBits b] 1 accurate_sum
        = Except.ok (report accurate_sum
            (if F64.ofBits b = F64.finite true 0 then F64.finite false 0 else F64.ofBits b)) := by
  obtain ⟨s, k, e, hx, hk, hm⟩ := F64.ofBits_finite b hfin
  rw [hx]
  have h00 : (0 : F64) + 0 = 0 := by decide
  have h0m : (0 : F64) - 0 = 0 := by decide
  by_cases hne : k * 2 ^ e = 0
  · rw [hne]
    have hy : (if F64.finite s 0 = F64.finite true 0 then F64.finite false 0 else F64.finite s 0)
        = (0 : F64) := by
      cases s <;> rfl
    rw [hy]
    exact single_element_of_laws _ 0 accurate_sum (by cases s <;> rfl) (by cases s <;> rfl)
      h00 h00 h0m h0m h00 h0m
  · have hy : (if F64.finite s (k * 2 ^ e) = F64.finite true 0 then F64.finite false 0
          else F64.finite s (k * 2 ^ e)) = F64.finite s (k * 2 ^ e) := by
      rw [if_neg]
      intro h
      injection h with _ h2
      exact hne h2
    rw [hy]
    obtain ⟨a1, a2, a3⟩ := F64.add_zero_finite s k e hk hm hne
    exact single_element_of_laws _ _ accurate_sum a1 a2 a1 a2 a3 (F64.sub_self_finite _ _)
      h00 h0m

/-- Witness of the amended C7 at the double 1.5, with the double 1.0 as reference. -/
theorem single_element_sum_witness :
    exponentField 0x3FF8000000000000 < 2047
      ∧ do_knuth_sum [F64.ofBits 0x3FF8000000000000] 1 (F64.ofBits 0x3FF0000000000000)
        = Except.ok (report (F64.ofBits 0x3FF0000000000000)
            (if F64.ofBits 0x3FF8000000000000 = F64.finite true 0 then F64.finite false 0
              else F64.ofBits 0x3FF8000000000000)) :=
  ⟨by decide, (single_element_sum 0x3FF8000000000000 (by decide)
    (F64.ofBits 0x3FF0000000000000)).2.2⟩

/-! ### The ill-conditioned family -/

theorem units_small_term :
    F64.units (F64.ofBits 0x3E45798EE2308C3A) = some (3022314549036573 * 2 ^ 996) := by
  decide!

theorem units_big_term :
    F64.units (F64.ofBits 0x4197D78400000000)
      = some ((6710886400000000 + 0) * 4503599627370496 * 2 ^ 996) := by
  decide!

/-- A property that holds at the start and is kept by every step holds after a fold
over `n` copies of one element. -/
theorem foldl_replicate_inv {σ β : Type} (f : σ → β → σ) (t : β) (P : Nat → σ → Prop)
    (n : Nat) (x0 : σ) (h0 : P 0 x0)
    (hstep : ∀ k x, k < n → P k x → P (k + 1) (f x t)) :
    P n ((List.replicate n t).foldl f x0) := by
  have key : ∀ k, k ≤ n → P k ((List.replicate k t).foldl f x0) := by
    intro k
    induction k with
    | zero => intro _; exact h0
    | succ k ih =>
      intro hk
      rw [List.replicate_succ', List.foldl_append]
      exact hstep k _ (by omega) (ih (by omega))
  exact key n (le_refl n)

theorem illConditionedArray_take (n : Nat) :
    (illConditionedArray n).take (n + 1) = illConditionedArray n := by
  apply List.take_of_length_le
  simp [illConditionedArray]

theorem illConditionedArray_length (n : Nat) : (illConditionedArray n).length = n + 1 := by
  simp [illConditionedArray]

theorem exactSum_replicate (n : Nat) :
    F64.exactSum (List.replicate n (F64.ofBits 0x3E45798EE2308C3A))
      = some ((n : Int) * 3022314549036573 * 2 ^ 996) := by
  induction n with
  | zero =>
    show some (0 : Int) = _
    rw [Nat.cast_zero, zero_mul, zero_mul]
  | succ n ih =>
    rw [List.replicate_succ]
    unfold F64.exactSum
    rw [ih, units_small_term]
    simp only []
    generalize (2 : Int) ^ 996 = g
    congr 1
    push_cast
    ring

theorem exactSum_illConditioned (n : Nat) :
    F64.exactSum (illConditionedArray n)
      = some ((6710886400000000 * 4503599627370496 + (n : Int) * 3022314549036573) * 2 ^ 996) := by
  unfold illConditionedArray F64.exactSum
  rw [exactSum_replicate, units_big_term]
  simp only []
  generalize (2 : Int) ^ 996 = g
  congr 1
  ring

/-- The naive sum after `k` small terms is `10^8 + k * 2^-26`: every addition of
`10^-8` rounds up to one unit in the last place. -/
theorem naive_step (x : F64) (k : Int) (hk0 : 0 ≤ k) (hk : k ≤ 2251799813685248)
    (hx : F64.units x = some ((6710886400000000 + k) * 4503599627370496 * 2 ^ 996)) :
    F64.units (x + F64.ofBits 0x3E45798EE2308C3A)
      = some ((6710886400000000 + (k + 1)) * 4503599627370496 * 2 ^ 996) := by
  obtain ⟨μ, hμ, hd, h1, h2⟩ :=
    F64.add_near_52 x _ _ _ hx units_small_term (by omega) (by omega)
  have e : μ = (6710886400000000 + (k + 1)) * 4503599627370496 := by omega
  rw [hμ, e]

theorem serial_loop_illConditioned (n : Nat) (hn : n ≤ 2251799813685248) :
    ∃ x, serial_loop (illConditionedArray n) (n + 1) 0 = Except.ok x
      ∧ F64.units x
          = some ((6710886400000000 + (n : Int)) * 4503599627370496 * 2 ^ 996) := by
  unfold serial_loop
  rw [foldlM_readVar _ (fun s x => s + x) (n + 1) (le_of_eq (illConditionedArray_length n).symm),
    illConditionedArray_take]
  refine ⟨_, rfl, ?_⟩
  unfold illConditionedArray
  rw [List.foldl_cons]
  have h0 : (0 : F64) + F64.ofBits 0x4197D78400000000 = F64.ofBits 0x4197D78400000000 := by
    decide!
  rw [h0]
  refine foldl_replicate_inv (fun s x => s + x) _
    (fun k x => F64.units x
      = some ((6710886400000000 + (k : Int)) * 4503599627370496 * 2 ^ 996)) n _ ?_ ?_
  · exact units_big_term
  · intro k x hk hx
    have h := naive_step x k (by omega) (by omega) hx
    rw [h, Nat.cast_succ]

/-- One iteration of the loop of `do_kahan_sum` on the element `10^-8`, from a sum
`10^8 + a * 2^-26` and a correction of `γ` units `2^-78` with `0 <= γ <= 1.25 * 2^52`: the
corrected next term and the new correction are exact, the new sum is rounded, and
`local.sum + local.correction` grows by exactly `10^-8`. -/
theorem kahan_step_small (loc : esum_type F64) (a γ : Int)
    (hs : F64.units loc.sum = some ((6710886400000000 + a) * 4503599627370496 * 2 ^ 996))
    (hc : F64.units loc.correction = some (γ * 2 ^ 996))
    (ha0 : 0 ≤ a) (ha : a ≤ 2251799813685248) (hγ0 : 0 ≤ γ)
    (hγ : 4 * γ ≤ 5 * 4503599627370496) :
    ∃ a' γ' : Int,
      F64.units (kahan_step loc (F64.ofBits 0x3E45798EE2308C3A)).sum
          = some ((6710886400000000 + a') * 4503599627370496 * 2 ^ 996)
        ∧ F64.units (kahan_step loc (F64.ofBits 0x3E45798EE2308C3A)).correction
          = some (γ' * 2 ^ 996)
        ∧ 0 ≤ a' ∧ 0 ≤ γ' ∧ 4 * γ' ≤ 5 * 4503599627370496
        ∧ (6710886400000000 + a') * 4503599627370496 + γ'
            = (6710886400000000 + a) * 4503599627370496 + γ + 3022314549036573 := by
  have hcnt := F64.add_exact_996 (F64.ofBits 0x3E45798EE2308C3A) loc.correction _ _
    (3022314549036573 + γ) 0 units_small_term hc (by rw [pow_zero, mul_one]) (by omega)
    (by omega) (by omega)
  obtain ⟨μ, hμ, hd, h1, h2⟩ := F64.add_near_52 loc.sum loc.correction _ _ hs hc
    (by omega) (by omega)
  obtain ⟨r, hr⟩ := hd
  have hdiff := F64.sub_exact_996 (loc.sum + loc.correction) loc.sum _ _
    (r - (6710886400000000 + a)) 52 hμ hs (by omega) (by omega) (by omega) (by omega)
  have hnew := F64.sub_exact_996 (F64.ofBits 0x3E45798EE2308C3A + loc.correction)
    (loc.sum + loc.correction - loc.sum) _ _
    (3022314549036573 + γ - (μ - (6710886400000000 + a) * 4503599627370496)) 0 hcnt hdiff
    (by rw [pow_zero, mul_one]) (by omega) (by omega) (by omega)
  refine ⟨r - 6710886400000000,
    3022314549036573 + γ - (μ - (6710886400000000 + a) * 4503599627370496), ?_, hnew,
    by omega, by omega, by omega, by omega⟩
  show F64.units (loc.sum + loc.correction) = _
  have e : μ = (6710886400000000 + (r - 6710886400000000)) * 4503599627370496 := by omega
  rw [hμ, e]

/-- One iteration of the loop of `do_knuth_sum` on the element `10^-8`, from a sum
`10^8 + a * 2^-26` and a correction of `γ` units `2^-78` with `|γ| <= 2^51`: the new
correction is the exact rounding error, and `local.sum + local.correction` grows by
exactly `10^-8`. -/
theorem knuth_step_small (loc : esum_type F64) (a γ : Int)
    (hs : F64.units loc.sum = some ((6710886400000000 + a) * 4503599627370496 * 2 ^ 996))
    (hc : F64.units loc.correction = some (γ * 2 ^ 996))
    (ha0 : 0 ≤ a) (ha : a ≤ 2251799813685248) (hγ0 : -2251799813685248 ≤ γ)
    (hγ : γ ≤ 2251799813685248) :
    ∃ a' γ' : Int,
      F64.units (knuth_step loc (F64.ofBits 0x3E45798EE2308C3A)).sum
          = some ((6710886400000000 + a') * 4503599627370496 * 2 ^ 996)
        ∧ F64.units (knuth_step loc (F64.ofBits 0x3E45798EE2308C3A)).correction
          = some (γ' * 2 ^ 996)
        ∧ 0 ≤ a' ∧ -2251799813685248 ≤ γ' ∧ γ' ≤ 2251799813685248
        ∧ (6710886400000000 + a') * 4503599627370496 + γ'
            = (6710886400000000 + a) * 4503599627370496 + γ + 3022314549036573 := by
  -- v = var[i] + local.correction
  have hv := F64.add_exact_996 (F64.ofBits 0x3E45798EE2308C3A) loc.correction _ _
    (3022314549036573 + γ) 0 units_small_term hc (by rw [pow_zero, mul_one]) (by omega)
    (by omega) (by omega)
  -- upt = u + v
  obtain ⟨μ, hμ, hd, h1, h2⟩ := F64.add_near_52 loc.sum
    (F64.ofBits 0x3E45798EE2308C3A + loc.correction) _ _ hs hv (by omega) (by omega)
  obtain ⟨r, hr⟩ := hd
  -- up = upt - v
  obtain ⟨ν, hν, hd2, h3, h4⟩ := F64.sub_near_52
    (loc.sum + (F64.ofBits 0x3E45798EE2308C3A + loc.correction))
    (F64.ofBits 0x3E45798EE2308C3A + loc.correction) _ _ hμ hv (by omega) (by omega)
  obtain ⟨q, hq⟩ := hd2
  -- vpp = upt - up
  have hvpp := F64.sub_exact_996 _ _ _ _ (r - q) 52 hμ hν (by omega) (by omega) (by omega)
    (by omega)
  -- u - up
  have hq1 := F64.sub_exact_996 _ _ _ _ (6710886400000000 + a - q) 52 hs hν (by omega)
    (by omega) (by omega) (by omega)
  -- v - vpp
  have hq2 := F64.sub_exact_996 _ _ _ _ (3022314549036573 + γ - (μ - ν)) 0 hv hvpp
    (by rw [pow_zero, mul_one]) (by omega) (by omega) (by omega)
  -- (u - up) + (v - vpp)
  have hnew := F64.add_exact_996 _ _ _ _
    ((6710886400000000 + a) * 4503599627370496 - ν + (3022314549036573 + γ - (μ - ν))) 0
    hq1 hq2 (by rw [pow_zero, mul_one]) (by omega) (by omega) (by omega)
  refine ⟨r - 6710886400000000,
    (6710886400000000 + a) * 4503599627370496 - ν + (3022314549036573 + γ - (μ - ν)), ?_,
    hnew, by omega, by omega, by omega, by omega⟩
  show F64.units (loc.sum + (F64.ofBits 0x3E45798EE2308C3A + loc.correction)) = _
  have e : μ = (6710886400000000 + (r - 6710886400000000)) * 4503599627370496 := by omega
  rw [hμ, e]

theorem atLeastAsClose_ok (x1 x2 : F64) (var : List F64) (u1 u2 e : Int)
    (h1 : F64.units x1 = some (u1 * 2 ^ 996)) (h2 : F64.units x2 = some (u2 * 2 ^ 996))
    (he : F64.exactSum var = some (e * 2 ^ 996)) (h : (u1 - e).natAbs ≤ (u2 - e).natAbs) :
    F64.atLeastAsClose (Except.ok x1) (Except.ok x2) var = true := by
  unfold F64.atLeastAsClose F64.absError
  simp only [h1, h2, he]
  rw [← sub_mul, ← sub_mul, Int.natAbs_mul, Int.natAbs_mul]
  exact decide_eq_true (Nat.mul_le_mul_right _ h)

theorem kahan_loop_illConditioned (n : Nat) (hn1 : 1 ≤ n) (hn : n ≤ 2251799813685248) :
    ∃ (loc : esum_type F64) (a γ : Int),
      kahan_loop (illConditionedArray n) (n + 1) = Except.ok loc
        ∧ F64.units loc.sum = some ((6710886400000000 + a) * 4503599627370496 * 2 ^ 996)
        ∧ F64.units loc.correction = some (γ * 2 ^ 996)
        ∧ 0 ≤ a ∧ 0 ≤ γ ∧ 4 * γ ≤ 5 * 4503599627370496
        ∧ (6710886400000000 + a) * 4503599627370496 + γ
            = 6710886400000000 * 4503599627370496 + 4503599627370496
              + ((n : Int) - 1) * 3022314549036573 := by
  unfold kahan_loop
  rw [foldlM_readVar _ kahan_step (n + 1) (le_of_eq (illConditionedArray_length n).symm),
    illConditionedArray_take]
  unfold illConditionedArray
  rw [List.foldl_cons]
  have key := foldl_replicate_inv kahan_step (F64.ofBits 0x3E45798EE2308C3A)
    (fun k loc =>
      (k = 0 ∧ loc = kahan_step ({ sum := 0, correction := 0 } : esum_type F64) (F64.ofBits 0x4197D78400000000))
      ∨ (1 ≤ k ∧ ∃ a γ : Int,
          F64.units loc.sum = some ((6710886400000000 + a) * 4503599627370496 * 2 ^ 996)
            ∧ F64.units loc.correction = some (γ * 2 ^ 996)
            ∧ 0 ≤ a ∧ 0 ≤ γ ∧ 4 * γ ≤ 5 * 4503599627370496
            ∧ (6710886400000000 + a) * 4503599627370496 + γ
                = 6710886400000000 * 4503599627370496 + 4503599627370496
                  + ((k : Int) - 1) * 3022314549036573)) n
    (kahan_step ({ sum := 0, correction := 0 } : esum_type F64) (F64.ofBits 0x4197D78400000000))
    (Or.inl ⟨rfl, rfl⟩) (by
      intro k loc hk hP
      right
      refine ⟨by omega, ?_⟩
      rcases hP with ⟨hk0, hloc⟩ | ⟨hk1, a, γ, hs, hc, ha0, hγ0, hγ, heq⟩
      · subst hk0 hloc
        have h1 : kahan_step (kahan_step ({ sum := 0, correction := 0 } : esum_type F64)
              (F64.ofBits 0x4197D78400000000)) (F64.ofBits 0x3E45798EE2308C3A)
            = { sum := F64.ofBits 0x4197D78400000000,
                correction := F64.ofBits 0x3E50000000000000 } := by decide!
        have h2 : F64.units (F64.ofBits 0x3E50000000000000)
            = some (4503599627370496 * 2 ^ 996) := by decide!
        rw [h1]
        exact ⟨0, 4503599627370496, units_big_term, h2, by omega, by omega, by omega,
          by omega⟩
      · obtain ⟨a', γ', hs', hc', ha', hγ0', hγ', heq'⟩ :=
          kahan_step_small loc a γ hs hc ha0 (by omega) hγ0 hγ
        exact ⟨a', γ', hs', hc', ha', hγ0', hγ', by omega⟩)
  rcases key with ⟨h0, -⟩ | ⟨-, a, γ, hs, hc, ha0, hγ0, hγ, heq⟩
  · omega
  · exact ⟨_, a, γ, rfl, hs, hc, ha0, hγ0, hγ, heq⟩

theorem knuth_loop_illConditioned (n : Nat) (hn : n ≤ 2251799813685248) :
    ∃ (loc : esum_type F64) (a γ : Int),
      knuth_loop (illConditionedArray n) (n + 1) = Except.ok loc
        ∧ F64.units loc.sum = some ((6710886400000000 + a) * 4503599627370496 * 2 ^ 996)
        ∧ F64.units loc.correction = some (γ * 2 ^ 996)
        ∧ 0 ≤ a ∧ -2251799813685248 ≤ γ ∧ γ ≤ 2251799813685248
        ∧ (6710886400000000 + a) * 4503599627370496 + γ
            = 6710886400000000 * 4503599627370496 + (n : Int) * 3022314549036573 := by
  unfold knuth_loop
  rw [foldlM_readVar _ knuth_step (n + 1) (le_of_eq (illConditionedArray_length n).symm),
    illConditionedArray_take]
  unfold illConditionedArray
  rw [List.foldl_cons]
  have h1 : knuth_step ({ sum := 0, correction := 0 } : esum_type F64) (F64.ofBits 0x4197D78400000000)
      = { sum := F64.ofBits 0x4197D78400000000, correction := F64.ofBits 0 } := by decide!
  have h2 : F64.units (F64.ofBits 0) = some (0 * 2 ^ 996) := by decide!
  have key := foldl_replicate_inv knuth_step (F64.ofBits 0x3E45798EE2308C3A)
    (fun k loc => ∃ a γ : Int,
      F64.units loc.sum = some ((6710886400000000 + a) * 4503599627370496 * 2 ^ 996)
        ∧ F64.units loc.correction = some (γ * 2 ^ 996)
        ∧ 0 ≤ a ∧ -2251799813685248 ≤ γ ∧ γ ≤ 2251799813685248
        ∧ (6710886400000000 + a) * 4503599627370496 + γ
            = 6710886400000000 * 4503599627370496 + (k : Int) * 3022314549036573) n
    (knuth_step ({ sum := 0, correction := 0 } : esum_type F64) (F64.ofBits 0x4197D78400000000))
    (by
      rw [h1]
      exact ⟨0, 0, units_big_term, h2, by omega, by omega, by omega, by omega⟩)
    (by
      intro k loc hk hP
      obtain ⟨a, γ, hs, hc, ha0, hγ0, hγ, heq⟩ := hP
      obtain ⟨a', γ', hs', hc', ha', hγ0', hγ', heq'⟩ :=
        knuth_step_small loc a γ hs hc ha0 (by omega) hγ0 hγ
      exact ⟨a', γ', hs', hc', ha', hγ0', hγ', by omega⟩)
  obtain ⟨a, γ, hs, hc, ha0, hγ0, hγ, heq⟩ := key
  exact ⟨_, a, γ, rfl, hs, hc, ha0, hγ0, hγ, heq⟩

/-- The comparison of the amended C10 for the arrays with at most two small terms, by
evaluation of the three routines. -/
theorem ill_conditioned_closer_small : ∀ n, n ≤ 2 →
    (F64.atLeastAsClose
        (Except.map Report.sum (do_kahan_sum (illConditionedArray n) (n + 1) 0))
        (Except.map Report.sum (do_sum (illConditionedArray n) (n + 1) 0))
        (illConditionedArray n)
      && F64.atLeastAsClose
        (Except.map Report.sum (do_knuth_sum (illConditionedArray n) (n + 1) 0))
        (Except.map Report.sum (do_sum (illConditionedArray n) (n + 1) 0))
        (illConditionedArray n)) = true := by
  decide!

/-- C10, amended: on the ill-conditioned array of the specification, the double
`10^8` followed by `n` copies of the double nearest to `10^-8`, for every `n` up to
`2^51` (about `2.25 * 10^15` terms, for which the running sums stay below `2^27`), the
sums reported by `do_kahan_sum` and by `do_knuth_sum` are at least as close to the
exact sum of the array as the sum reported by `do_sum`, in binary64 arithmetic. -/
theorem compensated_closer_on_ill_conditioned (n : Nat) (hn : n ≤ 2251799813685248) (accurate_sum : F64) :
    F64.atLeastAsClose
        (Except.map Report.sum (do_kahan_sum (illConditionedArray n) (n + 1) accurate_sum))
        (Except.map Report.sum (do_sum (illConditionedArray n) (n + 1) accurate_sum))
        (illConditionedArray n) = true
      ∧ F64.atLeastAsClose
        (Except.map Report.sum (do_knuth_sum (illConditionedArray n) (n + 1) accurate_sum))
        (Except.map Report.sum (do_sum (illConditionedArray n) (n + 1) accurate_sum))
        (illConditionedArray n) = true := by
  by_cases h2 : n ≤ 2
  · have h := ill_conditioned_closer_small n h2
    rw [Bool.and_eq_true] at h
    rw [do_kahan_sum_sum_indep _ _ accurate_sum 0, do_knuth_sum_sum_indep _ _ accurate_sum 0,
      do_sum_sum_indep _ _ accurate_sum 0]
    exact h
  · obtain ⟨x, hx, hxu⟩ := serial_loop_illConditioned n hn
    obtain ⟨lk, ak, γk, hlk, hks, hkc, hka0, hkγ0, hkγ, hkeq⟩ :=
      kahan_loop_illConditioned n (by omega) hn
    obtain ⟨ln, an, γn, hln, hns, hnc, hna0, hnγ0, hnγ, hneq⟩ :=
      knuth_loop_illConditioned n hn
    have hsum : Except.map Report.sum (do_sum (illConditionedArray n) (n + 1) accurate_sum)
        = Except.ok x := by
      unfold do_sum
      rw [hx]
      rfl
    have hkah : Except.map Report.sum
        (do_kahan_sum (illConditionedArray n) (n + 1) accurate_sum)
        = Except.ok (lk.sum + lk.correction) := by
      unfold do_kahan_sum
      rw [hlk]
      rfl
    have hknu : Except.map Report.sum
        (do_knuth_sum (illConditionedArray n) (n + 1) accurate_sum)
        = Except.ok (ln.sum + ln.correction) := by
      unfold do_knuth_sum
      rw [hln]
      rfl
    rw [hsum, hkah, hknu]
    obtain ⟨μ, hμ, hd, h1, h2'⟩ := F64.add_near_52 lk.sum lk.correction _ _ hks hkc
      (by omega) (by omega)
    obtain ⟨ν, hν, hd2, h3, h4⟩ := F64.add_near_52 ln.sum ln.correction _ _ hns hnc
      (by omega) (by omega)
    exact ⟨atLeastAsClose_ok _ _ _ _ _ _ hμ hxu (exactSum_illConditioned n) (by omega),
      atLeastAsClose_ok _ _ _ _ _ _ hν hxu (exactSum_illConditioned n) (by omega)⟩

/-- Witness of the amended C10 at three small terms. -/
theorem compensated_closer_on_ill_conditioned_witness :
    (3 ≤ 2251799813685248) ∧ F64.atLeastAsClose
        (Except.map Report.sum (do_kahan_sum (illConditionedArray 3) (3 + 1) 0))
        (Except.map Report.sum (do_sum (illConditionedArray 3) (3 + 1) 0))
        (illConditionedArray 3) = true :=
  ⟨by decide, (compensated_closer_on_ill_conditioned 3 (by decide) 0).1⟩

/-! ### The claims about the compensated steps and the pairwise bounds -/

section StepProperties

variable {α : Type}

theorem kahan_step_exact [AddCommGroup α] (loc : esum_type α) (x : α) :
    kahan_step loc x = { sum := loc.sum + loc.correction, correction := x } := by
  unfold kahan_step
  simp

theorem knuth_step_exact [AddCommGroup α] (loc : esum_type α) (x : α) :
    knuth_step loc x = { sum := loc.sum + (x + loc.correction), correction := 0 } := by
  unfold knuth_step
  simp

/-- Over exact arithmetic the loop of `do_kahan_sum` run for `i + 1` iterations
leaves the sum of the first `i` elements in `local.sum` and the element `i` in
`local.correction`. -/
theorem kahan_loop_exact [AddCommGroup α] (var : List α) (i : Nat) (hi : i < var.length) :
    kahan_loop var (i + 1)
      = Except.ok { sum := (var.take i).sum, correction := var[i] } := by
  unfold kahan_loop
  rw [foldlM_readVar var kahan_step (i + 1) hi]
  congr 1
  have key : ∀ (l : List α) (loc : esum_type α) (x : α),
      (l ++ [x]).foldl kahan_step loc
        = { sum := loc.sum + loc.correction + l.sum, correction := x } := by
    intro l
    induction l with
    | nil => intro loc x; simp [kahan_step_exact]
    | cons y l ih =>
      intro loc x
      rw [List.cons_append, List.foldl_cons, ih, kahan_step_exact]
      simp [add_assoc]
  rw [List.take_succ, List.getElem?_eq_getElem hi]
  show List.foldl kahan_step _ (List.take i var ++ [var[i]]) = _
  rw [key]
  simp

/-- Over exact arithmetic the loop of `do_knuth_sum` run for `i` iterations
leaves the sum of the first `i` elements in `local.sum` and 0 in
`local.correction`. -/
theorem knuth_loop_exact [AddCommGroup α] (var : List α) (i : Nat) (hi : i ≤ var.length) :
    knuth_loop var i = Except.ok { sum := (var.take i).sum, correction := 0 } := by
  unfold knuth_loop
  rw [foldlM_readVar var knuth_step i hi]
  congr 1
  have key : ∀ (l : List α) (s : α),
      l.foldl knuth_step { sum := s, correction := 0 }
        = { sum := s + l.sum, correction := 0 } := by
    intro l
    induction l with
    | nil => intro s; simp
    | cons x l ih =>
      intro s
      rw [List.foldl_cons, knuth_step_exact, ih]
      simp [add_assoc]
  rw [key, zero_add]

theorem do_kahan_sum_eq [AddCommGroup α] [Div α] (var : List α) (ncells : Nat)
    (accurate_sum : α) (hlen : var.length = ncells) :
    do_kahan_sum var ncells accurate_sum = Except.ok (report accurate_sum var.sum) := by
  subst hlen
  unfold do_kahan_sum
  cases hv : var.length with
  | zero =>
    have : var = [] := List.length_eq_zero.mp hv
    subst this
    show Except.ok (report accurate_sum ((0 : α) + 0)) = _
    simp
  | succ i =>
    have hi : i < var.length := by omega
    rw [kahan_loop_exact var i hi, ok_bind]
    have h : (var.take i).sum + var[i] = var.sum := by
      have h1 : var.take (i + 1) = var := by rw [← hv, List.take_length]
      conv_rhs => rw [← h1, List.take_succ, List.getElem?_eq_getElem hi, List.sum_append]
      simp
    show Except.ok (report accurate_sum ((var.take i).sum + var[i])) = _
    rw [h]

theorem do_knuth_sum_eq [AddCommGroup α] [Div α] (var : List α) (ncells : Nat)
    (accurate_sum : α) (hlen : var.length = ncells) :
    do_knuth_sum var ncells accurate_sum = Except.ok (report accurate_sum var.sum) := by
  unfold do_knuth_sum
  rw [knuth_loop_exact var ncells (le_of_eq hlen.symm), ok_bind, ← hlen, List.take_length]
  show Except.ok (report accurate_sum (var.sum + 0)) = _
  rw [add_zero]

/-- C16, as stated, fails: on the one-element array `[5]` the loop of `do_kahan_sum`
ends its only iteration with `local.sum = 0` and `local.correction = 5`, not with
correction 0 and sum 5; and from `local.sum = 1`, `local.correction = 2` the step on
the element 4 gives the new sum `1 + 2 = 3`, not `1 + (4 + 2) = 7`, and the new
correction 4. -/
theorem kahan_classic_step_counterexample :
    kahan_loop ([5] : List ℤ) 1 = Except.ok { sum := 0, correction := 5 }
      ∧ kahan_step ({ sum := 1, correction := 2 } : esum_type ℤ) 4
          = { sum := 3, correction := 4 }
      ∧ (kahan_step ({ sum := 1, correction := 2 } : esum_type ℤ) 4).sum ≠ 1 + (4 + 2) := by
  decide

/-- The step of `do_kahan_sum` from the sum `2^53` and the correction 1 on the element
1.5: the sum stays `2^53` and the new correction is `2.5`, the element plus the 1 that
the addition lost. -/
theorem kahan_step_two_pow_53 :
    kahan_step { sum := F64.ofBits 0x4340000000000000,
                 correction := F64.ofBits 0x3FF0000000000000 }
        (F64.ofBits 0x3FF8000000000000)
      = { sum := F64.ofBits 0x4340000000000000, correction := F64.ofBits 0x4004000000000000 } := by
  decide!

/-- The loop of `do_kahan_sum` on `10^8, 10^-8` ends with the sum `10^8` and the
correction `2^-26`. -/
theorem kahan_loop_ill_conditioned_one :
    kahan_loop (illConditionedArray 1) 2
      = Except.ok { sum := F64.ofBits 0x4197D78400000000,
                    correction := F64.ofBits 0x3E50000000000000 } := by
  decide!

/-- C16, amended: `do_kahan_sum` performs a delayed form of the Kahan step.  In every
iteration and in any arithmetic (no law of `+` or `-` is used) the running sum absorbs
the previous correction, `new_sum = local.sum + local.correction`, and the new
correction is the corrected next term `var[i] + local.correction` minus what that
addition put into the sum, `new_sum - local.sum`.  In binary64 the correction so
carries what the addition lost: from `local.sum = 2^53`, `local.correction = 1` the
element 1.5 gives the sum `2^53` and the correction `2.5`, and on `10^8, 10^-8` the
loop ends with the sum `10^8` and the correction `2^-26`.  When every addition is
exact the new correction is `var[i]`, and after iteration `i` the correction is
`var[i]` and `local.sum` is `var[0] + ... + var[i-1]`. -/
theorem kahan_delayed_step :
    (∀ (β : Type) [Zero β] [Add β] [Sub β] (loc : esum_type β) (x : β),
        kahan_step loc x
          = { sum := loc.sum + loc.correction
              correction := (x + loc.correction) - ((loc.sum + loc.correction) - loc.sum) })
      ∧ kahan_step { sum := F64.ofBits 0x4340000000000000,
                     correction := F64.ofBits 0x3FF0000000000000 }
            (F64.ofBits 0x3FF8000000000000)
          = { sum := F64.ofBits 0x4340000000000000, correction := F64.ofBits 0x4004000000000000 }
      ∧ kahan_loop (illConditionedArray 1) 2
          = Except.ok { sum := F64.ofBits 0x4197D78400000000,
                        correction := F64.ofBits 0x3E50000000000000 }
      ∧ (∀ (β : Type) [AddCommGroup β] (var : List β) (i : Nat) (hi : i < var.length)
          (loc : esum_type β),
          (kahan_step loc var[i]).sum = loc.sum + loc.correction
            ∧ (kahan_step loc var[i]).correction = var[i]
            ∧ kahan_loop var (i + 1)
                = Except.ok { sum := (var.take i).sum, correction := var[i] }) := by
  refine ⟨fun _ _ _ _ _ _ => rfl, kahan_step_two_pow_53, kahan_loop_ill_conditioned_one, ?_⟩
  intro β _ var i hi loc
  refine ⟨rfl, ?_, kahan_loop_exact var i hi⟩
  rw [kahan_step_exact]

/-- Witness of the amended C16: the second iteration on `[1, 2, 3]`. -/
theorem kahan_delayed_step_witness :
    kahan_loop ([1, 2, 3] : List ℚ) (1 + 1) = Except.ok { sum := 1, correction := 2 } := by
  have h := (kahan_delayed_step.2.2.2 ℚ [1, 2, 3] 1 (by decide) { sum := 0, correction := 0 }).2.2
  rw [h]
  norm_num

/-- The step of `do_knuth_sum` from the sum `2^53` and the correction 0 on the element
1: the sum stays `2^53` and the correction is the 1 that the addition lost. -/
theorem knuth_step_two_pow_53 :
    knuth_step { sum := F64.ofBits 0x4340000000000000, correction := F64.ofBits 0 }
        (F64.ofBits 0x3FF0000000000000)
      = { sum := F64.ofBits 0x4340000000000000, correction := F64.ofBits 0x3FF0000000000000 } := by
  decide!

/-- The step of `do_knuth_sum` is error free on every pair of sample doubles, from
each of the sample corrections, by evaluation. -/
theorem twoSum_samples_exact :
    (twoSumSamples.all fun u => twoSumSamples.all fun v => twoSumCorrections.all fun c =>
      twoSumExact { sum := u, correction := c } v) = true := by
  decide!

/-- C17: the loop body of `do_knuth_sum` is the branch-free two-sum of
`u = local.sum` and `v = var[i] + local.correction`: in any arithmetic (no law of `+`
or `-` is used) it sets `local.sum = u + v` and `local.correction = (u - up) + (v - vpp)`
with `up = (u + v) - v` and `vpp = (u + v) - up`.  In binary64 that correction is the
rounding error of `u + v`: for every pair of the sample doubles and every sample
correction, `local.sum + local.correction` taken exactly is `u + v` taken exactly
(`2^53` and `1` give the sum `2^53` and the correction `1`), and on `10^8` followed
by `n` terms `10^-8`, for every `n` up to `2^51`, the loop ends with
`local.sum + local.correction` equal to the exact sum of the array.  Over exact arithmetic
`local.sum + local.correction = u + v` after the step, the correction is 0, after `i`
iterations `local.sum` is the sum of the first `i` elements, and the routine reports
the sum of all `N` elements, for every `N >= 0`. -/
theorem knuth_two_sum_step :
    (∀ (β : Type) [Zero β] [Add β] [Sub β] (loc : esum_type β) (x : β),
        knuth_step loc x
          = { sum := loc.sum + (x + loc.correction)
              correction :=
                (loc.sum - ((loc.sum + (x + loc.correction)) - (x + loc.correction)))
                  + ((x + loc.correction) - ((loc.sum + (x + loc.correction))
                      - ((loc.sum + (x + loc.correction)) - (x + loc.correction)))) })
      ∧ knuth_step { sum := F64.ofBits 0x4340000000000000, correction := F64.ofBits 0 }
            (F64.ofBits 0x3FF0000000000000)
          = { sum := F64.ofBits 0x4340000000000000, correction := F64.ofBits 0x3FF0000000000000 }
      ∧ (∀ u ∈ twoSumSamples, ∀ v ∈ twoSumSamples, ∀ c ∈ twoSumCorrections,
          twoSumExact { sum := u, correction := c } v = true)
      ∧ (∀ n : Nat, n ≤ 2251799813685248 →
          ∃ (loc : esum_type F64) (s c e : Int),
            knuth_loop (illConditionedArray n) (n + 1) = Except.ok loc
              ∧ F64.units loc.sum = some s ∧ F64.units loc.correction = some c
              ∧ F64.exactSum (illConditionedArray n) = some e ∧ s + c = e)
      ∧ (∀ (β : Type) [AddCommGroup β] [Div β] (var : List β) (ncells : Nat)
          (accurate_sum : β), var.length = ncells →
          (∀ (loc : esum_type β) (x : β),
              (knuth_step loc x).sum + (knuth_step loc x).correction
                  = loc.sum + (x + loc.correction)
                ∧ (knuth_step loc x).correction = 0)
            ∧ (∀ i, i ≤ ncells →
                knuth_loop var i = Except.ok { sum := (var.take i).sum, correction := 0 })
            ∧ do_knuth_sum var ncells accurate_sum
                = Except.ok (report accurate_sum var.sum)) := by
  refine ⟨fun _ _ _ _ _ _ => rfl, knuth_step_two_pow_53, ?_, ?_, ?_⟩
  · intro u hu v hv c hc
    have h := twoSum_samples_exact
    rw [List.all_eq_true] at h
    have h1 := h u hu
    rw [List.all_eq_true] at h1
    have h2 := h1 v hv
    rw [List.all_eq_true] at h2
    exact h2 c hc
  · intro n hn
    obtain ⟨loc, a, γ, hloop, hs, hc, -, -, -, heq⟩ := knuth_loop_illConditioned n hn
    refine ⟨loc, _, _, _, hloop, hs, hc, exactSum_illConditioned n, ?_⟩
    rw [← add_mul, heq]
  intro β _ _ var ncells accurate_sum hlen
  refine ⟨?_, ?_, do_knuth_sum_eq var ncells accurate_sum hlen⟩
  · intro loc x
    refine ⟨?_, ?_⟩
    · rw [knuth_step_exact]; simp
    · rw [knuth_step_exact]
  · intro i hi
    exact knuth_loop_exact var i (by omega)

/-- Witness of C17 on three elements. -/
theorem knuth_two_sum_step_witness :
    do_knuth_sum ([1, 2, 3] : List ℚ) 3 6 = Except.ok (report 6 6) := by
  have h := (knuth_two_sum_step.2.2.2.2 ℚ [1, 2, 3] 3 6 rfl).2.2
  rw [h]
  norm_num

/-- C20: for every array of length `N >= 2`, power of two or not, every read of
`var` and every read or write of the scratch buffer of `N/2` cells in `do_pair_sum`
is in bounds (the checked run ends without a failing access), and with exact
additions the reported sum is the sum of the first `2^floor(log2 N)` elements; the
`N - 2^floor(log2 N)` later elements are ignored. -/
theorem do_pair_sum_first_block [AddCommGroup α] [Div α] (var : List α) (ncells : Nat)
    (accurate_sum : α) (hlen : var.length = ncells) (hN : 2 ≤ ncells) :
    do_pair_sum var ncells accurate_sum
        = Except.ok (report accurate_sum (var.take (2 ^ Nat.log 2 ncells)).sum)
      ∧ 2 ^ Nat.log 2 ncells ≤ ncells
      ∧ ncells < 2 ^ (Nat.log 2 ncells + 1) := by
  have h1 : 2 ^ Nat.log 2 ncells ≤ ncells := Nat.pow_log_le_self 2 (by omega)
  have h2 : ncells < 2 ^ (Nat.log 2 ncells + 1) := Nat.lt_pow_succ_log_self (by norm_num) ncells
  have h3 : 1 ≤ Nat.log 2 ncells := Nat.log_pos (by norm_num) hN
  exact ⟨do_pair_sum_eq var ncells _ accurate_sum (le_of_eq hlen.symm) h3 h1 h2, h1, h2⟩

/-- Witness of C20: six and seven elements both give `var[0]+var[1]+var[2]+var[3]`. -/
theorem do_pair_sum_first_block_witness :
    do_pair_sum ([1, 2, 3, 4, 5, 6] : List ℚ) 6 21 = Except.ok (report 21 10)
      ∧ do_pair_sum ([1, 2, 3, 4, 5, 6, 7] : List ℚ) 7 28 = Except.ok (report 28 10) := by
  have e6 : Nat.log 2 6 = 2 := by
    rw [Nat.log_eq_iff (by norm_num)]; norm_num
  have e7 : Nat.log 2 7 = 2 := by
    rw [Nat.log_eq_iff (by norm_num)]; norm_num
  have h6 := (do_pair_sum_first_block ([1, 2, 3, 4, 5, 6] : List ℚ) 6 21 rfl (by norm_num)).1
  have h7 := (do_pair_sum_first_block ([1, 2, 3, 4, 5, 6, 7] : List ℚ) 7 28 rfl (by norm_num)).1
  rw [e6] at h6
  rw [e7] at h7
  refine ⟨?_, ?_⟩
  · rw [h6]; norm_num
  · rw [h7]; norm_num

end StepProperties

/-! ## `digitround` over exact arithmetic -/

theorem c_round_intCast (k : Int) : c_round (k : ℚ) = k := by
  unfold c_round
  split
  · have : ⌊(k : ℚ) + 1 / 2⌋ = k := by
      rw [Int.floor_eq_iff]; constructor <;> linarith
    rw [this]
  · have : ⌊-(k : ℚ) + 1 / 2⌋ = -k := by
      rw [Int.floor_eq_iff]; push_cast; constructor <;> linarith
    rw [this]; push_cast; ring

theorem c_round_zero : c_round 0 = 0 := by
  have := c_round_intCast 0
  simpa using this

theorem abs_c_round_sub_le (x : ℚ) : |c_round x - x| ≤ 1 / 2 := by
  unfold c_round
  split
  · have h1 := Int.floor_le (x + 1 / 2)
    have h2 := Int.lt_floor_add_one (x + 1 / 2)
    rw [abs_le]; constructor <;> linarith
  · have h1 := Int.floor_le (-x + 1 / 2)
    have h2 := Int.lt_floor_add_one (-x + 1 / 2)
    rw [abs_le]; constructor <;> linarith

theorem c_round_mono {x y : ℚ} (h : x ≤ y) : c_round x ≤ c_round y := by
  unfold c_round
  by_cases hx : 0 ≤ x
  · have hy : 0 ≤ y := le_trans hx h
    rw [if_pos hx, if_pos hy]
    exact_mod_cast Int.floor_mono (by linarith)
  · rw [if_neg hx]
    by_cases hy : 0 ≤ y
    · rw [if_pos hy]
      have h1 : (0 : Int) ≤ ⌊-x + 1 / 2⌋ := Int.floor_nonneg.mpr (by linarith)
      have h2 : (0 : Int) ≤ ⌊y + 1 / 2⌋ := Int.floor_nonneg.mpr (by linarith)
      have h1q : (0 : ℚ) ≤ ((⌊-x + 1 / 2⌋ : Int) : ℚ) := by exact_mod_cast h1
      have h2q : (0 : ℚ) ≤ ((⌊y + 1 / 2⌋ : Int) : ℚ) := by exact_mod_cast h2
      linarith
    · rw [if_neg hy]
      have : ⌊-y + 1 / 2⌋ ≤ ⌊-x + 1 / 2⌋ := Int.floor_mono (by linarith)
      have hq : ((⌊-y + 1 / 2⌋ : Int) : ℚ) ≤ ((⌊-x + 1 / 2⌋ : Int) : ℚ) := by exact_mod_cast this
      linarith

theorem c_round_isInt (x : ℚ) : ∃ k : Int, c_round x = k := by
  unfold c_round
  split
  · exact ⟨_, rfl⟩
  · exact ⟨-⌊-x + 1 / 2⌋, by push_cast; ring⟩

theorem ten_zpow_pos (e : Int) : (0 : ℚ) < (10 : ℚ) ^ e := zpow_pos (by norm_num) e

theorem ten_zpow_isInt (j : Int) (hj : 0 ≤ j) : ∃ k : Int, (10 : ℚ) ^ j = k := by
  refine ⟨10 ^ j.toNat, ?_⟩
  have h : j = (j.toNat : Int) := (Int.toNat_of_nonneg hj).symm
  conv_lhs => rw [h]
  rw [zpow_natCast]
  push_cast
  rfl

theorem isMultiple_round (e : Int) (z : ℚ) : IsMultipleOfPow10 e (c_round z * (10 : ℚ) ^ e) := by
  obtain ⟨k, hk⟩ := c_round_isInt z
  exact ⟨k, by rw [hk]⟩

theorem round_of_isMultiple (e : Int) (y : ℚ) (h : IsMultipleOfPow10 e y) :
    c_round (y / (10 : ℚ) ^ e) * (10 : ℚ) ^ e = y := by
  obtain ⟨k, hk⟩ := h
  have hne : (10 : ℚ) ^ e ≠ 0 := ne_of_gt (ten_zpow_pos e)
  rw [hk, mul_div_assoc, div_self hne, mul_one, c_round_intCast]

theorem isMultiple_of_le {e e1 : Int} (h : e1 ≤ e) (y : ℚ) (hy : IsMultipleOfPow10 e y) :
    IsMultipleOfPow10 e1 y := by
  obtain ⟨k, hk⟩ := hy
  obtain ⟨j, hj⟩ := ten_zpow_isInt (e - e1) (by omega)
  refine ⟨k * j, ?_⟩
  have hsplit : (10 : ℚ) ^ e = (10 : ℚ) ^ (e - e1) * (10 : ℚ) ^ e1 := by
    rw [← zpow_add₀ (by norm_num : (10 : ℚ) ≠ 0)]
    congr 1
    omega
  rw [hk, hsplit, hj]
  push_cast
  ring

theorem isMultiple_zpow {e1 m : Int} (h : e1 ≤ m) : IsMultipleOfPow10 e1 ((10 : ℚ) ^ m) :=
  isMultiple_of_le h _ ⟨1, by simp⟩

theorem exact_ilog10_of_one_le (x : ℚ) (hx : 1 ≤ x) :
    0 ≤ exact_ilog10 x ∧ (10 : ℚ) ^ exact_ilog10 x ≤ x ∧ x < (10 : ℚ) ^ (exact_ilog10 x + 1) := by
  have hx0 : (0 : ℚ) ≤ x := by linarith
  have hfl : ⌊x⌋₊ ≠ 0 := by
    have : 1 ≤ ⌊x⌋₊ := Nat.le_floor (by simpa using hx)
    omega
  have h1 : 10 ^ Nat.log 10 ⌊x⌋₊ ≤ ⌊x⌋₊ := Nat.pow_log_le_self 10 hfl
  have h2 : ⌊x⌋₊ < 10 ^ (Nat.log 10 ⌊x⌋₊ + 1) := Nat.lt_pow_succ_log_self (by norm_num) _
  have h3 : (⌊x⌋₊ : ℚ) ≤ x := Nat.floor_le hx0
  have h4 : x < (⌊x⌋₊ : ℚ) + 1 := Nat.lt_floor_add_one x
  unfold exact_ilog10
  rw [if_pos hx]
  refine ⟨by positivity, ?_, ?_⟩
  · rw [zpow_natCast]
    calc (10 : ℚ) ^ Nat.log 10 ⌊x⌋₊ = ((10 ^ Nat.log 10 ⌊x⌋₊ : Nat) : ℚ) := by push_cast; rfl
      _ ≤ (⌊x⌋₊ : ℚ) := by exact_mod_cast h1
      _ ≤ x := h3
  · have h5 : (Nat.log 10 ⌊x⌋₊ : Int) + 1 = ((Nat.log 10 ⌊x⌋₊ + 1 : Nat) : Int) := by push_cast; rfl
    rw [h5, zpow_natCast]
    have h6 : (⌊x⌋₊ : ℚ) + 1 ≤ ((10 ^ (Nat.log 10 ⌊x⌋₊ + 1) : Nat) : ℚ) := by
      exact_mod_cast h2
    calc x < (⌊x⌋₊ : ℚ) + 1 := h4
      _ ≤ ((10 ^ (Nat.log 10 ⌊x⌋₊ + 1) : Nat) : ℚ) := h6
      _ = (10 : ℚ) ^ (Nat.log 10 ⌊x⌋₊ + 1) := by push_cast; rfl

theorem exact_ilog10_of_lt_one (x : ℚ) (hx : x < 1) : exact_ilog10 x ≤ 0 := by
  unfold exact_ilog10
  rw [if_neg (not_le.mpr hx)]
  have : (0 : Int) ≤ (Nat.log 10 ⌊1 / x⌋₊ : Int) := by positivity
  omega

/-- The exact decimal exponent of a rational `x` with `10^m <= x < 10^(m+1)`. -/
theorem exact_ilog10_eq (x : ℚ) (m : Nat) (h1 : (10 : ℚ) ^ m ≤ x) (h2 : x < (10 : ℚ) ^ (m + 1)) :
    exact_ilog10 x = m := by
  have hx : 1 ≤ x := le_trans (one_le_pow₀ (by norm_num)) h1
  obtain ⟨h0, h3, h4⟩ := exact_ilog10_of_one_le x hx
  have e : exact_ilog10 x = (exact_ilog10 x).toNat := (Int.toNat_of_nonneg h0).symm
  rw [e] at h3 h4 ⊢
  have h4' : x < (10 : ℚ) ^ ((exact_ilog10 x).toNat + 1) := by
    have := h4
    rwa [show ((exact_ilog10 x).toNat : Int) + 1 = (((exact_ilog10 x).toNat + 1 : Nat) : Int) by
      push_cast; rfl, zpow_natCast] at this
  rw [zpow_natCast] at h3
  have a1 : (10 : ℚ) ^ m < (10 : ℚ) ^ ((exact_ilog10 x).toNat + 1) := lt_of_le_of_lt h1 h4'
  have a2 : (10 : ℚ) ^ (exact_ilog10 x).toNat < (10 : ℚ) ^ (m + 1) := lt_of_le_of_lt h3 h2
  have b1 := (pow_lt_pow_iff_right₀ (by norm_num : (1 : ℚ) < 10)).mp a1
  have b2 := (pow_lt_pow_iff_right₀ (by norm_num : (1 : ℚ) < 10)).mp a2
  have : (exact_ilog10 x).toNat = m := by omega
  rw [this]

/-- The exact decimal exponent of a positive rational between `10^-N` and `10^K`. -/
theorem exact_ilog10_bounds (x : ℚ) (N K : Nat) (hlo : (10 : ℚ) ^ (-(N : Int)) ≤ x)
    (hhi : x ≤ (10 : ℚ) ^ (K : Int)) :
    -(N : Int) ≤ exact_ilog10 x ∧ exact_ilog10 x ≤ K := by
  have hx : 0 < x := lt_of_lt_of_le (ten_zpow_pos _) hlo
  by_cases h1 : 1 ≤ x
  · obtain ⟨h0, hle, -⟩ := exact_ilog10_of_one_le x h1
    have h2 : (10 : ℚ) ^ exact_ilog10 x ≤ (10 : ℚ) ^ (K : Int) := le_trans hle hhi
    have h3 := (zpow_le_zpow_iff_right₀ (by norm_num : (1 : ℚ) < 10)).mp h2
    omega
  · have hle0 := exact_ilog10_of_lt_one x (not_le.mp h1)
    refine ⟨?_, by omega⟩
    unfold exact_ilog10
    rw [if_neg h1]
    have hone : (10 : ℚ) ^ N * (10 : ℚ) ^ (-(N : Int)) = 1 := by
      rw [← zpow_natCast, ← zpow_add₀ (by norm_num : (10 : ℚ) ≠ 0), add_neg_cancel, zpow_zero]
    have hinv : 1 / x ≤ (10 : ℚ) ^ N := by
      rw [div_le_iff₀ hx]
      calc (1 : ℚ) = (10 : ℚ) ^ N * (10 : ℚ) ^ (-(N : Int)) := hone.symm
        _ ≤ (10 : ℚ) ^ N * x := mul_le_mul_of_nonneg_left hlo (by positivity)
    have hfl : ⌊1 / x⌋₊ ≤ 10 ^ N := by
      apply Nat.floor_le_of_le
      rw [Nat.cast_pow, Nat.cast_ofNat]
      exact hinv
    have hlog : Nat.log 10 ⌊1 / x⌋₊ ≤ Nat.log 10 (10 ^ N) := Nat.log_mono_right hfl
    rw [Nat.log_pow (by norm_num)] at hlog
    omega

/-- The exact decimal exponent of a rational in the range of the positive doubles. -/
theorem exact_ilog10_range (x : ℚ) (hlo : (10 : ℚ) ^ (-324 : Int) ≤ x)
    (hhi : x ≤ (10 : ℚ) ^ (308 : Int)) :
    -324 ≤ exact_ilog10 x ∧ exact_ilog10 x ≤ 308 := by
  have h := exact_ilog10_bounds x 324 308 hlo hhi
  exact ⟨h.1, h.2⟩

theorem wrap_int_eq (z : Int) (h1 : -2147483648 ≤ z) (h2 : z ≤ 2147483647) : wrap_int z = z := by
  unfold wrap_int
  omega

theorem c_abs_eq (z : Int) (h1 : -2147483647 ≤ z) (h2 : z ≤ 2147483647) : c_abs z = |z| := by
  unfold c_abs
  have h3 : |z| ≤ 2147483647 := abs_le.mpr ⟨by omega, h2⟩
  have h4 : 0 ≤ |z| := abs_nonneg z
  exact wrap_int_eq _ (by omega) h3

theorem idealMath_ilog10 (ilog : ℚ → Int) (x : ℚ) : (idealMath ilog).ilog10 x = ilog x := rfl

/-- Over exact arithmetic, and while the `int` arithmetic does not wrap, `digitround`
rounds its argument to the nearest whole multiple of `10^unitExp n ndigits`, where `n`
is what `(int)log10(var)` yields. -/
theorem digitround_eq_unit (ilog : ℚ → Int) (x : ℚ) (d : Int)
    (h1 : -2147483647 ≤ 15 - d - ilog x) (h2 : 15 - d - ilog x ≤ 2147483647) :
    digitround (idealMath ilog) x d
      = c_round (x / (10 : ℚ) ^ unitExp (ilog x) d) * (10 : ℚ) ^ unitExp (ilog x) d := by
  unfold digitround unitExp
  simp only [idealMath_ilog10]
  rw [wrap_int_eq _ (by omega) h2]
  split
  · show c_round (x * (10 : ℚ) ^ d) / (10 : ℚ) ^ d = _
    rw [zpow_neg, div_inv_eq_mul, ← div_eq_mul_inv]
  · rename_i h
    have hneg : 15 - d - ilog x < 0 := by omega
    rw [c_abs_eq _ h1 h2, abs_of_neg hneg]
    have e : -(15 - d - ilog x) = ilog x + d - 15 := by ring
    rw [e]
    rfl

theorem digitround_isMultiple (ilog : ℚ → Int) (x : ℚ) (d : Int)
    (h1 : -2147483647 ≤ 15 - d - ilog x) (h2 : 15 - d - ilog x ≤ 2147483647) :
    IsMultipleOfPow10 (unitExp (ilog x) d) (digitround (idealMath ilog) x d) := by
  rw [digitround_eq_unit ilog x d h1 h2]
  exact isMultiple_round _ _

theorem digitround_near (ilog : ℚ → Int) (x : ℚ) (d : Int)
    (h1 : -2147483647 ≤ 15 - d - ilog x) (h2 : 15 - d - ilog x ≤ 2147483647) :
    |digitround (idealMath ilog) x d - x| ≤ (10 : ℚ) ^ unitExp (ilog x) d / 2 := by
  rw [digitround_eq_unit ilog x d h1 h2]
  generalize unitExp (ilog x) d = e
  have hpos := ten_zpow_pos e
  have h := abs_c_round_sub_le (x / (10 : ℚ) ^ e)
  have e1 : c_round (x / (10 : ℚ) ^ e) * (10 : ℚ) ^ e - x
      = (c_round (x / (10 : ℚ) ^ e) - x / (10 : ℚ) ^ e) * (10 : ℚ) ^ e := by
    field_simp
  rw [e1, abs_mul, abs_of_pos hpos]
  calc |c_round (x / (10 : ℚ) ^ e) - x / (10 : ℚ) ^ e| * (10 : ℚ) ^ e
      ≤ 1 / 2 * (10 : ℚ) ^ e := mul_le_mul_of_nonneg_right h (le_of_lt hpos)
    _ = (10 : ℚ) ^ e / 2 := by ring

/-- The value of `round` on a non-negative rational within half of the whole
number `k`. -/
theorem c_round_eq (x : ℚ) (k : Int) (h0 : 0 ≤ x) (h1 : (k : ℚ) - 1 / 2 ≤ x)
    (h2 : x < (k : ℚ) + 1 / 2) : c_round x = k := by
  unfold c_round
  rw [if_pos h0]
  have : ⌊x + 1 / 2⌋ = k := by
    rw [Int.floor_eq_iff]; constructor <;> linarith
  rw [this]

/-- On a finite double that is zero or negative, with `ndigits` in `0 .. 15`,
`digitround` returns a NaN: `log10` gives `-inf` or a NaN, whose conversion to `int` is
`INT_MIN`; `15 - ndigits - INT_MIN` wraps around to a negative `int`; the divisor
`pow(10., abs(nshift))` is `+inf` (or `+0` when `ndigits = 15`, where `nshift` is
`INT_MIN`); and `round(var / div) * div` is `0 * inf` (or `inf * 0`, or a NaN times 0). -/
theorem digitround_nonpositive_nan (M : CMath F64) (s : Bool) (m : Nat) (ndigits : Int)
    (hv : s = true ∨ m = 0) (hd0 : 0 ≤ ndigits) (hd : ndigits ≤ 15)
    (hlog : M.ilog10 (F64.finite s m) = -2147483648)
    (hinf : ∀ k : Int, 309 ≤ k → M.pow10 k = F64.infinite false)
    (hzero : ∀ k : Int, k ≤ -324 → M.pow10 k = F64.finite false 0)
    (hround : ∀ x, M.round x = F64.c_round x) :
    digitround M (F64.finite s m) ndigits = F64.nan := by
  unfold digitround
  simp only [hlog]
  have hw : wrap_int (15 - ndigits - -2147483648) = 15 - ndigits - 2147483648 := by
    unfold wrap_int
    omega
  rw [hw, if_neg (by omega), hround]
  by_cases h15 : ndigits = 15
  · subst h15
    have ha : c_abs (15 - 15 - 2147483648) = -2147483648 := by decide
    rw [ha, hzero _ (by norm_num)]
    show F64.mul (F64.c_round (F64.div (F64.finite s m) (F64.finite false 0))) (F64.finite false 0)
      = F64.nan
    by_cases hm : m = 0
    · subst hm
      rfl
    · have hdiv : F64.div (F64.finite s m) (F64.finite false 0) = F64.infinite (xor s false) := by
        simp [F64.div, hm]
      rw [hdiv]
      rfl
  · have ha : c_abs (15 - ndigits - 2147483648) = 2147483633 + ndigits := by
      unfold c_abs wrap_int
      have hneg : 15 - ndigits - 2147483648 < 0 := by omega
      rw [abs_of_neg hneg]
      omega
    rw [ha, hinf _ (by omega)]
    show F64.mul (F64.c_round (F64.div (F64.finite s m) (F64.infinite false))) (F64.infinite false)
      = F64.nan
    have hdiv : F64.div (F64.finite s m) (F64.infinite false) = F64.finite (xor s false) 0 := rfl
    rw [hdiv]
    have hr : F64.c_round (F64.finite (xor s false) 0) = F64.finite (xor s false) 0 := by
      cases s <;> decide!
    rw [hr]
    rfl

/-- C11, as stated, fails: for `v = 123.456` (decimal exponent `e = 2`, and
`(int)log10(v) = 2`) and `ndigits = 2`, `digitround` returns `123.46`, which is not a
whole multiple of `10^(e + 1 - ndigits) = 10`: it carries five significant digits,
not two. -/
theorem digitround_significant_counterexample :
    ((10 : ℚ) ^ (2 : Int) ≤ 123456 / 1000 ∧ (123456 / 1000 : ℚ) < (10 : ℚ) ^ ((2 : Int) + 1))
      ∧ digitround (idealMath (fun _ => 2)) (123456 / 1000) 2 = 12346 / 100
      ∧ ¬ IsMultipleOfPow10 (2 + 1 - 2) (digitround (idealMath (fun _ => 2)) (123456 / 1000) 2) := by
  have hval : digitround (idealMath (fun _ => 2)) (123456 / 1000) 2 = 12346 / 100 := by
    rw [digitround_eq_unit _ _ _ (by norm_num) (by norm_num)]
    have hu : unitExp 2 2 = -2 := by decide
    rw [hu, c_round_eq (123456 / 1000 / (10 : ℚ) ^ (-2 : Int)) 12346 (by norm_num) (by norm_num)
      (by norm_num)]
    norm_num
  refine ⟨by norm_num, hval, ?_⟩
  rw [hval]
  rintro ⟨k, hk⟩
  have h1 : (12346 : ℚ) = (k : ℚ) * 1000 := by
    have : (12346 / 100 : ℚ) = (k : ℚ) * 10 := by simpa using hk
    linarith
  have h2 : (12346 : Int) = k * 1000 := by exact_mod_cast h1
  omega

/-- C11, amended: `digitround` rounds to `ndigits` decimal places, not to `ndigits`
significant digits.  For every value `v`, every `ndigits` in `1 .. 15` and whatever
`n = (int)log10(v)` the run computes (between -323 and 308, as for every positive
double), with exact multiply, round and divide, `digitround(v, ndigits)` is the whole
multiple of `10^(-ndigits)` nearest to `v` when `15 - ndigits - n >= 0`, and the whole
multiple of `10^(n + ndigits - 15)` nearest to `v` otherwise. -/
theorem digitround_decimal_places (ilog : ℚ → Int) (v : ℚ) (ndigits : Int)
    (hd1 : 1 ≤ ndigits) (hd2 : ndigits ≤ 15) (hlo : -323 ≤ ilog v) (hhi : ilog v ≤ 308) :
    (15 - ndigits - ilog v ≥ 0 →
        IsMultipleOfPow10 (-ndigits) (digitround (idealMath ilog) v ndigits)
          ∧ |digitround (idealMath ilog) v ndigits - v| ≤ (10 : ℚ) ^ (-ndigits) / 2)
      ∧ (15 - ndigits - ilog v < 0 →
        IsMultipleOfPow10 (ilog v + ndigits - 15) (digitround (idealMath ilog) v ndigits)
          ∧ |digitround (idealMath ilog) v ndigits - v|
              ≤ (10 : ℚ) ^ (ilog v + ndigits - 15) / 2) := by
  have hm := digitround_isMultiple ilog v ndigits (by omega) (by omega)
  have hn := digitround_near ilog v ndigits (by omega) (by omega)
  refine ⟨?_, ?_⟩
  · intro h
    have hu : unitExp (ilog v) ndigits = -ndigits := by
      unfold unitExp; rw [if_pos h]
    rw [hu] at hm hn
    exact ⟨hm, hn⟩
  · intro h
    have hu : unitExp (ilog v) ndigits = ilog v + ndigits - 15 := by
      unfold unitExp; rw [if_neg (by omega)]
    rw [hu] at hm hn
    exact ⟨hm, hn⟩

/-- Witness of the amended C11: `123.456` rounded with `ndigits = 2` (where
`(int)log10` yields 2) is a whole number of hundredths within half a hundredth of
`123.456`; and the double `1000 - 2^-43` rounded with `ndigits = 13`, where the rounded
`log10` is `3.0` and `(int)log10` yields 3, is a whole multiple of 10 within 5 of it. -/
theorem digitround_decimal_places_witness :
    (IsMultipleOfPow10 (-2) (digitround (idealMath (fun _ => 2)) (123456 / 1000) 2)
        ∧ |digitround (idealMath (fun _ => 2)) (123456 / 1000) 2 - 123456 / 1000|
            ≤ (10 : ℚ) ^ (-2 : Int) / 2)
      ∧ (IsMultipleOfPow10 (3 + 13 - 15)
            (digitround (idealMath (fun _ => 3)) (1000 - 1 / 2 ^ 43) 13)
        ∧ |digitround (idealMath (fun _ => 3)) (1000 - 1 / 2 ^ 43) 13 - (1000 - 1 / 2 ^ 43)|
            ≤ (10 : ℚ) ^ ((3 : Int) + 13 - 15) / 2) :=
  ⟨(digitround_decimal_places (fun _ => 2) (123456 / 1000) 2 (by norm_num) (by norm_num)
      (by norm_num) (by norm_num)).1 (by norm_num),
   (digitround_decimal_places (fun _ => 3) (1000 - 1 / 2 ^ 43) 13 (by norm_num) (by norm_num)
      (by norm_num) (by norm_num)).2 (by norm_num)⟩

theorem c_round_nonneg {x : ℚ} (h : 0 ≤ x) : 0 ≤ c_round x := by
  have := c_round_mono h
  rwa [c_round_zero] at this

theorem digitround_nonneg (ilog : ℚ → Int) (x : ℚ) (d : Int) (hx : 0 ≤ x)
    (h1 : -2147483647 ≤ 15 - d - ilog x) (h2 : 15 - d - ilog x ≤ 2147483647) :
    0 ≤ digitround (idealMath ilog) x d := by
  rw [digitround_eq_unit ilog x d h1 h2]
  exact mul_nonneg (c_round_nonneg (div_nonneg hx (le_of_lt (ten_zpow_pos _))))
    (le_of_lt (ten_zpow_pos _))

/-- Rounding to whole multiples of `10^e` does not pass a power `10^b` with
`e <= b`. -/
theorem round_unit_le_zpow (x : ℚ) (e b : Int) (he : e ≤ b) (hx : x ≤ (10 : ℚ) ^ b) :
    c_round (x / (10 : ℚ) ^ e) * (10 : ℚ) ^ e ≤ (10 : ℚ) ^ b := by
  have hpos := ten_zpow_pos e
  obtain ⟨k, hk⟩ := ten_zpow_isInt (b - e) (by omega)
  have hsplit : (10 : ℚ) ^ b = (10 : ℚ) ^ (b - e) * (10 : ℚ) ^ e := by
    rw [← zpow_add₀ (by norm_num : (10 : ℚ) ≠ 0)]
    congr 1
    omega
  have h1 : x / (10 : ℚ) ^ e ≤ (10 : ℚ) ^ (b - e) := by
    rw [div_le_iff₀ hpos, ← hsplit]
    exact hx
  have h2 := c_round_mono h1
  rw [hk, c_round_intCast, ← hk] at h2
  calc c_round (x / (10 : ℚ) ^ e) * (10 : ℚ) ^ e
      ≤ (10 : ℚ) ^ (b - e) * (10 : ℚ) ^ e := mul_le_mul_of_nonneg_right h2 (le_of_lt hpos)
    _ = (10 : ℚ) ^ b := hsplit.symm

theorem neg_le_unitExp (n d : Int) (hd0 : 0 ≤ d) : -d ≤ unitExp n d := by
  unfold unitExp
  split <;> omega

/-- A positive whole multiple of `10^e` is at least `10^e`. -/
theorem isMultiple_pos_ge (e : Int) (y : ℚ) (hy : IsMultipleOfPow10 e y) (hpos : 0 < y) :
    (10 : ℚ) ^ e ≤ y := by
  obtain ⟨k, hk⟩ := hy
  have hp := ten_zpow_pos e
  have hk1 : 1 ≤ k := by
    by_contra hc
    have hk0 : (k : ℚ) ≤ 0 := by exact_mod_cast (by omega : k ≤ 0)
    have : y ≤ 0 := by
      rw [hk]
      exact mul_nonpos_of_nonpos_of_nonneg hk0 (le_of_lt hp)
    linarith
  have hk1q : (1 : ℚ) ≤ (k : ℚ) := by exact_mod_cast hk1
  rw [hk]
  calc (10 : ℚ) ^ e = 1 * (10 : ℚ) ^ e := (one_mul _).symm
    _ ≤ (k : ℚ) * (10 : ℚ) ^ e := mul_le_mul_of_nonneg_right hk1q (le_of_lt hp)

/-- C12, as stated, fails.  With the digit count 16, `digitround(7, 16) = 10` and
`digitround(10, 16) = 0` (exact arithmetic, `(int)log10(7) = 0`, `(int)log10(10) = 1`),
so rounding twice is not rounding once.  And when the first rounding yields 0 the
second does not return 0: in binary64 `digitround(0.25, 0)` is `0` and `digitround(0, 0)`
is a NaN (`(int)log10(0.25) = 0`; `log10(0) = -inf`, converted to `INT_MIN`). -/
theorem digitround_idempotent_counterexample :
    digitround (idealMath (fun x => if x < 10 then 0 else 1)) 7 16 = 10
      ∧ digitround (idealMath (fun x => if x < 10 then 0 else 1))
          (digitround (idealMath (fun x => if x < 10 then 0 else 1)) 7 16) 16 = 0
      ∧ digitround (F64.libm (fun x => if x = F64.ofBits 0 then -2147483648 else 0))
          (F64.ofBits 0x3FD0000000000000) 0 = F64.ofBits 0
      ∧ digitround (F64.libm (fun x => if x = F64.ofBits 0 then -2147483648 else 0))
          (digitround (F64.libm (fun x => if x = F64.ofBits 0 then -2147483648 else 0))
            (F64.ofBits 0x3FD0000000000000) 0) 0 = F64.nan := by
  have h7 : digitround (idealMath (fun x => if x < 10 then 0 else 1)) 7 16 = 10 := by
    rw [digitround_eq_unit _ _ _ (by norm_num) (by norm_num)]
    have hn : (if (7 : ℚ) < 10 then (0 : Int) else 1) = 0 := by norm_num
    rw [hn]
    have hu : unitExp 0 16 = 1 := by decide
    rw [hu, c_round_eq (7 / (10 : ℚ) ^ (1 : Int)) 1 (by norm_num) (by norm_num) (by norm_num)]
    norm_num
  refine ⟨h7, ?_, by decide!, by decide!⟩
  rw [h7, digitround_eq_unit _ _ _ (by norm_num) (by norm_num)]
  have hn : (if (10 : ℚ) < 10 then (0 : Int) else 1) = 1 := by norm_num
  rw [hn]
  have hu : unitExp 1 16 = 2 := by decide
  rw [hu, c_round_eq (10 / (10 : ℚ) ^ (2 : Int)) 0 (by norm_num) (by norm_num) (by norm_num)]
  norm_num

/-- C12, amended: for every positive value `v` in the range of the doubles
(`10^-324 <= v < 10^308`) and every digit count `d` in `0 .. 15` for which the rounded
value is not 0, with exact multiply, round and divide and with `(int)log10` the exact
decimal exponent cut toward zero, `digitround(digitround(v, d), d) = digitround(v, d)`,
also when the first rounding changes the decimal exponent.  When the first rounding
yields 0 the second call is `digitround(0, d)`, which is a NaN. -/
theorem digitround_idempotent (ilog : ℚ → Int) (v : ℚ) (d : Int)
    (hlog : ∀ x : ℚ, 0 < x → ilog x = exact_ilog10 x)
    (hlo : (10 : ℚ) ^ (-324 : Int) ≤ v) (hhi : v < (10 : ℚ) ^ (308 : Int))
    (hd0 : 0 ≤ d) (hd : d ≤ 15) (hr : digitround (idealMath ilog) v d ≠ 0) :
    digitround (idealMath ilog) (digitround (idealMath ilog) v d) d
        = digitround (idealMath ilog) v d
      ∧ ∀ (M : CMath F64) (z : Bool),
          M.ilog10 (F64.finite z 0) = -2147483648 →
          (∀ k : Int, 309 ≤ k → M.pow10 k = F64.infinite false) →
          (∀ k : Int, k ≤ -324 → M.pow10 k = F64.finite false 0) →
          (∀ x, M.round x = F64.c_round x) →
          digitround M (F64.finite z 0) d = F64.nan := by
  refine ⟨?_, fun M z h1 h2 h3 h4 =>
    digitround_nonpositive_nan M z 0 d (Or.inr rfl) hd0 hd h1 h2 h3 h4⟩
  have hv : 0 < v := lt_of_lt_of_le (ten_zpow_pos _) hlo
  have hnv := exact_ilog10_range v hlo (le_of_lt hhi)
  rw [← hlog v hv] at hnv
  have hm := digitround_isMultiple ilog v d (by omega) (by omega)
  have hunit := digitround_eq_unit ilog v d (by omega) (by omega)
  have hr0 := digitround_nonneg ilog v d (le_of_lt hv) (by omega) (by omega)
  have hule : unitExp (ilog v) d ≤ 308 := by
    unfold unitExp
    split <;> omega
  rw [hlog v hv] at hm hunit hule hnv
  generalize digitround (idealMath ilog) v d = r at hm hunit hr0 hr
  have hrpos : 0 < r := lt_of_le_of_ne hr0 (Ne.symm hr)
  have hrlo : (10 : ℚ) ^ (-324 : Int) ≤ r :=
    le_trans (zpow_le_zpow_right₀ (by norm_num) (by have := neg_le_unitExp (exact_ilog10 v) d hd0; omega))
      (isMultiple_pos_ge _ r hm hrpos)
  have hrhi : r ≤ (10 : ℚ) ^ (308 : Int) := by
    rw [hunit]
    exact round_unit_le_zpow v _ 308 hule (le_of_lt hhi)
  have hnr := exact_ilog10_range r hrlo hrhi
  rw [← hlog r hrpos] at hnr
  rw [digitround_eq_unit ilog r d (by omega) (by omega), hlog r hrpos]
  apply round_of_isMultiple
  by_cases h1 : 15 - d - exact_ilog10 r ≥ 0
  · have hu : unitExp (exact_ilog10 r) d = -d := by
      unfold unitExp; rw [if_pos h1]
    rw [hu]
    exact isMultiple_of_le (neg_le_unitExp _ d hd0) r hm
  · have hu : unitExp (exact_ilog10 r) d = exact_ilog10 r + d - 15 := by
      unfold unitExp; rw [if_neg h1]
    have hr1 : 1 ≤ r := by
      by_contra hc
      have := exact_ilog10_of_lt_one r (not_le.mp hc)
      omega
    obtain ⟨-, hlo2, -⟩ := exact_ilog10_of_one_le r hr1
    have hv1 : 1 ≤ v := by
      by_contra hc
      have hn := exact_ilog10_of_lt_one v (not_le.mp hc)
      have hE : unitExp (exact_ilog10 v) d = -d := by
        unfold unitExp; rw [if_pos (by omega)]
      have hle : r ≤ (10 : ℚ) ^ (0 : Int) := by
        rw [hunit, hE]
        exact round_unit_le_zpow v (-d) 0 (by omega) (by simpa using le_of_lt (not_le.mp hc))
      have h10 : (10 : ℚ) ^ (1 : Int) ≤ (10 : ℚ) ^ exact_ilog10 r :=
        zpow_le_zpow_right₀ (by norm_num) (by omega)
      have : (10 : ℚ) ^ (1 : Int) ≤ (10 : ℚ) ^ (0 : Int) := le_trans h10 (le_trans hlo2 hle)
      norm_num at this
    obtain ⟨hn0, -, hvhi⟩ := exact_ilog10_of_one_le v hv1
    by_cases hle : exact_ilog10 r ≤ exact_ilog10 v
    · have hE : unitExp (exact_ilog10 v) d = exact_ilog10 v + d - 15 := by
        unfold unitExp; rw [if_neg (by omega)]
      rw [hu]
      rw [hE] at hm
      exact isMultiple_of_le (by omega) r hm
    · have hub : r ≤ (10 : ℚ) ^ (exact_ilog10 v + 1) := by
        rw [hunit]
        refine round_unit_le_zpow v _ _ ?_ (le_of_lt hvhi)
        unfold unitExp
        split <;> omega
      have hpw : (10 : ℚ) ^ exact_ilog10 r ≤ (10 : ℚ) ^ (exact_ilog10 v + 1) := le_trans hlo2 hub
      have hle2 : exact_ilog10 r ≤ exact_ilog10 v + 1 :=
        (zpow_le_zpow_iff_right₀ (by norm_num : (1 : ℚ) < 10)).mp hpw
      have heq : exact_ilog10 r = exact_ilog10 v + 1 := by omega
      have hreq : r = (10 : ℚ) ^ (exact_ilog10 v + 1) := by
        apply le_antisymm hub
        rw [← heq]
        exact hlo2
      rw [hu, heq]
      rw [hreq]
      exact isMultiple_zpow (by omega)

/-- The value of `digitround(9.96, 1)` over exact arithmetic is 10. -/
theorem digitround_996 : digitround (idealMath exact_ilog10) (996 / 100) 1 = 10 := by
  have hn : exact_ilog10 (996 / 100) = 0 := by
    have := exact_ilog10_eq (996 / 100) 0 (by norm_num) (by norm_num)
    simpa using this
  rw [digitround_eq_unit _ _ _ (by rw [hn]; norm_num) (by rw [hn]; norm_num), hn]
  have hu : unitExp 0 1 = -1 := by decide
  rw [hu, c_round_eq (996 / 100 / (10 : ℚ) ^ (-1 : Int)) 100 (by norm_num) (by norm_num)
    (by norm_num)]
  norm_num

/-- Witness of the amended C12: `9.96` rounded to one decimal place is `10`, a
change of decimal exponent, and rounding `10` again gives `10`. -/
theorem digitround_idempotent_witness :
    digitround (idealMath exact_ilog10) (996 / 100) 1 ≠ 0
      ∧ digitround (idealMath exact_ilog10) (digitround (idealMath exact_ilog10) (996 / 100) 1) 1
          = digitround (idealMath exact_ilog10) (996 / 100) 1 :=
  ⟨by rw [digitround_996]; norm_num,
   (digitround_idempotent exact_ilog10 (996 / 100) 1 (fun _ _ => rfl) (by norm_num) (by norm_num)
    (by norm_num) (by norm_num) (by rw [digitround_996]; norm_num)).1⟩

/-- C15, as stated, fails: `digitround` has no domain check and no error result.  At the
value 0, where `log10` is `-inf`, and at the value -1, where it is a NaN (either
converted to `INT_MIN`), it returns a NaN, silently, like a value for any other
argument. -/
theorem digitround_domain_counterexample :
    digitround (F64.libm (fun _ => -2147483648)) (F64.ofBits 0) 2 = F64.nan
      ∧ digitround (F64.libm (fun _ => -2147483648)) (F64.ofBits 0xBFF0000000000000) 2
          = F64.nan := by
  decide!

/-- C15, amended: `digitround` performs no domain check and has no error result; it
returns a double for every argument.  For every finite value `<= 0` and `ndigits` in
`0 .. 15` that double is a NaN, returned silently: `log10` gives `-inf` or a NaN, its
conversion to `int` is `INT_MIN`, `nshift` wraps around to a negative `int`, the
divisor is `pow(10., abs(nshift))`, an infinity or a zero, and `round(var/div)*div` is
a NaN.  For every positive value (with exact multiply, round and divide, and `n` what
`(int)log10` yields, between -323 and 308) it is a rounded number: the whole multiple
of the rounding unit nearest to the value. -/
theorem digitround_no_domain_check :
    (∀ (M : CMath F64) (s : Bool) (m : Nat) (ndigits : Int),
        (s = true ∨ m = 0) → 0 ≤ ndigits → ndigits ≤ 15 →
        M.ilog10 (F64.finite s m) = -2147483648 →
        (∀ k : Int, 309 ≤ k → M.pow10 k = F64.infinite false) →
        (∀ k : Int, k ≤ -324 → M.pow10 k = F64.finite false 0) →
        (∀ x, M.round x = F64.c_round x) →
        digitround M (F64.finite s m) ndigits = F64.nan)
      ∧ (∀ (ilog : ℚ → Int) (v : ℚ) (ndigits : Int),
          0 < v → 0 ≤ ndigits → ndigits ≤ 15 → -323 ≤ ilog v → ilog v ≤ 308 →
          IsMultipleOfPow10 (unitExp (ilog v) ndigits) (digitround (idealMath ilog) v ndigits)
            ∧ |digitround (idealMath ilog) v ndigits - v|
                ≤ (10 : ℚ) ^ unitExp (ilog v) ndigits / 2) := by
  refine ⟨fun M s m ndigits hv h0 h15 hlog hinf hzero hround =>
    digitround_nonpositive_nan M s m ndigits hv h0 h15 hlog hinf hzero hround, ?_⟩
  intro ilog v ndigits _ h0 h15 hlo hhi
  exact ⟨digitround_isMultiple ilog v ndigits (by omega) (by omega),
    digitround_near ilog v ndigits (by omega) (by omega)⟩

/-- The powers of ten that `digitround` asks for on a value `<= 0`. -/
theorem F64.pow10_large (k : Int) (h : 309 ≤ k) : F64.pow10 k = F64.infinite false := by
  unfold F64.pow10
  rw [if_pos h]

theorem F64.pow10_small (k : Int) (h : k ≤ -324) : F64.pow10 k = F64.finite false 0 := by
  unfold F64.pow10
  rw [if_neg (by omega), if_pos h]

/-- Witness of the amended C15: `digitround(-1.0, 2)` is a NaN, and `digitround(0.5, 1)`
in exact arithmetic (where `(int)log10(0.5) = 0`) is a whole number of tenths. -/
theorem digitround_no_domain_check_witness :
    digitround (F64.libm (fun _ => -2147483648)) (F64.finite true (2 ^ 1074)) 2 = F64.nan
      ∧ IsMultipleOfPow10 (unitExp 0 1) (digitround (idealMath (fun _ => 0)) (1 / 2) 1) :=
  ⟨digitround_no_domain_check.1 (F64.libm (fun _ => -2147483648)) true (2 ^ 1074) 2
      (Or.inl rfl) (by norm_num) (by norm_num) rfl F64.pow10_large F64.pow10_small
      (fun _ => rfl),
   (digitround_no_domain_check.2 (fun _ => 0) (1 / 2) 1 (by norm_num) (by norm_num)
      (by norm_num) (by norm_num) (by norm_num)).1⟩

/-! ## The truncating variants and the reports -/

section VariantProperties

variable {α W : Type}

theorem bittruncate_dbl_eq (tw : Twiddler α) (x : α) (nbits : Nat) :
    bittruncate_dbl tw x nbits
      = Except.ok (tw.ofBits (tw.toBits x &&& not64 (2 ^ min nbits 40 - 1))) := by
  unfold bittruncate_dbl
  rw [bittruncate_eq]

theorem mapM_bind_pure {ε β γ δ : Type} (f : β → Except ε γ) (g : γ → δ) (l : List β) :
    l.mapM (fun a => f a >>= fun b => pure (g b))
      = (l.mapM f >>= fun bs => pure (bs.map g)) := by
  induction l with
  | nil => rfl
  | cons a l ih =>
    rw [List.mapM_cons, List.mapM_cons, ih]
    cases f a with
    | error e => rfl
    | ok b =>
      cases l.mapM f with
      | error e => rfl
      | ok bs => rfl

theorem kahan_private_fst [Zero α] [Add α] [Sub α] (loc : esum_type α) :
    (kahan_private loc).1 = 0 + loc.correction + loc.sum := rfl

/-- The per-worker values of `do_kahan_sum_omp_wbittrunc` are those of
`do_kahan_sum_omp` paired with a correction. -/
theorem kahan_privates_eq [Zero α] [Add α] [Sub α] (var : List α) (ncells : Nat)
    (shares : List (List (Fin ncells))) :
    (shares.mapM (fun share => do
        let loc ← kahan_share var share
        pure (kahan_private loc)))
      = (shares.mapM (kahan_share var) >>= fun locs => pure (locs.map kahan_private)) :=
  mapM_bind_pure (kahan_share var) kahan_private shares

theorem kahan_plain_eq [Zero α] [Add α] [Sub α] (var : List α) (ncells : Nat)
    (shares : List (List (Fin ncells))) :
    (shares.mapM (fun share => do
        let loc ← kahan_share var share
        let sum : α := 0
        let sum := sum + loc.correction
        let sum := sum + loc.sum
        pure sum))
      = (shares.mapM (kahan_share var) >>= fun locs =>
          pure (locs.map (fun loc => 0 + loc.correction + loc.sum))) :=
  mapM_bind_pure (kahan_share var) (fun loc => 0 + loc.correction + loc.sum) shares

/-- C13: in every truncating variant, for all inputs, the reported accurate value
is `T(accurate_sum)` and the reported computed value is `T(sum)` for one and the same
transform `T` with the same precision parameter, where `sum` is the sum of the
variant without truncation, and the reported difference and relative difference are
`T(sum) - T(accurate_sum)` and `(T(sum) - T(accurate_sum)) / T(accurate_sum)`.  `T` is
the masking of `bittruncate` with `nbits`, `digitround` with `ndigits`, or, in the
quad routines, the rounding with the multiplier computed from the sum. -/
theorem truncation_symmetric [Zero α] [Add α] [Sub α] [Div α] [Mul α] [Zero W] [Add W] [Sub W]
    [Div W] [Mul W] (tw : Twiddler α) (M : CMath α) (cv : Widening α W)
    (fmt : String → W → List Char) (var : List α) (varq : List W) (ncells : Nat)
    (shares : List (List (Fin ncells))) (accurate_sum : α) (accurate_wide : W) (nbits : Nat)
    (ndigits : Int) :
    let Tb : α → α := fun x => tw.ofBits (tw.toBits x &&& not64 (2 ^ min nbits 40 - 1))
    let Td : α → α := fun x => digitround M x ndigits
    (do_sum_wbittrunc tw var ncells accurate_sum nbits
        = (do_sum var ncells accurate_sum >>= fun r =>
            pure (report (Tb r.accurate_sum) (Tb r.sum))))
      ∧ (do_sum_omp_wbittrunc tw var ncells accurate_sum nbits shares
        = (do_sum_omp var ncells accurate_sum shares >>= fun r =>
            pure (report (Tb r.accurate_sum) (Tb r.sum))))
      ∧ (do_sum_wdigittrunc M var ncells accurate_sum ndigits
        = (do_sum var ncells accurate_sum >>= fun r =>
            pure (report (Td r.accurate_sum) (Td r.sum))))
      ∧ (do_ldsum_wdigittrunc cv M var ncells accurate_wide ndigits
        = (wide_loop cv var ncells 0 >>= fun ldsum =>
            pure (report_narrow cv (cv.widen (Td (cv.narrow accurate_wide)))
              (cv.widen (Td (cv.narrow ldsum))))))
      ∧ (do_ldsum_wbittrunc cv tw var ncells accurate_wide nbits
        = (wide_loop cv var ncells 0 >>= fun ldsum =>
            pure (report_narrow cv (cv.widen (Tb (cv.narrow accurate_wide)))
              (cv.widen (Tb (cv.narrow ldsum))))))
      ∧ (do_kahan_sum_omp_wbittrunc tw var ncells accurate_sum nbits shares
        = (do_kahan_sum_omp var ncells accurate_sum shares >>= fun r =>
            pure (report (Tb r.accurate_sum) (Tb r.sum))))
      ∧ (do_qdsum_wtrunc cv M fmt var ncells accurate_wide ndigits
        = (wide_loop cv var ncells 0 >>= fun qdsum =>
            pure (quad_report fmt (quad_trunc cv M ndigits qdsum accurate_wide)
              (quad_trunc cv M ndigits qdsum qdsum))))
      ∧ (do_full_qdsum_wtrunc cv M fmt varq ncells accurate_wide ndigits
        = (serial_loop varq ncells 0 >>= fun qdsum =>
            pure (quad_report fmt (quad_trunc cv M ndigits qdsum accurate_wide)
              (quad_trunc cv M ndigits qdsum qdsum))))
      ∧ (∀ a s : α, (report a s).accurate_sum = a ∧ (report a s).sum = s
          ∧ (report a s).diff = s - a ∧ (report a s).reldiff = (s - a) / a)
      ∧ (∀ a s : W, (report_narrow cv a s).accurate_sum = cv.narrow a
          ∧ (report_narrow cv a s).sum = cv.narrow s
          ∧ (report_narrow cv a s).diff = cv.narrow (s - a)
          ∧ (report_narrow cv a s).reldiff = cv.narrow ((s - a) / a))
      ∧ (∀ a s : W, (quad_report fmt a s).accurate_sum = quadmath_snprintf fmt 24 "%-25.24Qg" a
          ∧ (quad_report fmt a s).sum = quadmath_snprintf fmt 24 "%-25.24Qg" s
          ∧ (quad_report fmt a s).diff = quadmath_snprintf fmt 24 "%-20.14Qg" (s - a)
          ∧ (quad_report fmt a s).reldiff
              = quadmath_snprintf fmt 24 "%-20.14Qg" ((s - a) / a)) := by
  intro Tb Td
  refine ⟨?_, ?_, ?_, ?_, ?_, ?_, ?_, ?_, fun _ _ => ⟨rfl, rfl, rfl, rfl⟩,
    fun _ _ => ⟨rfl, rfl, rfl, rfl⟩, fun _ _ => ⟨rfl, rfl, rfl, rfl⟩⟩
  · unfold do_sum_wbittrunc do_sum
    generalize serial_loop var ncells 0 = r
    cases r with
    | error e => rfl
    | ok s =>
      rw [ok_bind, ok_bind, bittruncate_dbl_eq, ok_bind, bittruncate_dbl_eq, ok_bind]
      rfl
  · unfold do_sum_omp_wbittrunc do_sum_omp
    generalize (shares.mapM _ : Except MemError (List α)) = r
    cases r with
    | error e => rfl
    | ok s =>
      simp only [ok_bind, bittruncate_dbl_eq]
      rfl
  · unfold do_sum_wdigittrunc do_sum
    generalize serial_loop var ncells 0 = r
    cases r <;> rfl
  · unfold do_ldsum_wdigittrunc
    generalize wide_loop cv var ncells 0 = r
    cases r <;> rfl
  · unfold do_ldsum_wbittrunc
    generalize wide_loop cv var ncells 0 = r
    cases r with
    | error e => rfl
    | ok s =>
      rw [ok_bind, ok_bind, bittruncate_dbl_eq, ok_bind, bittruncate_dbl_eq, ok_bind]
  · unfold do_kahan_sum_omp_wbittrunc do_kahan_sum_omp
    rw [kahan_privates_eq, kahan_plain_eq]
    generalize shares.mapM (kahan_share var) = r
    cases r with
    | error e => rfl
    | ok locs =>
      have hmap : (locs.map kahan_private).map Prod.fst
          = locs.map (fun loc => 0 + loc.correction + loc.sum) := by
        rw [List.map_map]
        rfl
      simp only [ok_bind, pure_bind, hmap, bittruncate_dbl_eq]
      rfl
  · unfold do_qdsum_wtrunc
    generalize wide_loop cv var ncells 0 = r
    cases r <;> rfl
  · unfold do_full_qdsum_wtrunc
    generalize serial_loop varq ncells 0 = r
    cases r <;> rfl

end VariantProperties

/-! ## The relative difference, the parallel Kahan merge and the quad strings -/

theorem F64.div_zero_not_finite (y : F64) (z : Bool) :
    F64.isFinite (y / F64.finite z 0) = false := by
  show F64.isFinite (F64.div y (F64.finite z 0)) = false
  cases y with
  | nan => rfl
  | infinite a => rfl
  | finite s m =>
    unfold F64.div
    by_cases hm : m = 0
    · simp [hm, F64.isFinite]
    · simp [hm, F64.isFinite]

section ReportProperties

variable {α W : Type}

theorem bind_report_eq {β : Type} (x : Except MemError β) (f : β → Report α) (r : Report α)
    (h : (x >>= fun b => pure (f b)) = Except.ok r) : ∃ b, r = f b := by
  cases x with
  | error e => exact Except.noConfusion h
  | ok b =>
    refine ⟨b, ?_⟩
    have h2 : (Except.ok (f b) : Except MemError (Report α)) = Except.ok r := h
    injection h2 with h3
    exact h3.symm

theorem do_sum_isReport [Zero α] [Add α] [Sub α] [Div α] (var : List α) (n : Nat) (a : α) (r : Report α)
    (h : do_sum var n a = Except.ok r) : ∃ s, r = report a s :=
  bind_report_eq (serial_loop var n 0) (fun s => report a s) r h

theorem do_kahan_sum_isReport [Zero α] [Add α] [Sub α] [Div α] (var : List α) (n : Nat) (a : α) (r : Report α)
    (h : do_kahan_sum var n a = Except.ok r) : ∃ s, r = report a s := by
  obtain ⟨b, hb⟩ := bind_report_eq (kahan_loop var n)
    (fun loc => report a (loc.sum + loc.correction)) r h
  exact ⟨_, hb⟩

theorem do_knuth_sum_isReport [Zero α] [Add α] [Sub α] [Div α] (var : List α) (n : Nat) (a : α) (r : Report α)
    (h : do_knuth_sum var n a = Except.ok r) : ∃ s, r = report a s := by
  obtain ⟨b, hb⟩ := bind_report_eq (knuth_loop var n)
    (fun loc => report a (loc.sum + loc.correction)) r h
  exact ⟨_, hb⟩

theorem do_sum_omp_isReport [Zero α] [Add α] [Sub α] [Div α] (var : List α) (n : Nat) (a : α) (shares : List (List (Fin n)))
    (r : Report α) (h : do_sum_omp var n a shares = Except.ok r) : ∃ s, r = report a s := by
  unfold do_sum_omp at h
  obtain ⟨b, hb⟩ := bind_report_eq _ (fun partials : List α =>
    report a (partials.foldl (fun sum p => sum + p) 0)) r h
  exact ⟨_, hb⟩

theorem do_kahan_sum_omp_isReport [Zero α] [Add α] [Sub α] [Div α] (var : List α) (n : Nat) (a : α)
    (shares : List (List (Fin n))) (r : Report α)
    (h : do_kahan_sum_omp var n a shares = Except.ok r) : ∃ s, r = report a s := by
  unfold do_kahan_sum_omp at h
  obtain ⟨b, hb⟩ := bind_report_eq _ (fun privates : List α =>
    report a (privates.foldl (fun sum p => sum + p) 0)) r h
  exact ⟨_, hb⟩

theorem do_pair_sum_isReport [Zero α] [Add α] [Sub α] [Div α] (var : List α) (n : Nat) (a : α) (r : Report α)
    (h : do_pair_sum var n a = Except.ok r) : ∃ s, r = report a s := by
  unfold do_pair_sum at h
  simp only [] at h
  cases h1 : pair_first var (n / 2) (List.replicate (n / 2) none) with
  | error e => rw [h1] at h; exact Except.noConfusion h
  | ok b1 =>
    rw [h1, ok_bind] at h
    cases h2 : pair_levels n n 1 (n / 2) b1 with
    | error e => rw [h2] at h; exact Except.noConfusion h
    | ok b2 =>
      rw [h2, ok_bind] at h
      exact bind_report_eq (readBuf b2 0) (fun s => report a s) r h

theorem ok_report_inj [Sub α] [Div α] {a s : α} {r : Report α}
    (h : (pure (report a s) : Except MemError (Report α)) = Except.ok r) : r = report a s := by
  have h2 : (Except.ok (report a s) : Except MemError (Report α)) = Except.ok r := h
  injection h2 with h3
  exact h3.symm

theorem do_sum_wbittrunc_isReport [Zero α] [Add α] [Sub α] [Div α] (tw : Twiddler α)
    (var : List α) (n : Nat) (a : α) (nbits : Nat) (r : Report α)
    (h : do_sum_wbittrunc tw var n a nbits = Except.ok r) : ∃ a1 s, r = report a1 s := by
  unfold do_sum_wbittrunc at h
  cases h1 : serial_loop var n 0 with
  | error e => rw [h1] at h; exact Except.noConfusion h
  | ok s =>
    rw [h1] at h
    simp only [ok_bind, bittruncate_dbl_eq] at h
    exact ⟨_, _, ok_report_inj h⟩

theorem do_sum_omp_wbittrunc_isReport [Zero α] [Add α] [Sub α] [Div α] (tw : Twiddler α)
    (var : List α) (n : Nat) (a : α) (nbits : Nat) (shares : List (List (Fin n)))
    (r : Report α) (h : do_sum_omp_wbittrunc tw var n a nbits shares = Except.ok r) :
    ∃ a1 s, r = report a1 s := by
  unfold do_sum_omp_wbittrunc at h
  generalize (shares.mapM _ : Except MemError (List α)) = x at h
  cases x with
  | error e => exact Except.noConfusion h
  | ok s =>
    simp only [ok_bind, bittruncate_dbl_eq] at h
    exact ⟨_, _, ok_report_inj h⟩

theorem do_kahan_sum_omp_wbittrunc_isReport [Zero α] [Add α] [Sub α] [Div α]
    (tw : Twiddler α) (var : List α) (n : Nat) (a : α) (nbits : Nat)
    (shares : List (List (Fin n))) (r : Report α)
    (h : do_kahan_sum_omp_wbittrunc tw var n a nbits shares = Except.ok r) :
    ∃ a1 s, r = report a1 s := by
  unfold do_kahan_sum_omp_wbittrunc at h
  generalize (shares.mapM _ : Except MemError (List (α × α))) = x at h
  cases x with
  | error e => exact Except.noConfusion h
  | ok s =>
    simp only [ok_bind, bittruncate_dbl_eq] at h
    exact ⟨_, _, ok_report_inj h⟩

end ReportProperties

/-- C14, as stated, fails: with the reference sum `+0.0`, `do_sum` on the array `[1.0]`
reports the relative difference `(1 - 0) / 0 = +inf`, and on `[0.0]` it reports NaN;
`do_pair_sum` on `[1.0, 1.0]` reports `+inf` too.  The field is the quotient, not an
"undefined" result. -/
theorem reldiff_undefined_counterexample :
    do_sum [F64.ofBits 0x3FF0000000000000] 1 (F64.ofBits 0)
        = Except.ok { accurate_sum := F64.ofBits 0, sum := F64.ofBits 0x3FF0000000000000,
                      diff := F64.ofBits 0x3FF0000000000000,
                      reldiff := F64.ofBits 0x7FF0000000000000 }
      ∧ do_sum [F64.ofBits 0] 1 (F64.ofBits 0)
        = Except.ok { accurate_sum := F64.ofBits 0, sum := F64.ofBits 0,
                      diff := F64.ofBits 0, reldiff := F64.nan }
      ∧ do_pair_sum [F64.ofBits 0x3FF0000000000000, F64.ofBits 0x3FF0000000000000] 2
          (F64.ofBits 0)
        = Except.ok { accurate_sum := F64.ofBits 0, sum := F64.ofBits 0x4000000000000000,
                      diff := F64.ofBits 0x4000000000000000,
                      reldiff := F64.ofBits 0x7FF0000000000000 } := by
  decide!

/-- C14, amended: in every summation variant, and for every array, the reported
relative difference is the quotient `(sum - accurate_sum) / accurate_sum` of the
reported sums, also when the reference sum (after any truncation) is exactly 0;
there is no "undefined" result.  For the routines with a `double` accumulator the
field is that quotient in binary64, an infinity or a NaN when the reference is a
zero; the `long double` routines report the quotient converted to `double`, the
quad routines the stored text of the quotient. -/
theorem reldiff_is_quotient {W : Type} [Zero W] [Add W] [Sub W] [Div W] [Mul W]
    (tw : Twiddler F64) (M : CMath F64) (cv : Widening F64 W) (fmt : String → W → List Char)
    (var : List F64) (varq : List W) (ncells : Nat) (shares : List (List (Fin ncells)))
    (accurate_sum : F64) (accurate_wide : W) (nbits : Nat) (ndigits : Int) (r : Report F64)
    (h : do_sum var ncells accurate_sum = Except.ok r
      ∨ do_sum_omp var ncells accurate_sum shares = Except.ok r
      ∨ do_kahan_sum var ncells accurate_sum = Except.ok r
      ∨ do_kahan_sum_omp var ncells accurate_sum shares = Except.ok r
      ∨ do_knuth_sum var ncells accurate_sum = Except.ok r
      ∨ do_pair_sum var ncells accurate_sum = Except.ok r
      ∨ do_sum_wbittrunc tw var ncells accurate_sum nbits = Except.ok r
      ∨ do_sum_omp_wbittrunc tw var ncells accurate_sum nbits shares = Except.ok r
      ∨ do_kahan_sum_omp_wbittrunc tw var ncells accurate_sum nbits shares = Except.ok r
      ∨ do_sum_wdigittrunc M var ncells accurate_sum ndigits = Except.ok r) :
    r.reldiff = (r.sum - r.accurate_sum) / r.accurate_sum
      ∧ ((r.accurate_sum = F64.finite false 0 ∨ r.accurate_sum = F64.finite true 0) →
          F64.isFinite r.reldiff = false)
      ∧ (∀ q : Report F64,
          (do_ldsum cv var ncells accurate_wide = Except.ok q
            ∨ do_ldsum_wdigittrunc cv M var ncells accurate_wide ndigits = Except.ok q
            ∨ do_ldsum_wbittrunc cv tw var ncells accurate_wide nbits = Except.ok q) →
          ∃ a s : W, q.accurate_sum = cv.narrow a ∧ q.sum = cv.narrow s
            ∧ q.reldiff = cv.narrow ((s - a) / a))
      ∧ (∀ q : Report (List Char),
          (do_qdsum cv fmt var ncells accurate_wide = Except.ok q
            ∨ do_qdsum_wtrunc cv M fmt var ncells accurate_wide ndigits = Except.ok q
            ∨ do_full_qdsum fmt varq ncells accurate_wide = Except.ok q
            ∨ do_full_qdsum_wtrunc cv M fmt varq ncells accurate_wide ndigits = Except.ok q) →
          ∃ a s : W, q.accurate_sum = quadmath_snprintf fmt 24 "%-25.24Qg" a
            ∧ q.sum = quadmath_snprintf fmt 24 "%-25.24Qg" s
            ∧ q.reldiff = quadmath_snprintf fmt 24 "%-20.14Qg" ((s - a) / a)) := by
  have key : ∃ a s, r = report a s := by
    rcases h with h | h | h | h | h | h | h | h | h | h
    · obtain ⟨s, hs⟩ := do_sum_isReport _ _ _ _ h; exact ⟨_, s, hs⟩
    · obtain ⟨s, hs⟩ := do_sum_omp_isReport _ _ _ _ _ h; exact ⟨_, s, hs⟩
    · obtain ⟨s, hs⟩ := do_kahan_sum_isReport _ _ _ _ h; exact ⟨_, s, hs⟩
    · obtain ⟨s, hs⟩ := do_kahan_sum_omp_isReport _ _ _ _ _ h; exact ⟨_, s, hs⟩
    · obtain ⟨s, hs⟩ := do_knuth_sum_isReport _ _ _ _ h; exact ⟨_, s, hs⟩
    · obtain ⟨s, hs⟩ := do_pair_sum_isReport _ _ _ _ h; exact ⟨_, s, hs⟩
    · exact do_sum_wbittrunc_isReport _ _ _ _ _ _ h
    · exact do_sum_omp_wbittrunc_isReport _ _ _ _ _ _ _ h
    · exact do_kahan_sum_omp_wbittrunc_isReport _ _ _ _ _ _ _ h
    · obtain ⟨s, hs⟩ := bind_report_eq (serial_loop var ncells 0)
        (fun s => report (digitround M accurate_sum ndigits) (digitround M s ndigits)) r h
      exact ⟨_, _, hs⟩
  obtain ⟨a, s, hr⟩ := key
  subst hr
  refine ⟨rfl, ?_, ?_, ?_⟩
  · intro hz
    show F64.isFinite ((s - a) / a) = false
    have ha : (report a s).accurate_sum = a := rfl
    rw [ha] at hz
    rcases hz with hz | hz <;> rw [hz] <;> exact F64.div_zero_not_finite _ _
  · intro q hq
    have key2 : ∃ a s : W, q = report_narrow cv a s := by
      rcases hq with hq | hq | hq
      · obtain ⟨s, hs⟩ := bind_report_eq (wide_loop cv var ncells 0)
          (fun s => report_narrow cv accurate_wide s) q hq
        exact ⟨_, _, hs⟩
      · obtain ⟨s, hs⟩ := bind_report_eq (wide_loop cv var ncells 0)
          (fun s => report_narrow cv
            (cv.widen (digitround M (cv.narrow accurate_wide) ndigits))
            (cv.widen (digitround M (cv.narrow s) ndigits))) q hq
        exact ⟨_, _, hs⟩
      · unfold do_ldsum_wbittrunc at hq
        cases h1 : wide_loop cv var ncells 0 with
        | error e => rw [h1] at hq; exact Except.noConfusion hq
        | ok s =>
          rw [h1] at hq
          simp only [ok_bind, bittruncate_dbl_eq] at hq
          have h2 : (Except.ok (report_narrow cv _ _) : Except MemError (Report F64))
              = Except.ok q := hq
          injection h2 with h3
          exact ⟨_, _, h3.symm⟩
    obtain ⟨a2, s2, hq2⟩ := key2
    subst hq2
    exact ⟨a2, s2, rfl, rfl, rfl⟩
  · intro q hq
    have key3 : ∃ a s : W, q = quad_report fmt a s := by
      rcases hq with hq | hq | hq | hq
      · obtain ⟨s, hs⟩ := bind_report_eq (wide_loop cv var ncells 0)
          (fun s => quad_report fmt accurate_wide s) q hq
        exact ⟨_, _, hs⟩
      · obtain ⟨s, hs⟩ := bind_report_eq (wide_loop cv var ncells 0)
          (fun s => quad_report fmt (quad_trunc cv M ndigits s accurate_wide)
            (quad_trunc cv M ndigits s s)) q hq
        exact ⟨_, _, hs⟩
      · obtain ⟨s, hs⟩ := bind_report_eq (serial_loop varq ncells 0)
          (fun s => quad_report fmt accurate_wide s) q hq
        exact ⟨_, _, hs⟩
      · obtain ⟨s, hs⟩ := bind_report_eq (serial_loop varq ncells 0)
          (fun s => quad_report fmt (quad_trunc cv M ndigits s accurate_wide)
            (quad_trunc cv M ndigits s s)) q hq
        exact ⟨_, _, hs⟩
    obtain ⟨a3, s3, hq3⟩ := key3
    subst hq3
    exact ⟨a3, s3, rfl, rfl, rfl⟩

/-- Witness of the amended C14: the bit-truncating serial sum of `[1.0]` with the
reference `+0.0`.  The wider type and the math functions play no part in this
routine; they are taken to be binary64 itself and constants. -/
theorem reldiff_is_quotient_witness :
    do_sum_wbittrunc F64.twiddler [F64.ofBits 0x3FF0000000000000] 1 (F64.ofBits 0) 8
        = Except.ok (report (F64.ofBits 0) (F64.ofBits 0x3FF0000000000000))
      ∧ F64.isFinite (report (F64.ofBits 0) (F64.ofBits 0x3FF0000000000000)).reldiff = false := by
  have h : do_sum_wbittrunc F64.twiddler [F64.ofBits 0x3FF0000000000000] 1 (F64.ofBits 0) 8
      = Except.ok (report (F64.ofBits 0) (F64.ofBits 0x3FF0000000000000)) := by decide!
  have w := reldiff_is_quotient (W := F64) F64.twiddler
    { ilog10 := fun _ => 0, pow10 := fun _ => F64.ofBits 0x3FF0000000000000, round := id }
    { widen := id, narrow := id }
    (fun _ _ => []) [F64.ofBits 0x3FF0000000000000] [] 1 [] (F64.ofBits 0) (F64.ofBits 0) 8 2 _
    (Or.inr (Or.inr (Or.inr (Or.inr (Or.inr (Or.inr (Or.inl h)))))))
  exact ⟨h, w.2.1 (Or.inl (by decide))⟩

/-- C18, as stated, fails: on the array `2^53, 1.5, 1` with the first two elements
given to one worker and the third to another, the workers end with the pairs
`(2^53, 2)` and `(0, 1)`; `do_kahan_sum_omp` reports `2^53 + 4`, the plain sum
`0 + ((0 + 2) + 2^53) + ((0 + 1) + 0)`, while folding the Kahan step over the partial
values with a carried correction gives `2^53 + 2`. -/
theorem kahan_merge_counterexample :
    ([[0, 1], [2]] : List (List (Fin 3))).mapM (kahan_share mergeArray)
        = Except.ok [{ sum := F64.ofBits 0x4340000000000000,
                       correction := F64.ofBits 0x4000000000000000 },
                     { sum := F64.ofBits 0, correction := F64.ofBits 0x3FF0000000000000 }]
      ∧ Except.map Report.sum (do_kahan_sum_omp mergeArray 3 0 [[0, 1], [2]])
        = Except.ok (F64.ofBits 0x4340000000000002)
      ∧ spec_kahan_merge [{ sum := F64.ofBits 0x4340000000000000,
                            correction := F64.ofBits 0x4000000000000000 },
                          { sum := F64.ofBits 0, correction := F64.ofBits 0x3FF0000000000000 }]
        = F64.ofBits 0x4340000000000001 := by
  decide!

/-- C18, amended: in `do_kahan_sum_omp` the per-worker `(sum, correction)` pairs are
merged by plain addition.  For every array, every team and every list of per-worker
pairs the final sum is `0 + p_1 + ... + p_m`, added in the order of combination by
the `+` of the reduction clause, where `p_t = (0 + local.correction_t) + local.sum_t`
is the contribution of worker `t`; no correction is carried across workers or added
into the final result.  The arithmetic is arbitrary (no law of `+` is used). -/
theorem kahan_omp_plain_merge {α : Type} [Zero α] [Add α] [Sub α] [Div α]
    (var : List α) (ncells : Nat) (accurate_sum : α) (shares : List (List (Fin ncells))) :
    do_kahan_sum_omp var ncells accurate_sum shares
        = (shares.mapM (kahan_share var) >>= fun pairs =>
            pure (report accurate_sum
              ((pairs.map (fun loc => 0 + loc.correction + loc.sum)).foldl
                (fun sum p => sum + p) 0))) := by
  unfold do_kahan_sum_omp
  rw [kahan_plain_eq]
  generalize shares.mapM (kahan_share var) = r
  cases r <;> rfl

/-- The merge of `do_kahan_sum_omp_wbittrunc` on the array `2^53, 1.5, 1` divided as
`{0, 1}, {2}`: the Kahan-shaped statements after the loop work on the private copies
of `sum` and `correction`, which start at 0 in every worker, so each worker
contributes `(0 + local.correction) + local.sum` and the contributions are added by
the reduction; the routine reports `2^53 + 4` where the compensated merge of the two
pairs is `2^53 + 2`. -/
theorem kahan_omp_wbittrunc_merge_on_mergeArray :
    Except.map Report.sum
        (do_kahan_sum_omp_wbittrunc F64.twiddler mergeArray 3 0 0 [[0, 1], [2]])
      = Except.ok (F64.ofBits 0x4340000000000002) := by
  decide!

theorem digitsShown_le_length (s : List Char) : digitsShown s ≤ s.length :=
  List.length_filter_le _ _

theorem quadmath_snprintf_length {W : Type} (fmt : String → W → List Char) (format : String)
    (x : W) : (quadmath_snprintf fmt 24 format x).length ≤ 23 := by
  unfold quadmath_snprintf
  exact List.length_take_le _ _

theorem quad_report_cut {W : Type} [Sub W] [Div W] (fmt : String → W → List Char) (a s : W) :
    (quad_report fmt a s).accurate_sum.length ≤ 23 ∧ (quad_report fmt a s).sum.length ≤ 23 :=
  ⟨quadmath_snprintf_length fmt _ a, quadmath_snprintf_length fmt _ s⟩

/-- C19 fails on the code: `quadmath_snprintf` is called with the size 24, so at most
23 characters of each conversion are stored.  In all four quad routines the strings
of the accurate and of the computed sum have at most 23 characters and so show fewer
than 24 significant digits; a value whose `%-25.24Qg` text is
`0.333333333333333333333333` is stored as `0.333333333333333333333`: 22 digit
characters, the leading 0 among them, so 21 significant digits.
A `%-20.14Qg` text of at most 23 characters is stored whole. -/
theorem quad_sum_strings_cut {α W : Type} [Zero W] [Add W] [Sub W] [Div W] [Mul W]
    (cv : Widening α W) (M : CMath α) (fmt : String → W → List Char) (var : List α)
    (varq : List W) (ncells : Nat) (accurate_qdsum : W) (ndigits : Int) :
    (∀ r : Report (List Char),
        (do_qdsum cv fmt var ncells accurate_qdsum = Except.ok r
          ∨ do_qdsum_wtrunc cv M fmt var ncells accurate_qdsum ndigits = Except.ok r
          ∨ do_full_qdsum fmt varq ncells accurate_qdsum = Except.ok r
          ∨ do_full_qdsum_wtrunc cv M fmt varq ncells accurate_qdsum ndigits = Except.ok r) →
        r.accurate_sum.length ≤ 23 ∧ r.sum.length ≤ 23
          ∧ digitsShown r.accurate_sum < 24 ∧ digitsShown r.sum < 24)
      ∧ (∀ x : W, fmt "%-25.24Qg" x = "0.333333333333333333333333".toList →
          quadmath_snprintf fmt 24 "%-25.24Qg" x = "0.333333333333333333333".toList)
      ∧ digitsShown "0.333333333333333333333".toList = 22
      ∧ (∀ x : W, (fmt "%-20.14Qg" x).length ≤ 23 →
          quadmath_snprintf fmt 24 "%-20.14Qg" x = fmt "%-20.14Qg" x) := by
  refine ⟨?_, ?_, by decide, ?_⟩
  · intro r h
    have key : ∃ a s, r = quad_report fmt a s := by
      rcases h with h | h | h | h
      · unfold do_qdsum at h
        cases h1 : wide_loop cv var ncells 0 with
        | error e => rw [h1] at h; exact Except.noConfusion h
        | ok q =>
          rw [h1] at h
          injection h with h2
          exact ⟨_, _, h2.symm⟩
      · unfold do_qdsum_wtrunc at h
        cases h1 : wide_loop cv var ncells 0 with
        | error e => rw [h1] at h; exact Except.noConfusion h
        | ok q =>
          rw [h1] at h
          injection h with h2
          exact ⟨_, _, h2.symm⟩
      · unfold do_full_qdsum at h
        cases h1 : serial_loop varq ncells 0 with
        | error e => rw [h1] at h; exact Except.noConfusion h
        | ok q =>
          rw [h1] at h
          injection h with h2
          exact ⟨_, _, h2.symm⟩
      · unfold do_full_qdsum_wtrunc at h
        cases h1 : serial_loop varq ncells 0 with
        | error e => rw [h1] at h; exact Except.noConfusion h
        | ok q =>
          rw [h1] at h
          injection h with h2
          exact ⟨_, _, h2.symm⟩
    obtain ⟨a, s, hr⟩ := key
    subst hr
    obtain ⟨h1, h2⟩ := quad_report_cut fmt a s
    have h3 := digitsShown_le_length (quad_report fmt a s).accurate_sum
    have h4 := digitsShown_le_length (quad_report fmt a s).sum
    exact ⟨h1, h2, by omega, by omega⟩
  · intro x hx
    unfold quadmath_snprintf
    rw [hx]
    decide
  · intro x hx
    unfold quadmath_snprintf
    exact List.take_of_length_le hx

/-! ### The loop invariant of `do_kahan_sum` -/

/-- C21: over exact arithmetic the loop of `do_kahan_sum` keeps an invariant.  Before
the first iteration both fields are 0.  After iteration `i` (that is, after `i + 1`
passes) `local.correction` equals `var[i]`, the whole last term, and `local.sum`
equals `var[0] + ... + var[i-1]`, so `local.sum + local.correction` is the prefix sum
`var[0] + ... + var[i]`.  The loop never fails on an array of `N` elements, and the
value the routine reports, `local.sum + local.correction` after the loop, is the sum
of all `N` elements, for every `N >= 0`. -/
theorem kahan_loop_invariant {α : Type} [AddCommGroup α] [Div α] (var : List α)
    (ncells : Nat) (accurate_sum : α) (hlen : var.length = ncells) :
    kahan_loop var 0 = Except.ok { sum := 0, correction := 0 }
      ∧ (∀ (i : Nat) (hi : i < var.length), ∃ loc : esum_type α,
          kahan_loop var (i + 1) = Except.ok loc
            ∧ loc.correction = var[i]
            ∧ loc.sum = (var.take i).sum
            ∧ loc.sum + loc.correction = (var.take (i + 1)).sum)
      ∧ (∃ loc : esum_type α, kahan_loop var ncells = Except.ok loc
          ∧ loc.sum + loc.correction = var.sum)
      ∧ do_kahan_sum var ncells accurate_sum
          = Except.ok (report accurate_sum var.sum) := by
  have hpre : ∀ (i : Nat) (hi : i < var.length),
      (var.take i).sum + var[i] = (var.take (i + 1)).sum := by
    intro i hi
    rw [List.take_succ, List.getElem?_eq_getElem hi, List.sum_append]
    simp
  refine ⟨rfl, ?_, ?_, do_kahan_sum_eq var ncells accurate_sum hlen⟩
  · intro i hi
    exact ⟨_, kahan_loop_exact var i hi, rfl, rfl, hpre i hi⟩
  · subst hlen
    cases hv : var.length with
    | zero =>
      have hnil : var = [] := List.length_eq_zero.mp hv
      subst hnil
      exact ⟨{ sum := 0, correction := 0 }, rfl, by simp⟩
    | succ i =>
      have hi : i < var.length := by omega
      refine ⟨_, kahan_loop_exact var i hi, ?_⟩
      show (var.take i).sum + var[i] = var.sum
      rw [hpre i hi, ← hv, List.take_length]

/-- Witness of C21 on `[1, 2, 3]` over the rationals: after the last iteration
`local.sum` is `1 + 2`, `local.correction` is `3`, and the routine reports 6. -/
theorem kahan_loop_invariant_witness :
    kahan_loop ([1, 2, 3] : List ℚ) (2 + 1) = Except.ok { sum := 1 + 2, correction := 3 }
      ∧ do_kahan_sum ([1, 2, 3] : List ℚ) 3 6 = Except.ok (report 6 (1 + 2 + 3)) := by
  have h := kahan_loop_invariant ([1, 2, 3] : List ℚ) 3 6 rfl
  refine ⟨?_, ?_⟩
  · obtain ⟨loc, hloop, hc, hs, _⟩ := h.2.1 2 (by decide)
    rw [hloop]
    congr 1
    cases loc with
    | mk s c =>
      simp only at hc hs
      subst hc hs
      norm_num
  · rw [h.2.2.2]
    norm_num

end GlobalSums
